import Mathlib

/-!
# bdf_tga.c : glyph bitstream decoder

A shallow embedding of `tools/font/bdfconv/bdf_tga.c`.

* `uint8_t` is `Fin 256`; `unsigned` and `int` values are `Nat` / `Int`, every
  `unsigned` operation is reduced modulo `2 ^ 32` where the C code can wrap.
* Pointers into the font blob are indices into a `List uint8_t`.  A dereference
  outside the blob and a shift whose count or result is outside the range C
  defines are undefined behaviour in C; here they are reported as a `Fault`.
* The loops `for(;;)` and `do ... while` take a fuel argument, exhausted fuel
  is the separate outcome `Fault.fuel`.
* The file written by `tga_save` is the list of the octets written to it.
-/

namespace BdfTga

/-- An octet, the C type `uint8_t`. -/
abbrev uint8_t := Fin 256

/-- Number of values of the C type `unsigned` (32 bits). -/
def UINT : Nat := 2 ^ 32

/-- Reasons for which the embedded code stops without a result. -/
inductive Fault where
  /-- dereference of `ptr[idx]` outside the byte buffer -/
  | out_of_bounds (idx : Nat)
  /-- shift whose count or result is not defined by C -/
  | shift (amount : Nat)
  /-- the loop budget of the model is used up (not a behaviour of the C code) -/
  | fuel
  /-- an `int` expression whose value is not representable in `int` -/
  | int_overflow
  deriving DecidableEq, Repr

deriving instance DecidableEq for Except

/-- The struct `tga_fd_struct`.  `decode_ptr` is an index into the font blob.
The five `*_max_bit_size` members of the C struct are never read or written by
any function of the file and are left out.  `inc_calls` is a ghost member: it
counts the calls of `tga_fd_inc` and is never read by the code. -/
structure tga_fd_t where
  target_x : Nat
  target_y : Nat
  x : Nat
  y : Nat
  glyph_width : Nat
  glyph_height : Nat
  decode_ptr : Nat
  decode_bit_pos : Nat
  inc_calls : Nat
  deriving DecidableEq, Repr

/-- Dereference `*(ptr)` of a `uint8_t` pointer into the blob `mem`. -/
def deref (mem : List uint8_t) (ptr : Nat) : Except Fault Nat :=
  match mem[ptr]? with
  | some b => .ok b.val
  | none => .error (.out_of_bounds ptr)

/-- The function `tga_fd_get_unsigned_bits`: returns the value read and the
updated decoder state. -/
def tga_fd_get_unsigned_bits (mem : List uint8_t) (f : tga_fd_t) (cnt : Nat) :
    Except Fault (Nat × tga_fd_t) := do
  let bit_pos := f.decode_bit_pos
  -- val = *(f->decode_ptr);
  let val ← deref mem f.decode_ptr
  -- val >>= bit_pos;
  if 32 ≤ bit_pos then throw (.shift bit_pos)
  let val := val >>> bit_pos
  -- if ( bit_pos + cnt >= 8 )
  let (val, bit_pos, ptr) ←
    if 8 ≤ (bit_pos + cnt) % UINT then do
      -- f->decode_ptr++;
      let ptr := f.decode_ptr + 1
      -- val |= *(f->decode_ptr) << (8-bit_pos);
      let next ← deref mem ptr
      let s := (8 + UINT - bit_pos) % UINT
      if 32 ≤ s ∨ 2 ^ 31 ≤ next <<< s then throw (.shift s)
      let val := val ||| (next <<< s)
      -- bit_pos -= 8;
      pure (val, (bit_pos + UINT - 8) % UINT, ptr)
    else
      pure (val, bit_pos, f.decode_ptr)
  -- val &= (1U<<cnt)-1;
  if 32 ≤ cnt then throw (.shift cnt)
  let val := val &&& (((1 <<< cnt) % UINT + UINT - 1) % UINT)
  -- bit_pos += cnt;
  let bit_pos := (bit_pos + cnt) % UINT
  -- f->decode_bit_pos = bit_pos;
  pure (val, { f with decode_ptr := ptr, decode_bit_pos := bit_pos })

/-- The function `tga_fd_get_signed_bits`. -/
def tga_fd_get_signed_bits (mem : List uint8_t) (f : tga_fd_t) (cnt : Nat) :
    Except Fault (Int × tga_fd_t) := do
  let (v, f) ← tga_fd_get_unsigned_bits mem f cnt
  -- (1<<cnt)>>1 in `int`
  if 31 ≤ cnt then throw (.shift cnt)
  pure ((v : Int) - (((1 <<< cnt) >>> 1 : Nat) : Int), f)

/-- Bit `k` of the byte stream `mem`, least significant bit of each byte first. -/
def stream_bit (mem : List uint8_t) (k : Nat) : Bool :=
  match mem[k / 8]? with
  | some b => b.val.testBit (k % 8)
  | none => false

/-- Absolute bit position of the read cursor. -/
def bit_index (f : tga_fd_t) : Nat := 8 * f.decode_ptr + f.decode_bit_pos

/-- The file-scope variables written by `tga_set_font`.  `tga_font` points at
the first glyph table entry (an index into the font blob).  The C variables are
of type `int` and receive octets of the font header, so they are natural
numbers here; `char_descent` is read through an `int8_t` pointer. -/
structure Font where
  tga_font : Nat
  glyph_cnt : Nat
  bits_per_0 : Nat
  bits_per_1 : Nat
  bits_per_char_width : Nat
  bits_per_char_height : Nat
  bits_per_char_x : Nat
  bits_per_char_y : Nat
  bits_per_delta_x : Nat
  char_width : Nat
  char_height : Nat
  char_descent : Int
  deriving DecidableEq, Repr

/-- The raster: the file-scope variables `tga_width`, `tga_height`, `tga_data`. -/
structure Tga where
  tga_width : Nat
  tga_height : Nat
  tga_data : List uint8_t
  deriving DecidableEq, Repr

/-- The function `tga_set_pixel`.  The parameters `x` and `y` are `uint16_t`:
the argument values are narrowed modulo `2 ^ 16` on entry. -/
def tga_set_pixel (t : Tga) (x y : Nat) (r g b : uint8_t) : Tga :=
  let x := x % 65536
  let y := y % 65536
  if y ≥ t.tga_height then t
  else if x ≥ t.tga_width then t
  else
    -- p = tga_data + (tga_height-y-1)*(size_t)tga_width*3 + (size_t)x*3;
    let p := (t.tga_height - y - 1) * t.tga_width * 3 + x * 3
    -- *p++ = b; *p++ = g; *p++ = r;
    { t with tga_data := ((t.tga_data.set p b).set (p + 1) g).set (p + 2) r }

/-- The function `tga_fd_inc`: increment x and consider line wrap (inc y). -/
def tga_fd_inc (f : tga_fd_t) : tga_fd_t :=
  let x := (f.x + 1) % UINT
  if x = f.glyph_width then
    { f with x := 0, y := (f.y + 1) % UINT, inc_calls := f.inc_calls + 1 }
  else
    { f with x := x, inc_calls := f.inc_calls + 1 }

/-- The function `tga_fd_draw_pixel`. -/
def tga_fd_draw_pixel (f : tga_fd_t) (t : Tga) : Tga :=
  tga_set_pixel t ((f.target_x + f.x) % UINT) ((f.target_y + f.y) % UINT) 0 0 0

/-- The loop `for( i = 0; i < a; i++ )` of `tga_fd_decode`: `a` cells are
passed over, each marked light gray when `is_hints` is set. -/
def skip_loop (is_hints : Bool) : Nat → tga_fd_t × Tga → tga_fd_t × Tga
  | 0, s => s
  | a + 1, (f, t) =>
    let t := if is_hints then
        tga_set_pixel t ((f.target_x + f.x) % UINT) ((f.target_y + f.y) % UINT) 0x0e0 0x0e0 0x0e0
      else t
    skip_loop is_hints a (tga_fd_inc f, t)

/-- The loop `for( i = 0; i < b; i++ )` of `tga_fd_decode`: `b` cells are painted. -/
def paint_loop : Nat → tga_fd_t × Tga → tga_fd_t × Tga
  | 0, s => s
  | b + 1, (f, t) => paint_loop b (tga_fd_inc f, tga_fd_draw_pixel f t)

/-- The loop `do ... while( tga_fd_get_unsigned_bits(f, 1) != 0 )` of
`tga_fd_decode`, for the pair `a`, `b` read before it. -/
def repeat_loop (mem : List uint8_t) (is_hints : Bool) (a b : Nat) :
    Nat → tga_fd_t × Tga → Except Fault (tga_fd_t × Tga)
  | 0, _ => .error .fuel
  | fuel + 1, s => do
    let s := skip_loop is_hints a s
    let s := paint_loop b s
    let (c, f) ← tga_fd_get_unsigned_bits mem s.1 1
    if c ≠ 0 then repeat_loop mem is_hints a b fuel (f, s.2)
    else pure (f, s.2)

/-- The loop `for(;;)` of `tga_fd_decode`. -/
def glyph_loop (font : Font) (mem : List uint8_t) (is_hints : Bool) :
    Nat → tga_fd_t × Tga → Except Fault (tga_fd_t × Tga)
  | 0, _ => .error .fuel
  | fuel + 1, (f, t) => do
    -- a = tga_fd_get_unsigned_bits(f, bits_per_0);
    let (a, f) ← tga_fd_get_unsigned_bits mem f font.bits_per_0
    -- b = tga_fd_get_unsigned_bits(f, bits_per_1);
    let (b, f) ← tga_fd_get_unsigned_bits mem f font.bits_per_1
    let (f, t) ← repeat_loop mem is_hints a b (fuel + 1) (f, t)
    -- if ( f->y >= f->glyph_height ) break;
    if f.y ≥ f.glyph_height then pure (f, t)
    else glyph_loop font mem is_hints fuel (f, t)

/-- Conversion of an `int` to `unsigned`. -/
def to_unsigned (i : Int) : Nat := (i % (UINT : Int)).toNat

/-- The function `tga_fd_decode`.  `glyph_data` is the index of the glyph's
table entry in the font blob; the result is the returned value together with
the decoder state and the raster as the call leaves them. -/
def tga_fd_decode (font : Font) (mem : List uint8_t) (fuel : Nat)
    (f : tga_fd_t) (t : Tga) (glyph_data : Nat) (is_hints : Bool) :
    Except Fault (Nat × tga_fd_t × Tga) := do
  -- f->decode_ptr = glyph_data; f->decode_bit_pos = 0;
  let f := { f with decode_ptr := glyph_data, decode_bit_pos := 0 }
  -- f->decode_ptr += 1; f->decode_ptr += 1;
  let f := { f with decode_ptr := f.decode_ptr + 1 }
  let f := { f with decode_ptr := f.decode_ptr + 1 }
  let (w, f) ← tga_fd_get_unsigned_bits mem f font.bits_per_char_width
  let f := { f with glyph_width := w }
  let (h, f) ← tga_fd_get_unsigned_bits mem f font.bits_per_char_height
  let f := { f with glyph_height := h }
  let (x, f) ← tga_fd_get_signed_bits mem f font.bits_per_char_x
  let (y, f) ← tga_fd_get_signed_bits mem f font.bits_per_char_y
  let (d, f) ← tga_fd_get_signed_bits mem f font.bits_per_delta_x
  -- `d` is declared `unsigned`
  let d := to_unsigned d
  if f.glyph_width > 0 then
    -- f->target_x += x;
    let f := { f with target_x := to_unsigned ((f.target_x : Int) + x) }
    -- f->target_y -= f->glyph_height ;
    let f := { f with target_y := to_unsigned ((f.target_y : Int) - (f.glyph_height : Int)) }
    -- f->target_y -=y ;
    let f := { f with target_y := to_unsigned ((f.target_y : Int) - y) }
    -- f->x = 0; f->y = 0;
    let f := { f with x := 0, y := 0 }
    let (f, t) ← glyph_loop font mem is_hints fuel (f, t)
    pure (d, f, t)
  else
    pure (d, f, t)

/-- The colour triple `(r, g, b)` the raster holds at `(x, y)`, read back at the
place where `tga_set_pixel` stores it. -/
def get_pixel (t : Tga) (x y : Nat) : Option (uint8_t × uint8_t × uint8_t) :=
  if y < t.tga_height ∧ x < t.tga_width then
    let p := (t.tga_height - y - 1) * t.tga_width * 3 + x * 3
    match t.tga_data[p]?, t.tga_data[p + 1]?, t.tga_data[p + 2]? with
    | some b, some g, some r => some (r, g, b)
    | _, _, _ => none
  else none

/-- A white raster as `tga_init` leaves it. -/
def white (w h : Nat) : Tga := ⟨w, h, List.replicate (w * h * 3) 255⟩

/-- A decoder state of which only the read cursor matters. -/
def cursor (ptr bp : Nat) : tga_fd_t := ⟨0, 0, 0, 0, 0, 0, ptr, bp, 0⟩

/-- The state `f` with the read cursor of `c`. -/
def set_cursor (f c : tga_fd_t) : tga_fd_t :=
  { f with decode_ptr := c.decode_ptr, decode_bit_pos := c.decode_bit_pos }

/-- The five geometry fields of a glyph and the read cursor behind them. -/
structure GlyphHeader where
  glyph_width : Nat
  glyph_height : Nat
  x : Int
  y : Int
  d : Int
  decode_ptr : Nat
  decode_bit_pos : Nat
  deriving DecidableEq, Repr

/-- The geometry fields of the glyph at `glyph_data`, read the way
`tga_fd_decode` reads them: two bytes are passed over, then `glyph_width`,
`glyph_height` (unsigned), `x`, `y`, `d` (signed) are read in this order. -/
def glyph_header (font : Font) (mem : List uint8_t) (glyph_data : Nat) :
    Except Fault GlyphHeader := do
  let f := cursor (glyph_data + 2) 0
  let (w, f) ← tga_fd_get_unsigned_bits mem f font.bits_per_char_width
  let (h, f) ← tga_fd_get_unsigned_bits mem f font.bits_per_char_height
  let (x, f) ← tga_fd_get_signed_bits mem f font.bits_per_char_x
  let (y, f) ← tga_fd_get_signed_bits mem f font.bits_per_char_y
  let (d, f) ← tga_fd_get_signed_bits mem f font.bits_per_delta_x
  pure ⟨w, h, x, y, d, f.decode_ptr, f.decode_bit_pos⟩

/-- The decoder state as `tga_fd_decode` has it after the geometry fields are read. -/
def after_header (f : tga_fd_t) (hd : GlyphHeader) : tga_fd_t :=
  { f with glyph_width := hd.glyph_width, glyph_height := hd.glyph_height,
           decode_ptr := hd.decode_ptr, decode_bit_pos := hd.decode_bit_pos }

/-- The decoder state with which `tga_fd_decode` enters its `for(;;)` loop. -/
def loop_start (f : tga_fd_t) (hd : GlyphHeader) : tga_fd_t :=
  { after_header f hd with
    target_x := to_unsigned ((f.target_x : Int) + hd.x),
    target_y := to_unsigned ((to_unsigned ((f.target_y : Int) - (hd.glyph_height : Int)) : Int) - hd.y),
    x := 0, y := 0 }

/-- The two's-complement reading of a `cnt`-bit field holding `v`. -/
def twos_complement (cnt v : Nat) : Int :=
  if v < 2 ^ (cnt - 1) then (v : Int) else (v : Int) - 2 ^ cnt

/-- Two payload bytes used in the examples of the bit reader. -/
def c1_mem : List uint8_t := [0xC5, 0x0E]

/-- A cursor at byte 0, bit offset 6. -/
def c1_state : tga_fd_t := ⟨0, 0, 0, 0, 0, 0, 0, 6, 0⟩

/-- A payload of one byte. -/
def c3_mem : List uint8_t := [0xAB]

/-- A cursor at byte 0, bit offset 0. -/
def c3_state : tga_fd_t := ⟨0, 0, 0, 0, 0, 0, 0, 0, 0⟩

/-- All field widths of the font header are at most 8 bits. -/
def field_widths_le_8 (font : Font) : Prop :=
  font.bits_per_0 ≤ 8 ∧ font.bits_per_1 ≤ 8 ∧ font.bits_per_char_width ≤ 8 ∧
  font.bits_per_char_height ≤ 8 ∧ font.bits_per_char_x ≤ 8 ∧ font.bits_per_char_y ≤ 8 ∧
  font.bits_per_delta_x ≤ 8

instance (font : Font) : Decidable (field_widths_le_8 font) := by
  unfold field_widths_le_8; infer_instance

/-- A font header with fields of 2 and 3 bits for the run lengths, 2 bits for
width, height, x and y, 4 bits for the advance. -/
def demo_font : Font := ⟨0, 1, 2, 3, 2, 2, 2, 2, 4, 2, 2, 0⟩

/-- A glyph entry of width 0 and stored advance 0, followed by two bytes. -/
def c5_mem : List uint8_t := [66, 4, 0xA0, 0x00, 0xFF, 0xFF]

/-- The geometry fields of the glyph in `c5_mem`. -/
def c5_header : GlyphHeader := ⟨0, 0, 0, 0, -8, 3, 4⟩

/-- A decoder state with origin `(1, 1)`. -/
def c5_state : tga_fd_t := ⟨1, 1, 0, 0, 0, 0, 0, 0, 0⟩

/-- Offset of the pixel `(x, y)` in `tga_data`. -/
def pixel_offset (t : Tga) (x y : Nat) : Nat :=
  (t.tga_height - y - 1) * t.tga_width * 3 + x * 3

/-- The raster buffer has the size `tga_init` gives it. -/
def well_formed (t : Tga) : Prop := t.tga_data.length = t.tga_width * t.tga_height * 3

instance (t : Tga) : Decidable (well_formed t) := by
  unfold well_formed; infer_instance

/-- The raster pixel `tga_set_pixel` addresses for the `i`-th cell (row-major
order) of a glyph of width `w` drawn at `(tx, ty)`. -/
def cell_pixel (w tx ty i : Nat) : Nat × Nat :=
  (((tx + i % w) % UINT) % 65536, ((ty + (i / w) % UINT) % UINT) % 65536)

/-- One pass of the body of the `do ... while`: the skip loop, then the paint loop. -/
def apply_run (is_hints : Bool) (a b : Nat) (s : tga_fd_t × Tga) : tga_fd_t × Tga :=
  paint_loop b (skip_loop is_hints a s)

/-- The decoder state `s` stands at cell number `n` (row-major order) of a glyph
of width `w` drawn at `(tx, ty)`, after `n` calls of `tga_fd_inc` counted from
`base`, and its raster differs from `t0` at most at the pixels of the cells
before `n`. -/
def loop_inv (w gh tx ty base : Nat) (t0 : Tga) (n : Nat) (s : tga_fd_t × Tga) : Prop :=
  s.1.glyph_width = w ∧ s.1.glyph_height = gh ∧ s.1.target_x = tx ∧ s.1.target_y = ty ∧
  s.1.x = n % w ∧ s.1.y = (n / w) % UINT ∧ s.1.inc_calls = base + n ∧
  s.2.tga_width = t0.tga_width ∧ s.2.tga_height = t0.tga_height ∧
  s.2.tga_data.length = t0.tga_data.length ∧
  ∀ px py, get_pixel s.2 px py ≠ get_pixel t0 px py →
    ∃ i, i < n ∧ cell_pixel w tx ty i = (px, py)

/-- The continuation bits behind a pair that is applied `k` times: `k - 1`
reads of one bit that give a nonzero value, then one that gives zero.  The
result is the state behind the last of these reads. -/
def cont_bits (mem : List uint8_t) : Nat → tga_fd_t → Option tga_fd_t
  | 0, _ => none
  | k + 1, c =>
    match tga_fd_get_unsigned_bits mem c 1 with
    | .ok (v, c') => if v ≠ 0 then cont_bits mem k c' else if k = 0 then some c' else none
    | .error _ => none

/-- The state `f` with its read cursor moved forward by `n` bits. -/
def advance_cursor (f : tga_fd_t) (n : Nat) : tga_fd_t :=
  { f with decode_ptr := (bit_index f + n) / 8, decode_bit_pos := (bit_index f + n) % 8 }

/-- A glyph of width 1 and height 2 whose run-length stream is the pair
`skip = 0, paint = 1`, a continuation bit 1 and a continuation bit 0; the bits
behind the first continuation bit would read as the pair `skip = 2, paint = 0`. -/
def c7_mem : List uint8_t := [67, 5, 0xA9, 0x49, 0x0A, 0x00]

/-- The state with which the `do ... while` loop is entered for `c7_mem`. -/
def c7_start : tga_fd_t × Tga := (⟨1, 1, 0, 0, 1, 2, 4, 1, 0⟩, white 3 3)

/-- The decoder state `tga_fd_decode` returns for `c7_mem` drawn at origin `(1, 3)`. -/
def c7_final : tga_fd_t := ⟨1, 1, 0, 2, 1, 2, 4, 3, 2⟩

/-- The raster `tga_fd_decode` leaves for `c7_mem` drawn at origin `(1, 3)` on a
white raster of 3 x 3 pixels: the pixels `(1, 1)` and `(1, 2)` are black. -/
def c7_raster : Tga := ⟨3, 3,
  [255, 255, 255, 0, 0, 0, 255, 255, 255,
   255, 255, 255, 0, 0, 0, 255, 255, 255,
   255, 255, 255, 255, 255, 255, 255, 255, 255]⟩

/-- The run-length stream at the cursor of `c` consists of the groups `G`: each
group `(a, b, k)` is a skip count `a` of `bits_per_0` bits, a paint count `b` of
`bits_per_1` bits and the continuation bits of a pair that is applied `k` times. -/
def encodes (font : Font) (mem : List uint8_t) : List (Nat × Nat × Nat) → tga_fd_t → Bool
  | [], _ => true
  | (a, b, k) :: G, c =>
    match tga_fd_get_unsigned_bits mem c font.bits_per_0 with
    | .ok (a', c1) =>
      match tga_fd_get_unsigned_bits mem c1 font.bits_per_1 with
      | .ok (b', c2) =>
        match cont_bits mem k c2 with
        | some c3 => a' == a && b' == b && encodes font mem G c3
        | none => false
      | .error _ => false
    | .error _ => false

/-- Number of cells the groups `G` cover, every count taken once per time it is applied. -/
def total_cells (G : List (Nat × Nat × Nat)) : Nat :=
  (G.map (fun g => (g.1 + g.2.1) * g.2.2)).sum

/-- A loop budget that suffices for the groups `G`. -/
def fuel_need (G : List (Nat × Nat × Nat)) : Nat :=
  (G.map (fun g => g.2.2 + 1)).sum

/-- A glyph of width 1 and height 1 whose run-length stream is the single pair
`skip = 0, paint = 3` with continuation bit 0. -/
def c8_mem : List uint8_t := [68, 5, 0xA5, 0xC9, 0x00, 0x00]

/-- The geometry fields of the glyph in `c8_mem`. -/
def c8_header : GlyphHeader := ⟨1, 1, 0, 0, 1, 3, 4⟩

/-- A decoder state with origin `(1, 1)`. -/
def c8_state : tga_fd_t := ⟨1, 1, 0, 0, 0, 0, 0, 0, 0⟩

/-- The decoder state `tga_fd_decode` returns for `c8_mem` drawn at origin `(1, 1)`. -/
def c8_final : tga_fd_t := ⟨1, 0, 0, 3, 1, 1, 4, 2, 3⟩

/-- The raster `tga_fd_decode` leaves for `c8_mem` drawn at origin `(1, 1)` on a
white raster of 3 x 3 pixels: the pixels `(1, 0)`, `(1, 1)` and `(1, 2)` are black. -/
def c8_raster : Tga := ⟨3, 3,
  [255, 255, 255, 0, 0, 0, 255, 255, 255,
   255, 255, 255, 0, 0, 0, 255, 255, 255,
   255, 255, 255, 0, 0, 0, 255, 255, 255]⟩

/-- A glyph of width 2 and height 2 whose run-length stream is the pair
`skip = 1, paint = 1` with the continuation bits 1, 0: the pair is applied twice. -/
def c9_mem : List uint8_t := [69, 5, 0xAA, 0x5B, 0x02, 0x00]

/-- The geometry fields of the glyph in `c9_mem`. -/
def c9_header : GlyphHeader := ⟨2, 2, 0, 0, 3, 3, 4⟩

/-- A glyph of width 2 and height 2 whose run-length stream is the single run
`skip = 0, paint = 4` with continuation bit 0; its advance field holds 3. -/
def c10_mem : List uint8_t := [65, 5, 0xAA, 0x0B, 0x01, 0x00]

/-- The geometry fields of the glyph in `c10_mem`. -/
def c10_header : GlyphHeader := ⟨2, 2, 0, 0, 3, 3, 4⟩

/-- A decoder state with origin `(1, 3)`. -/
def c10_state : tga_fd_t := ⟨1, 3, 0, 0, 0, 0, 0, 0, 0⟩

/-- The loop of `tga_get_glyph_data` with `n` iterations left and the pointer
`font` at index `p`; `none` is the null pointer. -/
def glyph_scan (mem : List uint8_t) (encoding : uint8_t) : Nat → Nat → Except Fault (Option Nat)
  | 0, _ => pure none
  | n + 1, p => do
    -- if ( font[0] == encoding ) return font;
    let c ← deref mem p
    if c = encoding.val then pure (some p)
    else do
      -- font += font[1];
      let l ← deref mem (p + 1)
      glyph_scan mem encoding n (p + l)

/-- The function `tga_get_glyph_data`. -/
def tga_get_glyph_data (font : Font) (mem : List uint8_t) (encoding : uint8_t) :
    Except Fault (Option Nat) :=
  glyph_scan mem encoding font.glyph_cnt font.tga_font

/-- The function `tga_draw_glyph`.  `uninit` stands for the indeterminate content
of the local `tga_fd_t f`, of which only `target_x` and `target_y` are assigned
before the lookup; the result is the returned value and the raster. -/
def tga_draw_glyph (font : Font) (mem : List uint8_t) (fuel : Nat) (uninit : tga_fd_t)
    (t : Tga) (x y : Nat) (encoding : uint8_t) (is_hints : Bool) : Except Fault (Nat × Tga) := do
  -- unsigned dx = 0; f.target_x = x; f.target_y = y;
  let f := { uninit with target_x := x, target_y := y }
  let glyph_data ← tga_get_glyph_data font mem encoding
  match glyph_data with
  | some g =>
    let (dx, _, t) ← tga_fd_decode font mem fuel f t g is_hints
    if is_hints then
      -- tga_set_pixel(x+dx, y, 28,133,240); tga_set_pixel(x, y, 255,164,0);
      let t := tga_set_pixel t ((x + dx) % UINT) y 28 133 240
      let t := tga_set_pixel t x y 255 164 0
      pure (dx, t)
    else pure (dx, t)
  | none => pure (0, t)

/-- The loop of `tga_draw_string` over the characters in front of the
terminator, with the running value of `dx`. -/
def draw_string_loop (font : Font) (mem : List uint8_t) (fuel : Nat) (uninit : tga_fd_t)
    (x y : Nat) (is_hints : Bool) : List uint8_t → Nat → Tga → Except Fault (Nat × Tga)
  | [], dx, t => pure (dx, t)
  | c :: s, dx, t => do
    -- dx += tga_draw_glyph(x+dx,y,*s, is_hints);
    let (r, t) ← tga_draw_glyph font mem fuel uninit t ((x + dx) % UINT) y c is_hints
    draw_string_loop font mem fuel uninit x y is_hints s ((dx + r) % UINT) t

/-- The function `tga_draw_string`; `s` holds the characters in front of the
terminator `'\0'`. -/
def tga_draw_string (font : Font) (mem : List uint8_t) (fuel : Nat) (uninit : tga_fd_t)
    (t : Tga) (x y : Nat) (s : List uint8_t) (is_hints : Bool) : Except Fault (Nat × Tga) :=
  draw_string_loop font mem fuel uninit x y is_hints s 0 t

/-- Start of the `k`-th entry of the glyph table in physical order: the first
entry starts at `tga_font`, every further one `record_length` octets behind
the start of the entry in front of it. -/
def entry_start (font : Font) (mem : List uint8_t) : Nat → Option Nat
  | 0 => some font.tga_font
  | k + 1 =>
    match entry_start font mem k with
    | some p =>
      match mem[p + 1]? with
      | some l => some (p + l.val)
      | none => none
    | none => none

/-- The encoding octet of the `k`-th entry of the glyph table. -/
def entry_code (font : Font) (mem : List uint8_t) (k : Nat) : Option uint8_t :=
  match entry_start font mem k with
  | some p => mem[p]?
  | none => none

/-- The blob holds the two leading octets of each of the `glyph_cnt` entries. -/
def table_ok (font : Font) (mem : List uint8_t) : Bool :=
  (List.range font.glyph_cnt).all fun k =>
    match entry_start font mem k with
    | some p => (mem[p]?).isSome && (mem[p + 1]?).isSome
    | none => false

/-- A glyph table of three entries with the codes 65, 66, 65. -/
def c11_mem : List uint8_t := [65, 3, 0, 66, 2, 65, 2]

/-- The font variables for `c11_mem`: three glyphs, table at index 0. -/
def c11_font : Font := ⟨0, 3, 2, 3, 2, 2, 2, 2, 4, 2, 2, 0⟩

/-- The calls of `tga_draw_glyph` that `tga_draw_string` makes at `(x, y)`: an
item `(c, r, t')` is a call for the character `c` that returns the advance `r`
and leaves the raster `t'`; `acc` is the sum of the advances returned before
it, `t` the raster before it.  Each call is made at `x + acc` (in `unsigned`
arithmetic) and at `y`, on the raster the call in front of it has left. -/
def draw_calls (font : Font) (mem : List uint8_t) (fuel : Nat) (uninit : tga_fd_t)
    (x y : Nat) (is_hints : Bool) : Nat → Tga → List (uint8_t × Nat × Tga) → Prop
  | _, _, [] => True
  | acc, t, (c, r, t') :: rest =>
    tga_draw_glyph font mem fuel uninit t ((x + acc) % UINT) y c is_hints = .ok (r, t') ∧
    draw_calls font mem fuel uninit x y is_hints (acc + r) t' rest

/-- The raster behind the last of the calls, `t` when there is none. -/
def last_raster (t : Tga) : List (uint8_t × Nat × Tga) → Tga
  | [] => t
  | (_, _, t') :: rest => last_raster t' rest

/-- The stores `*p++ = b; *p++ = g; *p++ = r` of `tga_set_pixel`, as pairs of
buffer index and octet, in the order in which they are made; no store when
the function returns early. -/
def set_pixel_stores (t : Tga) (x y : Nat) (r g b : uint8_t) : List (Nat × uint8_t) :=
  let x := x % 65536
  let y := y % 65536
  if y ≥ t.tga_height then []
  else if x ≥ t.tga_width then []
  else
    let p := (t.tga_height - y - 1) * t.tga_width * 3 + x * 3
    [(p, b), (p + 1, g), (p + 2, r)]

/-- Conversion of an `int` value to the parameter type `uint8_t`. -/
def to_uint8 (n : Nat) : uint8_t := ⟨n % 256, Nat.mod_lt n (by decide)⟩

/-- The function `tga_write_byte`; the file is the list of the octets written so far. -/
def tga_write_byte (fp : List uint8_t) (byte : uint8_t) : List uint8_t :=
  -- fputc(byte, fp);
  fp ++ [byte]

/-- The function `tga_write_word`; the parameter `word` is `uint16_t`. -/
def tga_write_word (fp : List uint8_t) (word : Nat) : List uint8_t :=
  let word := word % 65536
  -- tga_write_byte(fp, word&255);
  let fp := tga_write_byte fp (to_uint8 (word &&& 255))
  -- tga_write_byte(fp, word>>8);
  tga_write_byte fp (to_uint8 (word >>> 8))

/-- The 18 octets of the string literal `"TRUEVISION-XFILE."`, its terminator included. -/
def tga_signature : List uint8_t :=
  [84, 82, 85, 69, 86, 73, 83, 73, 79, 78, 45, 88, 70, 73, 76, 69, 46, 0]

/-- The function `tga_save`.  `fopen_ok` tells whether `fopen` returns a stream;
the result is the content of the file the call leaves, `none` when no file was
opened.  The size `tga_width*tga_height*3` passed to `fwrite` is computed in
`int`; `fwrite` reads that many octets of `tga_data`. -/
def tga_save (fopen_ok : Bool) (t : Tga) : Except Fault (Option (List uint8_t)) := do
  -- fp = fopen(name, "wb"); if ( fp != NULL )
  if fopen_ok then
    let fp : List uint8_t := []
    let fp := tga_write_byte fp 0     /- no ID -/
    let fp := tga_write_byte fp 0     /- no color map -/
    let fp := tga_write_byte fp 2     /- uncompressed true color -/
    let fp := tga_write_word fp 0
    let fp := tga_write_word fp 0
    let fp := tga_write_byte fp 0
    let fp := tga_write_word fp 0     /- x origin -/
    let fp := tga_write_word fp 0     /- y origin -/
    let fp := tga_write_word fp t.tga_width
    let fp := tga_write_word fp t.tga_height
    let fp := tga_write_byte fp 24    /- color depth -/
    let fp := tga_write_byte fp 0
    -- fwrite(tga_data, tga_width*tga_height*3, 1, fp);
    if 2 ^ 31 ≤ t.tga_width * t.tga_height * 3 then throw .int_overflow
    let size := t.tga_width * t.tga_height * 3
    if t.tga_data.length < size then throw (.out_of_bounds t.tga_data.length)
    let fp := fp ++ t.tga_data.take size
    let fp := tga_write_word fp 0
    let fp := tga_write_word fp 0
    let fp := tga_write_word fp 0
    let fp := tga_write_word fp 0
    -- fwrite("TRUEVISION-XFILE.", 18, 1, fp);
    let fp := fp ++ tga_signature
    pure (some fp)
  else pure none

/-- A decoder state whose target lies at `X = 65537`, outside a raster of 4 x 4 pixels. -/
def c20_state : tga_fd_t := ⟨65537, 3, 0, 0, 0, 0, 0, 0, 0⟩

/-- The decoder state `tga_fd_decode` returns for `c10_mem` drawn at origin `(65537, 3)`. -/
def c20_final : tga_fd_t := ⟨65537, 1, 0, 2, 2, 2, 4, 2, 4⟩

/-- The raster `tga_fd_decode` leaves for `c10_mem` drawn at origin `(65537, 3)`
on a white raster of 4 x 4 pixels: the pixels `(1, 1)`, `(2, 1)`, `(1, 2)`,
`(2, 2)` are black. -/
def c20_raster : Tga := ⟨4, 4,
  [255, 255, 255, 255, 255, 255, 255, 255, 255, 255, 255, 255,
   255, 255, 255, 0, 0, 0, 0, 0, 0, 255, 255, 255,
   255, 255, 255, 0, 0, 0, 0, 0, 0, 255, 255, 255,
   255, 255, 255, 255, 255, 255, 255, 255, 255, 255, 255, 255]⟩

/-- The loop `do ... while( tga_fd_get_unsigned_bits(f, 1) != 0 )` of
`tga_fd_decode` with a counter of the passes begun: the first component is the
outcome of the loop, the second the number of times the loop body was entered. -/
def repeat_loop_counted (mem : List uint8_t) (is_hints : Bool) (a b : Nat) :
    Nat → tga_fd_t × Tga → Except Fault (tga_fd_t × Tga) × Nat
  | 0, _ => (.error .fuel, 0)
  | fuel + 1, s =>
    let s := skip_loop is_hints a s
    let s := paint_loop b s
    match tga_fd_get_unsigned_bits mem s.1 1 with
    | .error e => (.error e, 1)
    | .ok (c, f) =>
      if c ≠ 0 then
        ((repeat_loop_counted mem is_hints a b fuel (f, s.2)).1,
         (repeat_loop_counted mem is_hints a b fuel (f, s.2)).2 + 1)
      else (.ok (f, s.2), 1)

/-- The loop `for(;;)` of `tga_fd_decode` with a counter of the passes of the
inner `do ... while` loop begun. -/
def glyph_loop_counted (font : Font) (mem : List uint8_t) (is_hints : Bool) :
    Nat → tga_fd_t × Tga → Except Fault (tga_fd_t × Tga) × Nat
  | 0, _ => (.error .fuel, 0)
  | fuel + 1, (f, t) =>
    match tga_fd_get_unsigned_bits mem f font.bits_per_0 with
    | .error e => (.error e, 0)
    | .ok (a, f) =>
      match tga_fd_get_unsigned_bits mem f font.bits_per_1 with
      | .error e => (.error e, 0)
      | .ok (b, f) =>
        match repeat_loop_counted mem is_hints a b (fuel + 1) (f, t) with
        | (.error e, n) => (.error e, n)
        | (.ok s, n) =>
          if s.1.y ≥ s.1.glyph_height then (.ok s, n)
          else
            ((glyph_loop_counted font mem is_hints fuel s).1,
             n + (glyph_loop_counted font mem is_hints fuel s).2)

/-- Number of passes of the inner `do ... while` loop that a call of
`tga_fd_decode` begins. -/
def decode_passes (font : Font) (mem : List uint8_t) (fuel : Nat)
    (f : tga_fd_t) (t : Tga) (glyph_data : Nat) (is_hints : Bool) : Nat :=
  match glyph_header font mem glyph_data with
  | .error _ => 0
  | .ok hd =>
    if hd.glyph_width > 0 then
      (glyph_loop_counted font mem is_hints fuel (loop_start f hd, t)).2
    else 0

/-- A font header whose run-length fields have no bits: every skip count and
every paint count is read as zero. -/
def c19_font : Font := ⟨0, 1, 0, 0, 2, 2, 2, 2, 4, 2, 2, 0⟩

/-- A glyph of width 2 and height 2 whose stream holds nonzero continuation
bits only, up to the end of the blob. -/
def c19_mem : List uint8_t := [65, 5, 0xAA, 0xFB, 0xFF]

/-- The function `tga_init`: the value returned and the raster it leaves.
`malloc_ok` tells whether `malloc` returned a buffer; the byte count of the
`memset` is the `int` expression `tga_width*tga_height*3`. -/
def tga_init (malloc_ok : Bool) (w h : Nat) : Except Fault (Nat × Tga) :=
  let w := w % 65536
  let h := h % 65536
  -- tga_width = 0; tga_height = 0; tga_data = malloc(...); if NULL return 0;
  if !malloc_ok then .ok (0, ⟨0, 0, []⟩)
  -- memset(tga_data, 255, tga_width*tga_height*3);
  else if 2 ^ 31 ≤ w * h * 3 then .error .int_overflow
  else .ok (1, ⟨w, h, List.replicate (w * h * 3) 255⟩)

/-- A font header whose five geometry fields take 16 bits: 2 bits each for
width, height, x and y, 8 bits for the advance. -/
def c5b_font : Font := ⟨0, 1, 2, 3, 2, 2, 2, 2, 8, 2, 2, 0⟩

/-- A glyph entry of width 0 whose advance field, holding 5, is the last byte of
the blob. -/
def c5b_mem : List uint8_t := [66, 4, 0xA0, 0x05]

/-- The blob `c5b_mem` followed by one more byte. -/
def c5b_long : List uint8_t := [66, 4, 0xA0, 0x05, 0xFF]

/-- The geometry fields of the glyph in `c5b_long`: the advance is `5 - 128`. -/
def c5b_header : GlyphHeader := ⟨0, 0, 0, 0, -123, 4, 0⟩

/-- The glyph of `c10_mem` with the advance field holding 0, that is the
advance -8. -/
def c10b_mem : List uint8_t := [65, 5, 0xAA, 0x00, 0x01, 0x00]

/-- The geometry fields of the glyph in `c10b_mem`. -/
def c10b_header : GlyphHeader := ⟨2, 2, 0, 0, -8, 3, 4⟩

/-! ## Theorems -/

theorem UINT_eq : UINT = 4294967296 := by decide

theorem deref_of_getElem? {mem : List uint8_t} {p : Nat} {b : uint8_t}
    (h : mem[p]? = some b) : deref mem p = .ok b.val := by
  simp [deref, h]

theorem deref_of_none {mem : List uint8_t} {p : Nat}
    (h : mem[p]? = none) : deref mem p = .error (.out_of_bounds p) := by
  simp [deref, h]

/-- The mask `(1U<<cnt)-1` for a count of at most 8. -/
theorem mask_eq (cnt : Nat) (h : cnt ≤ 8) :
    ((1 <<< cnt) % UINT + UINT - 1) % UINT = 2 ^ cnt - 1 := by
  rw [UINT_eq]
  interval_cases cnt <;> rfl

/-- Closed form of a read with the cursor inside a byte and at most 8 bits asked,
when the bit span stays inside the current byte. -/
theorem get_unsigned_bits_within (mem : List uint8_t) (f : tga_fd_t) (cnt : Nat) (cur : uint8_t)
    (hcur : mem[f.decode_ptr]? = some cur) (hlt : f.decode_bit_pos + cnt < 8) :
    tga_fd_get_unsigned_bits mem f cnt =
      .ok ((cur.val >>> f.decode_bit_pos) % 2 ^ cnt,
        { f with decode_bit_pos := f.decode_bit_pos + cnt }) := by
  have hb : f.decode_bit_pos < 8 := by omega
  have hc : cnt ≤ 8 := by omega
  have h1 : ¬ (32 ≤ f.decode_bit_pos) := by omega
  have h2 : (f.decode_bit_pos + cnt) % UINT = f.decode_bit_pos + cnt := by
    rw [UINT_eq]; omega
  have h3 : ¬ (8 ≤ f.decode_bit_pos + cnt) := by omega
  have h4 : ¬ (32 ≤ cnt) := by omega
  simp only [tga_fd_get_unsigned_bits, deref_of_getElem? hcur, h1, h2, h3, h4, mask_eq cnt hc,
    Nat.and_pow_two_sub_one_eq_mod, bind, Except.bind, pure, Except.pure, if_false, ite_false]

theorem shl_byte_lt (next : uint8_t) (s : Nat) (hs : s ≤ 8) : next.val <<< s < 2 ^ 31 := by
  have hn := next.isLt
  rw [Nat.shiftLeft_eq]
  have h2 : 2 ^ s ≤ 2 ^ 8 := Nat.pow_le_pow_right (by decide) hs
  calc next.val * 2 ^ s ≤ 255 * 2 ^ 8 := Nat.mul_le_mul (by omega) h2
    _ < 2 ^ 31 := by decide

/-- Closed form of a read with the cursor inside a byte and at most 8 bits asked,
when the bit span reaches the end of the current byte. -/
theorem get_unsigned_bits_cross (mem : List uint8_t) (f : tga_fd_t) (cnt : Nat)
    (cur next : uint8_t)
    (hcur : mem[f.decode_ptr]? = some cur) (hnext : mem[f.decode_ptr + 1]? = some next)
    (hb : f.decode_bit_pos ≤ 7) (hc : cnt ≤ 8) (hge : 8 ≤ f.decode_bit_pos + cnt) :
    tga_fd_get_unsigned_bits mem f cnt =
      .ok (((cur.val >>> f.decode_bit_pos) ||| (next.val <<< (8 - f.decode_bit_pos))) % 2 ^ cnt,
        { f with decode_ptr := f.decode_ptr + 1,
                 decode_bit_pos := f.decode_bit_pos + cnt - 8 }) := by
  have h1 : ¬ (32 ≤ f.decode_bit_pos) := by omega
  have h2 : (f.decode_bit_pos + cnt) % UINT = f.decode_bit_pos + cnt := by
    rw [UINT_eq]; omega
  have h4 : ¬ (32 ≤ cnt) := by omega
  have h5 : (8 + UINT - f.decode_bit_pos) % UINT = 8 - f.decode_bit_pos := by
    rw [UINT_eq]; omega
  have h6 : ¬ (32 ≤ 8 - f.decode_bit_pos ∨ 2 ^ 31 ≤ next.val <<< (8 - f.decode_bit_pos)) := by
    have := shl_byte_lt next (8 - f.decode_bit_pos) (by omega)
    omega
  have h7 : ((f.decode_bit_pos + UINT - 8) % UINT + cnt) % UINT = f.decode_bit_pos + cnt - 8 := by
    rw [UINT_eq]; omega
  simp only [tga_fd_get_unsigned_bits, deref_of_getElem? hcur, deref_of_getElem? hnext,
    h1, h2, hge, h4, h5, h6, h7, mask_eq cnt hc,
    Nat.and_pow_two_sub_one_eq_mod, bind, Except.bind, pure, Except.pure, if_false, ite_false,
    if_true, ite_true]

/-- A read that reaches the end of the current byte dereferences the next one. -/
theorem get_unsigned_bits_cross_fault (mem : List uint8_t) (f : tga_fd_t) (cnt : Nat)
    (cur : uint8_t)
    (hcur : mem[f.decode_ptr]? = some cur) (hnext : mem[f.decode_ptr + 1]? = none)
    (hb : f.decode_bit_pos ≤ 7) (hc : cnt ≤ 8) (hge : 8 ≤ f.decode_bit_pos + cnt) :
    tga_fd_get_unsigned_bits mem f cnt = .error (.out_of_bounds (f.decode_ptr + 1)) := by
  have h1 : ¬ (32 ≤ f.decode_bit_pos) := by omega
  have h2 : (f.decode_bit_pos + cnt) % UINT = f.decode_bit_pos + cnt := by
    rw [UINT_eq]; omega
  simp only [tga_fd_get_unsigned_bits, deref_of_getElem? hcur, deref_of_none hnext,
    h1, h2, hge, bind, Except.bind, pure, Except.pure, if_false, ite_false,
    if_true, ite_true]

/-- The bits of the next byte do not show in a read that stays inside the current byte. -/
theorem shr_mod_eq_or_shl_mod (cur next bp cnt : Nat) (hlt : bp + cnt < 8) :
    (cur >>> bp) % 2 ^ cnt = ((cur >>> bp) ||| (next <<< (8 - bp))) % 2 ^ cnt := by
  apply Nat.eq_of_testBit_eq
  intro i
  simp only [Nat.testBit_mod_two_pow, Nat.testBit_or, Nat.testBit_shiftLeft]
  by_cases hi : i < cnt
  · have : ¬ (i ≥ 8 - bp) := by omega
    simp [hi, this]
  · simp [hi]

/-- Bitwise reading of the value formula: result bit `i` is stream bit `bp + i`. -/
theorem formula_testBit (cur next : uint8_t) (bp cnt i : Nat) (hb : bp ≤ 7) :
    (((cur.val >>> bp) ||| (next.val <<< (8 - bp))) % 2 ^ cnt).testBit i =
      (decide (i < cnt) &&
        (if bp + i < 8 then cur.val.testBit (bp + i) else next.val.testBit (bp + i - 8))) := by
  simp only [Nat.testBit_mod_two_pow, Nat.testBit_or, Nat.testBit_shiftLeft,
    Nat.testBit_shiftRight]
  by_cases hi : bp + i < 8
  · have : ¬ (i ≥ 8 - bp) := by omega
    simp [hi, this]
  · have h8 : i ≥ 8 - bp := by omega
    have hcur : cur.val.testBit (bp + i) = false := by
      apply Nat.testBit_lt_two_pow
      calc cur.val < 2 ^ 8 := cur.isLt
        _ ≤ 2 ^ (bp + i) := Nat.pow_le_pow_right (by decide) (by omega)
    have he : i - (8 - bp) = bp + i - 8 := by omega
    simp [hi, h8, hcur, he]

theorem stream_bit_cur (mem : List uint8_t) (p k : Nat) (cur : uint8_t)
    (hcur : mem[p]? = some cur) (hk : k < 8) :
    stream_bit mem (8 * p + k) = cur.val.testBit k := by
  have h1 : (8 * p + k) / 8 = p := by omega
  have h2 : (8 * p + k) % 8 = k := by omega
  simp [stream_bit, h1, h2, hcur]

theorem stream_bit_next (mem : List uint8_t) (p k : Nat) (next : uint8_t)
    (hnext : mem[p + 1]? = some next) (hk : 8 ≤ k) (hk2 : k < 16) :
    stream_bit mem (8 * p + k) = next.val.testBit (k - 8) := by
  have h1 : (8 * p + k) / 8 = p + 1 := by omega
  have h2 : (8 * p + k) % 8 = k - 8 := by omega
  simp [stream_bit, h1, h2, hnext]

/-- With bit offset 6 and 4 bits asked, the low two result bits are the top two
bits of the current byte and the high two result bits the bottom two of the next. -/
theorem formula_six_four (cur next : Nat) (hcur : cur < 256) :
    ((cur >>> 6) ||| (next <<< 2)) % 2 ^ 4 % 4 = cur / 64 ∧
    ((cur >>> 6) ||| (next <<< 2)) % 2 ^ 4 / 4 = next % 4 := by
  have ha : cur >>> 6 < 2 ^ 2 := by
    rw [Nat.shiftRight_eq_div_pow]; omega
  have h := Nat.mul_add_lt_is_or ha next
  rw [Nat.lor_comm, Nat.shiftLeft_eq, Nat.mul_comm next, ← h, Nat.shiftRight_eq_div_pow]
  constructor <;> omega


theorem and_mask_lt (x cnt : Nat) (hc : ¬ (32 ≤ cnt)) :
    x &&& (((1 <<< cnt) % UINT + UINT - 1) % UINT) < 2 ^ cnt := by
  have hm : ((1 <<< cnt) % UINT + UINT - 1) % UINT = 2 ^ cnt - 1 := by
    rw [UINT_eq]
    have : cnt < 32 := by omega
    interval_cases cnt <;> rfl
  rw [hm, Nat.and_pow_two_sub_one_eq_mod]
  exact Nat.mod_lt _ (Nat.two_pow_pos cnt)

/-- The value a successful read returns is below `2 ^ cnt`. -/
theorem get_unsigned_bits_lt (mem : List uint8_t) (f f' : tga_fd_t) (cnt v : Nat)
    (h : tga_fd_get_unsigned_bits mem f cnt = .ok (v, f')) : v < 2 ^ cnt := by
  unfold tga_fd_get_unsigned_bits at h
  simp only [bind, Except.bind, pure, Except.pure, throw, throwThe, MonadExceptOf.throw] at h
  repeat' split at h
  all_goals first
    | (simp only [Except.ok.injEq, Prod.mk.injEq] at h
       rw [← h.1]
       apply and_mask_lt
       assumption)
    | (simp at h)

/-- The signed read is the unsigned read minus the bias `(1<<cnt)>>1`. -/
theorem get_signed_bits_of_unsigned (mem : List uint8_t) (f f' : tga_fd_t) (cnt v : Nat)
    (hc : cnt < 31) (h : tga_fd_get_unsigned_bits mem f cnt = .ok (v, f')) :
    tga_fd_get_signed_bits mem f cnt = .ok ((v : Int) - (((1 <<< cnt) >>> 1 : Nat) : Int), f') := by
  have h31 : ¬ (31 ≤ cnt) := by omega
  simp [tga_fd_get_signed_bits, h, bind, Except.bind, pure, Except.pure, h31]

theorem bias_eq (cnt : Nat) (h : 1 ≤ cnt) : (1 <<< cnt) >>> 1 = 2 ^ (cnt - 1) := by
  obtain ⟨k, rfl⟩ : ∃ k, cnt = k + 1 := ⟨cnt - 1, by omega⟩
  rw [Nat.shiftLeft_eq, Nat.shiftRight_eq_div_pow, Nat.one_mul, Nat.pow_succ]
  simp

theorem get_unsigned_bits_eq_cursor (mem : List uint8_t) (f : tga_fd_t) (cnt : Nat) :
    tga_fd_get_unsigned_bits mem f cnt =
      (tga_fd_get_unsigned_bits mem (cursor f.decode_ptr f.decode_bit_pos) cnt).map
        (fun r => (r.1, set_cursor f r.2)) := by
  simp only [tga_fd_get_unsigned_bits, cursor, set_cursor, bind, Except.bind, pure, Except.pure,
    throw, throwThe, MonadExceptOf.throw]
  cases deref mem f.decode_ptr with
  | error e => rfl
  | ok v =>
    simp only
    split
    · rfl
    · split
      · cases deref mem (f.decode_ptr + 1) with
        | error e => rfl
        | ok n =>
          simp only
          split
          · rfl
          · split <;> rfl
      · split <;> rfl

/-- A read depends on the decoder state through the cursor only, and changes the cursor only. -/
theorem get_unsigned_bits_transfer (mem : List uint8_t) (f c : tga_fd_t) (cnt : Nat)
    (hp : f.decode_ptr = c.decode_ptr) (hb : f.decode_bit_pos = c.decode_bit_pos) :
    tga_fd_get_unsigned_bits mem f cnt =
      (tga_fd_get_unsigned_bits mem c cnt).map (fun r => (r.1, set_cursor f r.2)) := by
  rw [get_unsigned_bits_eq_cursor mem f, get_unsigned_bits_eq_cursor mem c, hp, hb]
  cases tga_fd_get_unsigned_bits mem (cursor c.decode_ptr c.decode_bit_pos) cnt with
  | error e => rfl
  | ok r => rfl

theorem get_signed_bits_transfer (mem : List uint8_t) (f c : tga_fd_t) (cnt : Nat)
    (hp : f.decode_ptr = c.decode_ptr) (hb : f.decode_bit_pos = c.decode_bit_pos) :
    tga_fd_get_signed_bits mem f cnt =
      (tga_fd_get_signed_bits mem c cnt).map (fun r => (r.1, set_cursor f r.2)) := by
  simp only [tga_fd_get_signed_bits, bind, Except.bind, pure, Except.pure,
    throw, throwThe, MonadExceptOf.throw]
  rw [get_unsigned_bits_transfer mem f c cnt hp hb]
  cases tga_fd_get_unsigned_bits mem c cnt with
  | error e => rfl
  | ok r =>
    simp only [Except.map]
    split <;> rfl

theorem decode_eq (font : Font) (mem : List uint8_t) (fuel : Nat) (f : tga_fd_t) (t : Tga)
    (g : Nat) (is_hints : Bool) :
    tga_fd_decode font mem fuel f t g is_hints =
      match glyph_header font mem g with
      | .error e => .error e
      | .ok hd =>
        if hd.glyph_width > 0 then
          (glyph_loop font mem is_hints fuel (loop_start f hd, t)).map
            (fun r => (to_unsigned hd.d, r.1, r.2))
        else .ok (to_unsigned hd.d, after_header f hd, t) := by
  simp only [tga_fd_decode, glyph_header, bind, Except.bind, pure, Except.pure]
  rw [get_unsigned_bits_transfer mem { f with decode_ptr := g + 1 + 1, decode_bit_pos := 0 }
    (cursor (g + 2) 0) _ rfl rfl]
  cases tga_fd_get_unsigned_bits mem (cursor (g + 2) 0) font.bits_per_char_width with
  | error e => rfl
  | ok r1 =>
    obtain ⟨w, c1⟩ := r1
    simp only [Except.map]
    rw [get_unsigned_bits_transfer mem
      { set_cursor { f with decode_ptr := g + 1 + 1, decode_bit_pos := 0 } c1 with glyph_width := w }
      c1 _ rfl rfl]
    cases tga_fd_get_unsigned_bits mem c1 font.bits_per_char_height with
    | error e => rfl
    | ok r2 =>
      obtain ⟨h, c2⟩ := r2
      simp only [Except.map]
      rw [get_signed_bits_transfer mem
        { set_cursor
            { set_cursor { f with decode_ptr := g + 1 + 1, decode_bit_pos := 0 } c1 with
              glyph_width := w } c2 with glyph_height := h }
        c2 _ rfl rfl]
      cases tga_fd_get_signed_bits mem c2 font.bits_per_char_x with
      | error e => rfl
      | ok r3 =>
        obtain ⟨x, c3⟩ := r3
        simp only [Except.map]
        rw [get_signed_bits_transfer mem
          (set_cursor { set_cursor
            { set_cursor { f with decode_ptr := g + 1 + 1, decode_bit_pos := 0 } c1 with
              glyph_width := w } c2 with glyph_height := h } c3)
          c3 _ rfl rfl]
        cases tga_fd_get_signed_bits mem c3 font.bits_per_char_y with
        | error e => rfl
        | ok r4 =>
          obtain ⟨y, c4⟩ := r4
          simp only [Except.map]
          rw [get_signed_bits_transfer mem
            (set_cursor (set_cursor { set_cursor
              { set_cursor { f with decode_ptr := g + 1 + 1, decode_bit_pos := 0 } c1 with
                glyph_width := w } c2 with glyph_height := h } c3) c4)
            c4 _ rfl rfl]
          cases tga_fd_get_signed_bits mem c4 font.bits_per_delta_x with
          | error e => rfl
          | ok r5 =>
            obtain ⟨d, c5⟩ := r5
            simp only [Except.map, set_cursor, after_header, loop_start]

/-- Claim C1: `tga_fd_get_unsigned_bits` with the cursor at bit offset `0..7` and
`cnt` in `0..8`, the current byte present and the next byte present where the
span reaches it: the read returns
`((current >> bit_offset) | (next << (8 - bit_offset))) mod 2^cnt`; bit `i` of the
result is bit `i` after the cursor of the stream, least significant bit first;
for bit offset 6 and `cnt = 4` the low two result bits are the top two bits of
the current byte and the high two the bottom two bits of the next byte. -/
theorem C1_get_unsigned_bits_value (mem : List uint8_t) (f : tga_fd_t) (cnt : Nat)
    (cur next : uint8_t)
    (hb : f.decode_bit_pos ≤ 7) (hc : cnt ≤ 8)
    (hcur : mem[f.decode_ptr]? = some cur)
    (hnext : 8 ≤ f.decode_bit_pos + cnt → mem[f.decode_ptr + 1]? = some next) :
    ∃ v f', tga_fd_get_unsigned_bits mem f cnt = .ok (v, f') ∧
      v = ((cur.val >>> f.decode_bit_pos) ||| (next.val <<< (8 - f.decode_bit_pos))) % 2 ^ cnt ∧
      v < 2 ^ cnt ∧
      (∀ i, i < cnt → v.testBit i = stream_bit mem (bit_index f + i)) ∧
      (f.decode_bit_pos = 6 → cnt = 4 → v % 4 = cur.val / 64 ∧ v / 4 = next.val % 4) := by
  have hbits : ∀ i, i < cnt →
      (((cur.val >>> f.decode_bit_pos) ||| (next.val <<< (8 - f.decode_bit_pos))) % 2 ^ cnt).testBit i
        = stream_bit mem (bit_index f + i) := by
    intro i hi
    rw [formula_testBit cur next _ cnt i hb]
    simp only [hi, decide_True, Bool.true_and, bit_index, Nat.add_assoc]
    by_cases h8 : f.decode_bit_pos + i < 8
    · rw [if_pos h8, stream_bit_cur mem _ _ cur hcur h8]
    · rw [if_neg h8, stream_bit_next mem _ _ next (hnext (by omega)) (by omega) (by omega)]
  have hsix : f.decode_bit_pos = 6 → cnt = 4 →
      ((cur.val >>> f.decode_bit_pos) ||| (next.val <<< (8 - f.decode_bit_pos))) % 2 ^ cnt % 4
          = cur.val / 64 ∧
      ((cur.val >>> f.decode_bit_pos) ||| (next.val <<< (8 - f.decode_bit_pos))) % 2 ^ cnt / 4
          = next.val % 4 := by
    intro h6 h4
    rw [h6, h4]
    exact formula_six_four cur.val next.val cur.isLt
  by_cases hge : 8 ≤ f.decode_bit_pos + cnt
  · exact ⟨_, _, get_unsigned_bits_cross mem f cnt cur next hcur (hnext hge) hb hc hge, rfl,
      Nat.mod_lt _ (Nat.two_pow_pos cnt), hbits, hsix⟩
  · refine ⟨_, _, get_unsigned_bits_within mem f cnt cur hcur (by omega), ?_,
      Nat.mod_lt _ (Nat.two_pow_pos cnt), ?_, ?_⟩
    · exact shr_mod_eq_or_shl_mod cur.val next.val _ cnt (by omega)
    · rw [shr_mod_eq_or_shl_mod cur.val next.val _ cnt (by omega)]
      exact hbits
    · rw [shr_mod_eq_or_shl_mod cur.val next.val _ cnt (by omega)]
      exact hsix

/-- Witness of claim C1: bytes `0xC5, 0x0E`, bit offset 6, four bits asked. -/
theorem C1_get_unsigned_bits_value_witness :
    c1_state.decode_bit_pos ≤ 7 ∧ 4 ≤ 8 ∧
    c1_mem[c1_state.decode_ptr]? = some 0xC5 ∧
    (8 ≤ c1_state.decode_bit_pos + 4 → c1_mem[c1_state.decode_ptr + 1]? = some 0x0E) ∧
    ∃ v f', tga_fd_get_unsigned_bits c1_mem c1_state 4 = .ok (v, f') ∧
      v = (((0xC5 : uint8_t).val >>> c1_state.decode_bit_pos) |||
            ((0x0E : uint8_t).val <<< (8 - c1_state.decode_bit_pos))) % 2 ^ 4 ∧
      v < 2 ^ 4 ∧
      (∀ i, i < 4 → v.testBit i = stream_bit c1_mem (bit_index c1_state + i)) ∧
      (c1_state.decode_bit_pos = 6 → 4 = 4 →
        v % 4 = (0xC5 : uint8_t).val / 64 ∧ v / 4 = (0x0E : uint8_t).val % 4) :=
  ⟨by decide, by decide, by decide, fun _ => by decide,
    C1_get_unsigned_bits_value c1_mem c1_state 4 0xC5 0x0E (by decide) (by decide) (by decide)
      (fun _ => by decide)⟩

/-- Claim C2: `tga_fd_get_unsigned_bits` with bit offset `0..7` and `cnt` in `0..8`
(bytes present) advances the cursor by exactly `cnt` bits: the absolute bit
position `8 * byte_index + bit_offset` grows by `cnt`, and the new bit offset is
again in `0..7`. -/
theorem C2_get_unsigned_bits_advance (mem : List uint8_t) (f : tga_fd_t) (cnt : Nat)
    (cur next : uint8_t)
    (hb : f.decode_bit_pos ≤ 7) (hc : cnt ≤ 8)
    (hcur : mem[f.decode_ptr]? = some cur)
    (hnext : 8 ≤ f.decode_bit_pos + cnt → mem[f.decode_ptr + 1]? = some next) :
    ∃ v f', tga_fd_get_unsigned_bits mem f cnt = .ok (v, f') ∧
      bit_index f' = bit_index f + cnt ∧ f'.decode_bit_pos ≤ 7 := by
  by_cases hge : 8 ≤ f.decode_bit_pos + cnt
  · refine ⟨_, _, get_unsigned_bits_cross mem f cnt cur next hcur (hnext hge) hb hc hge, ?_, ?_⟩
    · simp only [bit_index]; omega
    · simp only; omega
  · refine ⟨_, _, get_unsigned_bits_within mem f cnt cur hcur (by omega), ?_, ?_⟩
    · simp only [bit_index]; omega
    · simp only; omega

/-- Witness of claim C2: a read of 4 bits at bit offset 6. -/
theorem C2_get_unsigned_bits_advance_witness :
    c1_state.decode_bit_pos ≤ 7 ∧ 4 ≤ 8 ∧
    c1_mem[c1_state.decode_ptr]? = some 0xC5 ∧
    (8 ≤ c1_state.decode_bit_pos + 4 → c1_mem[c1_state.decode_ptr + 1]? = some 0x0E) ∧
    ∃ v f', tga_fd_get_unsigned_bits c1_mem c1_state 4 = .ok (v, f') ∧
      bit_index f' = bit_index c1_state + 4 ∧ f'.decode_bit_pos ≤ 7 :=
  ⟨by decide, by decide, by decide, fun _ => by decide,
    C2_get_unsigned_bits_advance c1_mem c1_state 4 0xC5 0x0E (by decide) (by decide) (by decide)
      (fun _ => by decide)⟩

/-- Claim C3 as stated fails: a read of 8 bits at bit offset 0 ends exactly on
the byte boundary (`bit_offset + cnt = 8`), yet on a payload whose last byte is
the current one it dereferences index 1, outside the payload. -/
theorem C3_boundary_read_touches_next :
    c3_state.decode_bit_pos + 8 ≤ 8 ∧
    c3_mem[c3_state.decode_ptr]? = some 0xAB ∧
    c3_mem.length = c3_state.decode_ptr + 1 ∧
    tga_fd_get_unsigned_bits c3_mem c3_state 8 = .error (.out_of_bounds 1) := by
  decide

/-- Claim C3, amended: on a payload whose last byte is the current one (bit
offset `0..7`, `cnt` in `0..8`) the read dereferences the byte after the current
one exactly when `bit_offset + cnt >= 8`: with `bit_offset + cnt < 8` only the
current byte is accessed and the read succeeds, with `bit_offset + cnt >= 8` it
stops at the dereference of the next index. -/
theorem C3_next_byte_access (mem : List uint8_t) (f : tga_fd_t) (cnt : Nat) (cur : uint8_t)
    (hb : f.decode_bit_pos ≤ 7) (hc : cnt ≤ 8)
    (hcur : mem[f.decode_ptr]? = some cur) (hlast : mem.length = f.decode_ptr + 1) :
    (f.decode_bit_pos + cnt < 8 →
      tga_fd_get_unsigned_bits mem f cnt =
        .ok ((cur.val >>> f.decode_bit_pos) % 2 ^ cnt,
          { f with decode_bit_pos := f.decode_bit_pos + cnt })) ∧
    (8 ≤ f.decode_bit_pos + cnt →
      tga_fd_get_unsigned_bits mem f cnt = .error (.out_of_bounds (f.decode_ptr + 1))) := by
  constructor
  · intro hlt
    exact get_unsigned_bits_within mem f cnt cur hcur hlt
  · intro hge
    have hnone : mem[f.decode_ptr + 1]? = none := by
      rw [List.getElem?_eq_none_iff]; omega
    exact get_unsigned_bits_cross_fault mem f cnt cur hcur hnone hb hc hge

/-- Witness of claim C3, amended: a one-byte payload, bit offset 0. -/
theorem C3_next_byte_access_witness :
    c3_state.decode_bit_pos ≤ 7 ∧ 7 ≤ 8 ∧
    c3_mem[c3_state.decode_ptr]? = some 0xAB ∧ c3_mem.length = c3_state.decode_ptr + 1 ∧
    ((c3_state.decode_bit_pos + 7 < 8 →
      tga_fd_get_unsigned_bits c3_mem c3_state 7 =
        .ok (((0xAB : uint8_t).val >>> c3_state.decode_bit_pos) % 2 ^ 7,
          { c3_state with decode_bit_pos := c3_state.decode_bit_pos + 7 })) ∧
    (8 ≤ c3_state.decode_bit_pos + 7 →
      tga_fd_get_unsigned_bits c3_mem c3_state 7 =
        .error (.out_of_bounds (c3_state.decode_ptr + 1)))) :=
  ⟨by decide, by decide, by decide, by decide,
    C3_next_byte_access c3_mem c3_state 7 0xAB (by decide) (by decide) (by decide) (by decide)⟩

/-- Claim C4: for `cnt` in `1..8` and the unsigned value `v` stored at the cursor
(the value `tga_fd_get_unsigned_bits` reads there), `tga_fd_get_signed_bits`
returns `v - 2^(cnt-1)`; adding the bias `(1 << cnt) >> 1` gives `v` back; the
result lies in `[-2^(cnt-1), 2^(cnt-1) - 1]` and differs from the two's-complement
reading of the field. -/
theorem C4_get_signed_bits_bias (mem : List uint8_t) (f f' : tga_fd_t) (cnt v : Nat)
    (h1 : 1 ≤ cnt) (h8 : cnt ≤ 8)
    (hv : tga_fd_get_unsigned_bits mem f cnt = .ok (v, f')) :
    v < 2 ^ cnt ∧
    ∃ r : Int, tga_fd_get_signed_bits mem f cnt = .ok (r, f') ∧
      r = (v : Int) - 2 ^ (cnt - 1) ∧
      r + (((1 <<< cnt) >>> 1 : Nat) : Int) = (v : Int) ∧
      -(2 ^ (cnt - 1) : Int) ≤ r ∧ r ≤ 2 ^ (cnt - 1) - 1 ∧
      r ≠ twos_complement cnt v := by
  have hlt := get_unsigned_bits_lt mem f f' cnt v hv
  refine ⟨hlt, _, get_signed_bits_of_unsigned mem f f' cnt v (by omega) hv, ?_, ?_, ?_, ?_, ?_⟩
  · rw [bias_eq cnt h1]; push_cast; rfl
  · omega
  · rw [bias_eq cnt h1]; push_cast; omega
  · rw [bias_eq cnt h1]; push_cast
    have : (2 : Int) ^ cnt = 2 * 2 ^ (cnt - 1) := by
      obtain ⟨k, rfl⟩ : ∃ k, cnt = k + 1 := ⟨cnt - 1, by omega⟩
      simp [pow_succ, mul_comm]
    have hv' : (v : Int) < 2 ^ cnt := by exact_mod_cast hlt
    omega
  · rw [bias_eq cnt h1]
    have hp : (0 : Int) < 2 ^ (cnt - 1) := by positivity
    have : (2 : Int) ^ cnt = 2 * 2 ^ (cnt - 1) := by
      obtain ⟨k, rfl⟩ : ∃ k, cnt = k + 1 := ⟨cnt - 1, by omega⟩
      simp [pow_succ, mul_comm]
    unfold twos_complement
    push_cast
    split <;> omega

/-- Witness of claim C4: the 4-bit field `11` read at bit offset 6. -/
theorem C4_get_signed_bits_bias_witness :
    1 ≤ 4 ∧ 4 ≤ 8 ∧
    tga_fd_get_unsigned_bits c1_mem c1_state 4
      = .ok (11, { c1_state with decode_ptr := 1, decode_bit_pos := 2 }) ∧
    (11 < 2 ^ 4 ∧
    ∃ r : Int, tga_fd_get_signed_bits c1_mem c1_state 4
        = .ok (r, { c1_state with decode_ptr := 1, decode_bit_pos := 2 }) ∧
      r = ((11 : Nat) : Int) - 2 ^ (4 - 1) ∧
      r + (((1 <<< 4) >>> 1 : Nat) : Int) = ((11 : Nat) : Int) ∧
      -(2 ^ (4 - 1) : Int) ≤ r ∧ r ≤ 2 ^ (4 - 1) - 1 ∧
      r ≠ twos_complement 4 11) :=
  ⟨by decide, by decide, by decide,
    C4_get_signed_bits_bias c1_mem c1_state _ 4 11 (by decide) (by decide) (by decide)⟩

theorem get_unsigned_bits_absent (mem : List uint8_t) (f : tga_fd_t) (cnt : Nat)
    (h : mem[f.decode_ptr]? = none) :
    tga_fd_get_unsigned_bits mem f cnt = .error (.out_of_bounds f.decode_ptr) := by
  simp only [tga_fd_get_unsigned_bits, deref_of_none h, bind, Except.bind]

/-- Shape of a successful read with the cursor inside a byte and at most 8 bits asked. -/
theorem get_unsigned_bits_ok_cases (mem : List uint8_t) (f f' : tga_fd_t) (cnt v : Nat)
    (hb : f.decode_bit_pos ≤ 7) (hc : cnt ≤ 8)
    (h : tga_fd_get_unsigned_bits mem f cnt = .ok (v, f')) :
    ∃ cur, mem[f.decode_ptr]? = some cur ∧
      ((f.decode_bit_pos + cnt < 8 ∧ f' = { f with decode_bit_pos := f.decode_bit_pos + cnt }) ∨
       (8 ≤ f.decode_bit_pos + cnt ∧ (∃ next, mem[f.decode_ptr + 1]? = some next) ∧
          f' = { f with decode_ptr := f.decode_ptr + 1,
                        decode_bit_pos := f.decode_bit_pos + cnt - 8 })) := by
  cases hcur : mem[f.decode_ptr]? with
  | none => rw [get_unsigned_bits_absent mem f cnt hcur] at h; cases h
  | some cur =>
    refine ⟨cur, rfl, ?_⟩
    by_cases hge : 8 ≤ f.decode_bit_pos + cnt
    · right
      cases hnext : mem[f.decode_ptr + 1]? with
      | none =>
        rw [get_unsigned_bits_cross_fault mem f cnt cur hcur hnext hb hc hge] at h; cases h
      | some next =>
        rw [get_unsigned_bits_cross mem f cnt cur next hcur hnext hb hc hge] at h
        simp only [Except.ok.injEq, Prod.mk.injEq] at h
        exact ⟨hge, ⟨next, rfl⟩, h.2.symm⟩
    · left
      rw [get_unsigned_bits_within mem f cnt cur hcur (by omega)] at h
      simp only [Except.ok.injEq, Prod.mk.injEq] at h
      exact ⟨by omega, h.2.symm⟩

/-- A successful read moves the cursor forward by `cnt` bits and keeps the bit offset in `0..7`. -/
theorem get_unsigned_bits_advance (mem : List uint8_t) (f f' : tga_fd_t) (cnt v : Nat)
    (hb : f.decode_bit_pos ≤ 7) (hc : cnt ≤ 8)
    (h : tga_fd_get_unsigned_bits mem f cnt = .ok (v, f')) :
    bit_index f' = bit_index f + cnt ∧ f'.decode_bit_pos ≤ 7 := by
  obtain ⟨cur, _, h1 | h1⟩ := get_unsigned_bits_ok_cases mem f f' cnt v hb hc h
  · obtain ⟨hlt, rfl⟩ := h1
    simp only [bit_index]; omega
  · obtain ⟨hge, _, rfl⟩ := h1
    simp only [bit_index]; omega

theorem getElem?_none_of_length_eq {mem mem' : List uint8_t} (hlen : mem'.length = mem.length)
    {p : Nat} (h : mem[p]? = none) : mem'[p]? = none := by
  rw [List.getElem?_eq_none_iff] at h ⊢; omega

theorem getElem?_some_of_length_eq {mem mem' : List uint8_t} (hlen : mem'.length = mem.length)
    {p : Nat} {b : uint8_t} (h : mem[p]? = some b) : ∃ b', mem'[p]? = some b' := by
  have hp : p < mem.length := by
    by_contra hp
    rw [List.getElem?_eq_none_iff.mpr (by omega)] at h; cases h
  cases hm : mem'[p]? with
  | none => rw [List.getElem?_eq_none_iff] at hm; omega
  | some b' => exact ⟨b', rfl⟩

/-- The value formula is determined by the `cnt` stream bits after the cursor. -/
theorem formula_congr (cur next cur' next' : uint8_t) (bp cnt : Nat) (hb : bp ≤ 7)
    (h : ∀ i, i < cnt →
      (if bp + i < 8 then cur.val.testBit (bp + i) else next.val.testBit (bp + i - 8)) =
      (if bp + i < 8 then cur'.val.testBit (bp + i) else next'.val.testBit (bp + i - 8))) :
    ((cur.val >>> bp) ||| (next.val <<< (8 - bp))) % 2 ^ cnt =
    ((cur'.val >>> bp) ||| (next'.val <<< (8 - bp))) % 2 ^ cnt := by
  apply Nat.eq_of_testBit_eq
  intro i
  rw [formula_testBit cur next bp cnt i hb, formula_testBit cur' next' bp cnt i hb]
  by_cases hi : i < cnt
  · simp only [hi, decide_True, Bool.true_and]
    exact h i hi
  · simp [hi]

/-- A read returns the same on two blobs of equal length that agree on the bits read. -/
theorem get_unsigned_bits_congr (mem mem' : List uint8_t) (f : tga_fd_t) (cnt : Nat)
    (hlen : mem'.length = mem.length) (hb : f.decode_bit_pos ≤ 7) (hc : cnt ≤ 8)
    (hbits : ∀ k, bit_index f ≤ k → k < bit_index f + cnt → stream_bit mem' k = stream_bit mem k) :
    tga_fd_get_unsigned_bits mem' f cnt = tga_fd_get_unsigned_bits mem f cnt := by
  cases hcur : mem[f.decode_ptr]? with
  | none =>
    rw [get_unsigned_bits_absent mem f cnt hcur,
      get_unsigned_bits_absent mem' f cnt (getElem?_none_of_length_eq hlen hcur)]
  | some cur =>
    obtain ⟨cur', hcur'⟩ := getElem?_some_of_length_eq hlen hcur
    by_cases hge : 8 ≤ f.decode_bit_pos + cnt
    · cases hnext : mem[f.decode_ptr + 1]? with
      | none =>
        rw [get_unsigned_bits_cross_fault mem f cnt cur hcur hnext hb hc hge,
          get_unsigned_bits_cross_fault mem' f cnt cur' hcur'
            (getElem?_none_of_length_eq hlen hnext) hb hc hge]
      | some next =>
        obtain ⟨next', hnext'⟩ := getElem?_some_of_length_eq hlen hnext
        rw [get_unsigned_bits_cross mem f cnt cur next hcur hnext hb hc hge,
          get_unsigned_bits_cross mem' f cnt cur' next' hcur' hnext' hb hc hge]
        congr 2
        apply formula_congr _ _ _ _ _ _ hb
        intro i hi
        have hk := hbits (bit_index f + i) (by omega) (by omega)
        simp only [bit_index, Nat.add_assoc] at hk
        by_cases h8 : f.decode_bit_pos + i < 8
        · rw [stream_bit_cur mem _ _ cur hcur h8, stream_bit_cur mem' _ _ cur' hcur' h8] at hk
          simp only [h8, if_true, hk]
        · rw [stream_bit_next mem _ _ next hnext (by omega) (by omega),
            stream_bit_next mem' _ _ next' hnext' (by omega) (by omega)] at hk
          simp only [h8, if_false, hk]
    · have hlt : f.decode_bit_pos + cnt < 8 := by omega
      rw [get_unsigned_bits_within mem f cnt cur hcur hlt,
        get_unsigned_bits_within mem' f cnt cur' hcur' hlt]
      congr 2
      rw [shr_mod_eq_or_shl_mod cur.val cur.val _ cnt hlt,
        shr_mod_eq_or_shl_mod cur'.val cur'.val _ cnt hlt]
      apply formula_congr _ _ _ _ _ _ hb
      intro i hi
      have hk := hbits (bit_index f + i) (by omega) (by omega)
      simp only [bit_index, Nat.add_assoc] at hk
      have h8 : f.decode_bit_pos + i < 8 := by omega
      rw [stream_bit_cur mem _ _ cur hcur h8, stream_bit_cur mem' _ _ cur' hcur' h8] at hk
      simp only [h8, if_true, hk]

theorem get_signed_bits_congr (mem mem' : List uint8_t) (f : tga_fd_t) (cnt : Nat)
    (hlen : mem'.length = mem.length) (hb : f.decode_bit_pos ≤ 7) (hc : cnt ≤ 8)
    (hbits : ∀ k, bit_index f ≤ k → k < bit_index f + cnt → stream_bit mem' k = stream_bit mem k) :
    tga_fd_get_signed_bits mem' f cnt = tga_fd_get_signed_bits mem f cnt := by
  simp only [tga_fd_get_signed_bits, get_unsigned_bits_congr mem mem' f cnt hlen hb hc hbits]

/-- Shape of a successful signed read. -/
theorem get_signed_bits_ok (mem : List uint8_t) (f f' : tga_fd_t) (cnt : Nat) (d : Int)
    (h : tga_fd_get_signed_bits mem f cnt = .ok (d, f')) :
    ∃ v, tga_fd_get_unsigned_bits mem f cnt = .ok (v, f') ∧ cnt < 31 ∧
      d = (v : Int) - (((1 <<< cnt) >>> 1 : Nat) : Int) := by
  simp only [tga_fd_get_signed_bits, bind, Except.bind, pure, Except.pure,
    throw, throwThe, MonadExceptOf.throw] at h
  cases hr : tga_fd_get_unsigned_bits mem f cnt with
  | error e => rw [hr] at h; cases h
  | ok r =>
    obtain ⟨v, f1⟩ := r
    rw [hr] at h
    simp only at h
    split at h
    · cases h
    · simp only [Except.ok.injEq, Prod.mk.injEq] at h
      exact ⟨v, by rw [h.2], by omega, h.1.symm⟩

theorem get_signed_bits_advance (mem : List uint8_t) (f f' : tga_fd_t) (cnt : Nat) (d : Int)
    (hb : f.decode_bit_pos ≤ 7) (hc : cnt ≤ 8)
    (h : tga_fd_get_signed_bits mem f cnt = .ok (d, f')) :
    bit_index f' = bit_index f + cnt ∧ f'.decode_bit_pos ≤ 7 := by
  obtain ⟨v, hv, _, _⟩ := get_signed_bits_ok mem f f' cnt d h
  exact get_unsigned_bits_advance mem f f' cnt v hb hc hv

/-- A signed field lies strictly between `-2^31` and `2^31`. -/
theorem get_signed_bits_range (mem : List uint8_t) (f f' : tga_fd_t) (cnt : Nat) (d : Int)
    (h : tga_fd_get_signed_bits mem f cnt = .ok (d, f')) :
    -(2 ^ 30 : Int) ≤ d ∧ d < 2 ^ 30 := by
  obtain ⟨v, hv, hc, rfl⟩ := get_signed_bits_ok mem f f' cnt d h
  have hlt := get_unsigned_bits_lt mem f f' cnt v hv
  have h1 : (1 <<< cnt) >>> 1 ≤ 2 ^ 30 := by
    interval_cases cnt <;> decide
  have h2 : 2 ^ cnt ≤ 2 ^ 30 := Nat.pow_le_pow_right (by decide) (by omega)
  constructor
  · have : (0:Int) ≤ (v : Int) := Int.ofNat_nonneg v
    have h1' : (((1 <<< cnt) >>> 1 : Nat) : Int) ≤ 2 ^ 30 := by exact_mod_cast h1
    omega
  · have : (v : Int) < 2 ^ 30 := by exact_mod_cast (lt_of_lt_of_le hlt h2)
    have : (0:Int) ≤ (((1 <<< cnt) >>> 1 : Nat) : Int) := Int.ofNat_nonneg _
    omega

/-- The five reads behind a successful `glyph_header`. -/
theorem glyph_header_ok (font : Font) (mem : List uint8_t) (g : Nat) (hd : GlyphHeader)
    (h : glyph_header font mem g = .ok hd) :
    ∃ c1 c2 c3 c4 c5,
      tga_fd_get_unsigned_bits mem (cursor (g + 2) 0) font.bits_per_char_width
        = .ok (hd.glyph_width, c1) ∧
      tga_fd_get_unsigned_bits mem c1 font.bits_per_char_height = .ok (hd.glyph_height, c2) ∧
      tga_fd_get_signed_bits mem c2 font.bits_per_char_x = .ok (hd.x, c3) ∧
      tga_fd_get_signed_bits mem c3 font.bits_per_char_y = .ok (hd.y, c4) ∧
      tga_fd_get_signed_bits mem c4 font.bits_per_delta_x = .ok (hd.d, c5) ∧
      hd.decode_ptr = c5.decode_ptr ∧ hd.decode_bit_pos = c5.decode_bit_pos := by
  simp only [glyph_header, bind, Except.bind, pure, Except.pure] at h
  cases h1 : tga_fd_get_unsigned_bits mem (cursor (g + 2) 0) font.bits_per_char_width with
  | error e => rw [h1] at h; cases h
  | ok r1 =>
    obtain ⟨w, c1⟩ := r1
    rw [h1] at h; simp only at h
    cases h2 : tga_fd_get_unsigned_bits mem c1 font.bits_per_char_height with
    | error e => rw [h2] at h; cases h
    | ok r2 =>
      obtain ⟨hh, c2⟩ := r2
      rw [h2] at h; simp only at h
      cases h3 : tga_fd_get_signed_bits mem c2 font.bits_per_char_x with
      | error e => rw [h3] at h; cases h
      | ok r3 =>
        obtain ⟨x, c3⟩ := r3
        rw [h3] at h; simp only at h
        cases h4 : tga_fd_get_signed_bits mem c3 font.bits_per_char_y with
        | error e => rw [h4] at h; cases h
        | ok r4 =>
          obtain ⟨y, c4⟩ := r4
          rw [h4] at h; simp only at h
          cases h5 : tga_fd_get_signed_bits mem c4 font.bits_per_delta_x with
          | error e => rw [h5] at h; cases h
          | ok r5 =>
            obtain ⟨d, c5⟩ := r5
            rw [h5] at h; simp only [Except.ok.injEq] at h
            subst h
            exact ⟨c1, c2, c3, c4, c5, rfl, h2, h3, h4, h5, rfl, rfl⟩

/-- `glyph_header` from its five reads. -/
theorem glyph_header_of_reads (font : Font) (mem : List uint8_t) (g : Nat)
    (w h : Nat) (x y d : Int) (c1 c2 c3 c4 c5 : tga_fd_t)
    (h1 : tga_fd_get_unsigned_bits mem (cursor (g + 2) 0) font.bits_per_char_width = .ok (w, c1))
    (h2 : tga_fd_get_unsigned_bits mem c1 font.bits_per_char_height = .ok (h, c2))
    (h3 : tga_fd_get_signed_bits mem c2 font.bits_per_char_x = .ok (x, c3))
    (h4 : tga_fd_get_signed_bits mem c3 font.bits_per_char_y = .ok (y, c4))
    (h5 : tga_fd_get_signed_bits mem c4 font.bits_per_delta_x = .ok (d, c5)) :
    glyph_header font mem g = .ok ⟨w, h, x, y, d, c5.decode_ptr, c5.decode_bit_pos⟩ := by
  simp only [glyph_header, bind, Except.bind, pure, Except.pure, h1, h2, h3, h4, h5]

/-- The geometry fields are the same on two blobs of equal length that agree
on every bit before the end of the advance field. -/
theorem glyph_header_congr (font : Font) (mem mem' : List uint8_t) (g : Nat) (hd : GlyphHeader)
    (hw : field_widths_le_8 font) (hlen : mem'.length = mem.length)
    (h : glyph_header font mem g = .ok hd)
    (hbits : ∀ k, k < 8 * hd.decode_ptr + hd.decode_bit_pos → stream_bit mem' k = stream_bit mem k) :
    glyph_header font mem' g = .ok hd := by
  obtain ⟨_, _, hw1, hw2, hw3, hw4, hw5⟩ := hw
  obtain ⟨c1, c2, c3, c4, c5, h1, h2, h3, h4, h5, hp, hb⟩ := glyph_header_ok font mem g hd h
  have hb0 : (cursor (g + 2) 0).decode_bit_pos ≤ 7 := by simp [cursor]
  obtain ⟨a1, b1⟩ := get_unsigned_bits_advance mem _ _ _ _ hb0 hw1 h1
  obtain ⟨a2, b2⟩ := get_unsigned_bits_advance mem _ _ _ _ b1 hw2 h2
  obtain ⟨a3, b3⟩ := get_signed_bits_advance mem _ _ _ _ b2 hw3 h3
  obtain ⟨a4, b4⟩ := get_signed_bits_advance mem _ _ _ _ b3 hw4 h4
  obtain ⟨a5, b5⟩ := get_signed_bits_advance mem _ _ _ _ b4 hw5 h5
  have hend : 8 * hd.decode_ptr + hd.decode_bit_pos = bit_index c5 := by
    rw [hp, hb]; rfl
  rw [hend] at hbits
  have e1 := get_unsigned_bits_congr mem mem' _ _ hlen hb0 hw1
    (fun k _ hk => hbits k (by omega))
  have e2 := get_unsigned_bits_congr mem mem' c1 _ hlen b1 hw2
    (fun k _ hk => hbits k (by omega))
  have e3 := get_signed_bits_congr mem mem' c2 _ hlen b2 hw3
    (fun k _ hk => hbits k (by omega))
  have e4 := get_signed_bits_congr mem mem' c3 _ hlen b3 hw4
    (fun k _ hk => hbits k (by omega))
  have e5 := get_signed_bits_congr mem mem' c4 _ hlen b4 hw5
    (fun k _ hk => hbits k (by omega))
  rw [← e1] at h1; rw [← e2] at h2; rw [← e3] at h3; rw [← e4] at h4; rw [← e5] at h5
  have := glyph_header_of_reads font mem' g _ _ _ _ _ _ _ _ _ _ h1 h2 h3 h4 h5
  rw [this]
  congr 1
  cases hd
  simp only at hp hb
  simp [hp, hb]

/-- Without wide fields the advance field ends `width + height + x + y + dx` bits
behind the two entry bytes. -/
theorem glyph_header_end (font : Font) (mem : List uint8_t) (g : Nat) (hd : GlyphHeader)
    (hw : field_widths_le_8 font) (h : glyph_header font mem g = .ok hd) :
    8 * hd.decode_ptr + hd.decode_bit_pos =
      8 * (g + 2) + (font.bits_per_char_width + font.bits_per_char_height +
        font.bits_per_char_x + font.bits_per_char_y + font.bits_per_delta_x) ∧
    hd.decode_bit_pos ≤ 7 := by
  obtain ⟨_, _, hw1, hw2, hw3, hw4, hw5⟩ := hw
  obtain ⟨c1, c2, c3, c4, c5, h1, h2, h3, h4, h5, hp, hb⟩ := glyph_header_ok font mem g hd h
  have hb0 : (cursor (g + 2) 0).decode_bit_pos ≤ 7 := by simp [cursor]
  obtain ⟨a1, b1⟩ := get_unsigned_bits_advance mem _ _ _ _ hb0 hw1 h1
  obtain ⟨a2, b2⟩ := get_unsigned_bits_advance mem _ _ _ _ b1 hw2 h2
  obtain ⟨a3, b3⟩ := get_signed_bits_advance mem _ _ _ _ b2 hw3 h3
  obtain ⟨a4, b4⟩ := get_signed_bits_advance mem _ _ _ _ b3 hw4 h4
  obtain ⟨a5, b5⟩ := get_signed_bits_advance mem _ _ _ _ b4 hw5 h5
  have h0 : bit_index (cursor (g + 2) 0) = 8 * (g + 2) := by simp [bit_index, cursor]
  rw [hp, hb]
  simp only [bit_index] at a1 a2 a3 a4 a5 h0
  constructor
  · omega
  · exact b5

/-- Decode of a glyph whose width field is zero. -/
theorem decode_zero_width (font : Font) (mem : List uint8_t) (fuel : Nat) (f : tga_fd_t)
    (t : Tga) (g : Nat) (is_hints : Bool) (hd : GlyphHeader)
    (h : glyph_header font mem g = .ok hd) (hw : hd.glyph_width = 0) :
    tga_fd_decode font mem fuel f t g is_hints = .ok (to_unsigned hd.d, after_header f hd, t) := by
  rw [decode_eq, h]
  simp [hw]

theorem to_unsigned_cast (d : Int) : ((to_unsigned d : Nat) : Int) = d % 4294967296 := by
  unfold to_unsigned
  rw [UINT_eq]
  exact Int.toNat_of_nonneg (Int.emod_nonneg _ (by decide))

theorem to_unsigned_lt (d : Int) : to_unsigned d < 4294967296 := by
  have h := to_unsigned_cast d
  have := Int.emod_lt_of_pos d (show (0 : Int) < 4294967296 by decide)
  omega

/-- The value `tga_fd_decode` returns is the advance field converted to `unsigned`. -/
theorem decode_return (font : Font) (mem : List uint8_t) (fuel : Nat) (f : tga_fd_t) (t : Tga)
    (g : Nat) (is_hints : Bool) (r : Nat) (f' : tga_fd_t) (t' : Tga)
    (h : tga_fd_decode font mem fuel f t g is_hints = .ok (r, f', t')) :
    ∃ hd, glyph_header font mem g = .ok hd ∧ r = to_unsigned hd.d := by
  rw [decode_eq] at h
  cases hh : glyph_header font mem g with
  | error e => rw [hh] at h; cases h
  | ok hd =>
    refine ⟨hd, rfl, ?_⟩
    rw [hh] at h
    simp only at h
    split at h
    · cases hl : glyph_loop font mem is_hints fuel (loop_start f hd, t) with
      | error e => rw [hl] at h; cases h
      | ok s =>
        rw [hl] at h
        simp only [Except.map, Except.ok.injEq, Prod.mk.injEq] at h
        exact h.1.symm
    · simp only [Except.ok.injEq, Prod.mk.injEq] at h
      exact h.1.symm

theorem glyph_header_d_range (font : Font) (mem : List uint8_t) (g : Nat) (hd : GlyphHeader)
    (h : glyph_header font mem g = .ok hd) : -(2 ^ 30 : Int) ≤ hd.d ∧ hd.d < 2 ^ 30 := by
  obtain ⟨c1, c2, c3, c4, c5, _, _, _, _, h5, _, _⟩ := glyph_header_ok font mem g hd h
  exact get_signed_bits_range mem c4 c5 _ hd.d h5

/-- Claim C6 as stated fails: the dx field of this zero-width glyph holds 0, below
the bias 8 of a 4-bit field, so the signed advance is -8; `tga_fd_decode`
returns 4294967288, which is not a negative number. -/
theorem C6_negative_advance_not_returned :
    glyph_header demo_font c5_mem 0 = .ok c5_header ∧ c5_header.d = -8 ∧
    tga_fd_decode demo_font c5_mem 0 c5_state (white 2 2) 0 false
      = .ok (4294967288, after_header c5_state c5_header, white 2 2) ∧
    ((4294967288 : Nat) : Int) ≠ c5_header.d := by
  decide

/-- Claim C6, amended: whenever `tga_fd_decode` returns, the value returned is the
signed advance of the dx field converted to `unsigned` (reduced modulo `2^32`):
the advance itself when it is not negative, the advance plus `2^32` when the
stored field is below the bias; any other terminating call on a blob with the
same geometry fields, whatever the run-length stream, the origin, the raster,
the fuel and `is_hints`, returns the same value. -/
theorem C6_return_value (font : Font) (mem : List uint8_t) (fuel : Nat) (f : tga_fd_t) (t : Tga)
    (g : Nat) (is_hints : Bool) (r : Nat) (f' : tga_fd_t) (t' : Tga)
    (h : tga_fd_decode font mem fuel f t g is_hints = .ok (r, f', t')) :
    ∃ hd, glyph_header font mem g = .ok hd ∧
      (r : Int) = hd.d % 2 ^ 32 ∧ r < 2 ^ 32 ∧
      (0 ≤ hd.d → (r : Int) = hd.d) ∧ (hd.d < 0 → (r : Int) = hd.d + 2 ^ 32) ∧
      ∀ (mem2 : List uint8_t) (fuel2 : Nat) (f2 : tga_fd_t) (t2 : Tga) (hints2 : Bool)
        (r2 : Nat) (f2' : tga_fd_t) (t2' : Tga),
        glyph_header font mem2 g = .ok hd →
        tga_fd_decode font mem2 fuel2 f2 t2 g hints2 = .ok (r2, f2', t2') → r2 = r := by
  obtain ⟨hd, hhd, hr⟩ := decode_return font mem fuel f t g is_hints r f' t' h
  have hc := to_unsigned_cast hd.d
  have hl := to_unsigned_lt hd.d
  obtain ⟨hlo, hhi⟩ := glyph_header_d_range font mem g hd hhd
  rw [← hr] at hc hl
  refine ⟨hd, hhd, ?_, ?_, ?_, ?_, ?_⟩
  · rw [hc]; norm_num
  · norm_num; exact hl
  · intro h0; omega
  · intro h0; omega
  · intro mem2 fuel2 f2 t2 hints2 r2 f2' t2' hhd2 h2
    obtain ⟨hd2, hhd2', hr2⟩ := decode_return font mem2 fuel2 f2 t2 g hints2 r2 f2' t2' h2
    rw [hhd2] at hhd2'
    simp only [Except.ok.injEq] at hhd2'
    rw [hr, hr2, hhd2']

/-- Witness of claim C6, amended: the zero-width glyph with advance -8. -/
theorem C6_return_value_witness :
    tga_fd_decode demo_font c5_mem 0 c5_state (white 2 2) 0 false
      = .ok (4294967288, after_header c5_state c5_header, white 2 2) ∧
    ∃ hd, glyph_header demo_font c5_mem 0 = .ok hd ∧
      ((4294967288 : Nat) : Int) = hd.d % 2 ^ 32 ∧ 4294967288 < 2 ^ 32 ∧
      (0 ≤ hd.d → ((4294967288 : Nat) : Int) = hd.d) ∧
      (hd.d < 0 → ((4294967288 : Nat) : Int) = hd.d + 2 ^ 32) ∧
      ∀ (mem2 : List uint8_t) (fuel2 : Nat) (f2 : tga_fd_t) (t2 : Tga) (hints2 : Bool)
        (r2 : Nat) (f2' : tga_fd_t) (t2' : Tga),
        glyph_header demo_font mem2 0 = .ok hd →
        tga_fd_decode demo_font mem2 fuel2 f2 t2 0 hints2 = .ok (r2, f2', t2') →
        r2 = 4294967288 :=
  ⟨by decide, C6_return_value demo_font c5_mem 0 c5_state (white 2 2) 0 false 4294967288
    (after_header c5_state c5_header) (white 2 2) (by decide)⟩

theorem pixel_offset_inj (t : Tga) (x y px py : Nat)
    (hx : x < t.tga_width) (hy : y < t.tga_height)
    (hpx : px < t.tga_width) (hpy : py < t.tga_height)
    (h : pixel_offset t x y = pixel_offset t px py) : x = px ∧ y = py := by
  unfold pixel_offset at h
  have h' : (t.tga_height - y - 1) * t.tga_width + x = (t.tga_height - py - 1) * t.tga_width + px := by
    omega
  have e1 : ((t.tga_height - y - 1) * t.tga_width + x) / t.tga_width = t.tga_height - y - 1 := by
    rw [Nat.add_comm, Nat.add_mul_div_right _ _ (by omega), Nat.div_eq_of_lt hx, Nat.zero_add]
  have e2 : ((t.tga_height - py - 1) * t.tga_width + px) / t.tga_width = t.tga_height - py - 1 := by
    rw [Nat.add_comm, Nat.add_mul_div_right _ _ (by omega), Nat.div_eq_of_lt hpx, Nat.zero_add]
  have e3 : ((t.tga_height - y - 1) * t.tga_width + x) % t.tga_width = x := by
    rw [Nat.add_comm, Nat.add_mul_mod_self_right, Nat.mod_eq_of_lt hx]
  have e4 : ((t.tga_height - py - 1) * t.tga_width + px) % t.tga_width = px := by
    rw [Nat.add_comm, Nat.add_mul_mod_self_right, Nat.mod_eq_of_lt hpx]
  rw [h'] at e1 e3
  constructor
  · omega
  · omega

theorem pixel_offset_lt (t : Tga) (x y : Nat) (hwf : well_formed t)
    (hx : x < t.tga_width) (hy : y < t.tga_height) :
    pixel_offset t x y + 2 < t.tga_data.length := by
  unfold pixel_offset
  rw [hwf]
  have h1 : (t.tga_height - y - 1) + 1 ≤ t.tga_height := by omega
  have h2 : ((t.tga_height - y - 1) + 1) * t.tga_width ≤ t.tga_height * t.tga_width :=
    Nat.mul_le_mul_right _ h1
  rw [Nat.add_mul, Nat.one_mul] at h2
  have h3 : t.tga_height * t.tga_width = t.tga_width * t.tga_height := Nat.mul_comm _ _
  omega

theorem set_pixel_dims (t : Tga) (x y : Nat) (r g b : uint8_t) :
    (tga_set_pixel t x y r g b).tga_width = t.tga_width ∧
    (tga_set_pixel t x y r g b).tga_height = t.tga_height ∧
    (tga_set_pixel t x y r g b).tga_data.length = t.tga_data.length := by
  unfold tga_set_pixel
  simp only
  split
  · exact ⟨rfl, rfl, rfl⟩
  · split
    · exact ⟨rfl, rfl, rfl⟩
    · simp

theorem get_pixel_eq (t : Tga) (x y : Nat) :
    get_pixel t x y =
      if y < t.tga_height ∧ x < t.tga_width then
        match t.tga_data[pixel_offset t x y]?, t.tga_data[pixel_offset t x y + 1]?,
          t.tga_data[pixel_offset t x y + 2]? with
        | some b, some g, some r => some (r, g, b)
        | _, _, _ => none
      else none := rfl

/-- `tga_set_pixel` leaves every other pixel of the raster as it was. -/
theorem get_pixel_set_pixel_ne (t : Tga) (x y : Nat) (r g b : uint8_t) (px py : Nat)
    (hne : ¬ (px = x % 65536 ∧ py = y % 65536)) :
    get_pixel (tga_set_pixel t x y r g b) px py = get_pixel t px py := by
  by_cases hin : py < t.tga_height ∧ px < t.tga_width
  · unfold tga_set_pixel
    simp only
    split
    · rfl
    · split
      · rfl
      · rename_i hy hx
        have hy' : y % 65536 < t.tga_height := by omega
        have hx' : x % 65536 < t.tga_width := by omega
        have hoff : pixel_offset t (x % 65536) (y % 65536) ≠ pixel_offset t px py := by
          intro he
          have := pixel_offset_inj t _ _ _ _ hx' hy' hin.2 hin.1 he
          exact hne ⟨this.1.symm, this.2.symm⟩
        have h3a : pixel_offset t (x % 65536) (y % 65536) % 3 = 0 := by
          unfold pixel_offset; omega
        have h3b : pixel_offset t px py % 3 = 0 := by
          unfold pixel_offset; omega
        rw [get_pixel_eq, get_pixel_eq]
        simp only [pixel_offset] at hoff h3a h3b ⊢
        simp only [hin, and_self, if_true]
        rw [List.getElem?_set_ne (by omega), List.getElem?_set_ne (by omega),
          List.getElem?_set_ne (by omega), List.getElem?_set_ne (by omega),
          List.getElem?_set_ne (by omega), List.getElem?_set_ne (by omega),
          List.getElem?_set_ne (by omega), List.getElem?_set_ne (by omega),
          List.getElem?_set_ne (by omega)]
  · obtain ⟨hw, hh, _⟩ := set_pixel_dims t x y r g b
    rw [get_pixel_eq, get_pixel_eq, hw, hh]
    simp only [hin, if_false]

/-- `tga_set_pixel` inside the raster stores the colour at the pixel. -/
theorem get_pixel_set_pixel_self (t : Tga) (x y : Nat) (r g b : uint8_t) (hwf : well_formed t)
    (hx : x % 65536 < t.tga_width) (hy : y % 65536 < t.tga_height) :
    get_pixel (tga_set_pixel t x y r g b) (x % 65536) (y % 65536) = some (r, g, b) := by
  have hlt := pixel_offset_lt t _ _ hwf hx hy
  unfold tga_set_pixel
  simp only
  rw [if_neg (by omega), if_neg (by omega)]
  rw [get_pixel_eq]
  simp only [pixel_offset] at hlt ⊢
  simp only [hx, hy, and_self, if_true]
  rw [List.getElem?_set_ne (by omega), List.getElem?_set_ne (by omega),
    List.getElem?_set_self (by omega),
    List.getElem?_set_ne (by omega),
    List.getElem?_set_self (by simp; omega),
    List.getElem?_set_self (by simp; omega)]

theorem set_pixel_well_formed (t : Tga) (x y : Nat) (r g b : uint8_t) (hwf : well_formed t) :
    well_formed (tga_set_pixel t x y r g b) := by
  obtain ⟨hw, hh, hl⟩ := set_pixel_dims t x y r g b
  unfold well_formed at hwf ⊢
  rw [hw, hh, hl, hwf]

theorem succ_div_mod (w n : Nat) (hw : 0 < w) :
    (n % w + 1 = w → (n + 1) % w = 0 ∧ (n + 1) / w = n / w + 1) ∧
    (n % w + 1 ≠ w → (n + 1) % w = n % w + 1 ∧ (n + 1) / w = n / w) := by
  have hdm := Nat.div_add_mod n w
  have hlt := Nat.mod_lt n hw
  constructor
  · intro h
    have e : n + 1 = w * (n / w + 1) := by rw [Nat.mul_add, Nat.mul_one]; omega
    rw [e]
    exact ⟨Nat.mul_mod_right _ _, Nat.mul_div_cancel_left _ hw⟩
  · intro h
    have hlt' : n % w + 1 < w := by omega
    have e : n + 1 = w * (n / w) + (n % w + 1) := by omega
    constructor
    · conv_lhs => rw [e]
      rw [Nat.mul_add_mod, Nat.mod_eq_of_lt hlt']
    · conv_lhs => rw [e]
      rw [Nat.mul_add_div hw, Nat.div_eq_of_lt hlt', Nat.add_zero]

/-- Effect of `tga_fd_inc` at cell `n` of a glyph of width `w`. -/
theorem inc_at_cell (f : tga_fd_t) (w n : Nat) (hw : 0 < w) (hwu : w < UINT)
    (hgw : f.glyph_width = w) (hx : f.x = n % w) (hy : f.y = (n / w) % UINT) :
    tga_fd_inc f = { f with x := (n + 1) % w, y := ((n + 1) / w) % UINT,
                            inc_calls := f.inc_calls + 1 } := by
  have hlt := Nat.mod_lt n hw
  have hxu : (f.x + 1) % UINT = f.x + 1 := by
    apply Nat.mod_eq_of_lt; omega
  obtain ⟨h1, h2⟩ := succ_div_mod w n hw
  unfold tga_fd_inc
  simp only [hxu, hgw]
  by_cases hwrap : n % w + 1 = w
  · obtain ⟨e1, e2⟩ := h1 hwrap
    rw [if_pos (by omega), e1, e2, hy]
    congr 1
    rw [UINT_eq]; omega
  · obtain ⟨e1, e2⟩ := h2 hwrap
    rw [if_neg (by omega), e1, e2, hx, ← hy]

theorem loop_inv_skip_step (w gh tx ty base : Nat) (t0 : Tga) (n : Nat) (hw : 0 < w)
    (hwu : w < UINT) (f : tga_fd_t) (t : Tga) (r g b : uint8_t) (paint : Bool)
    (h : loop_inv w gh tx ty base t0 n (f, t)) :
    loop_inv w gh tx ty base t0 (n + 1)
      (tga_fd_inc f,
        if paint then tga_set_pixel t ((f.target_x + f.x) % UINT) ((f.target_y + f.y) % UINT) r g b
        else t) := by
  obtain ⟨hgw, hgh, htx, hty, hx, hy, hc, hW, hH, hL, hfr⟩ := h
  simp only at hgw hgh htx hty hx hy hc hW hH hL hfr
  rw [inc_at_cell f w n hw hwu hgw hx hy]
  refine ⟨hgw, hgh, htx, hty, rfl, rfl, by simp only; omega, ?_, ?_, ?_, ?_⟩
  · cases paint
    · exact hW
    · simp only [if_true]; rw [(set_pixel_dims t _ _ r g b).1]; exact hW
  · cases paint
    · exact hH
    · simp only [if_true]; rw [(set_pixel_dims t _ _ r g b).2.1]; exact hH
  · cases paint
    · exact hL
    · simp only [if_true]; rw [(set_pixel_dims t _ _ r g b).2.2]; exact hL
  · intro px py hne
    by_cases hold : get_pixel t px py = get_pixel t0 px py
    · cases paint
      · exact absurd hold hne
      · simp only [if_true] at hne
        by_cases hp : px = ((f.target_x + f.x) % UINT) % 65536 ∧
            py = ((f.target_y + f.y) % UINT) % 65536
        · refine ⟨n, by omega, ?_⟩
          simp only [cell_pixel, ← hx, ← hy, ← htx, ← hty, hp.1, hp.2]
        · rw [get_pixel_set_pixel_ne t _ _ r g b px py hp] at hne
          exact absurd hold hne
    · obtain ⟨i, hi, hpi⟩ := hfr px py hold
      exact ⟨i, by omega, hpi⟩

theorem skip_loop_inv (w gh tx ty base : Nat) (t0 : Tga) (hw : 0 < w) (hwu : w < UINT)
    (is_hints : Bool) (a : Nat) :
    ∀ (n : Nat) (s : tga_fd_t × Tga), loop_inv w gh tx ty base t0 n s →
      loop_inv w gh tx ty base t0 (n + a) (skip_loop is_hints a s) := by
  induction a with
  | zero => intro n s h; exact h
  | succ a ih =>
    intro n s h
    obtain ⟨f, t⟩ := s
    have h1 := loop_inv_skip_step w gh tx ty base t0 n hw hwu f t 0x0e0 0x0e0 0x0e0 is_hints h
    have h2 := ih (n + 1) _ h1
    have e : n + (a + 1) = n + 1 + a := by omega
    rw [e]
    exact h2

theorem paint_loop_inv (w gh tx ty base : Nat) (t0 : Tga) (hw : 0 < w) (hwu : w < UINT)
    (b : Nat) :
    ∀ (n : Nat) (s : tga_fd_t × Tga), loop_inv w gh tx ty base t0 n s →
      loop_inv w gh tx ty base t0 (n + b) (paint_loop b s) := by
  induction b with
  | zero => intro n s h; exact h
  | succ b ih =>
    intro n s h
    obtain ⟨f, t⟩ := s
    have h1 := loop_inv_skip_step w gh tx ty base t0 n hw hwu f t 0 0 0 true h
    have h2 := ih (n + 1) _ h1
    have e : n + (b + 1) = n + 1 + b := by omega
    rw [e]
    exact h2

theorem apply_run_inv (w gh tx ty base : Nat) (t0 : Tga) (hw : 0 < w) (hwu : w < UINT)
    (is_hints : Bool) (a b n : Nat) (s : tga_fd_t × Tga)
    (h : loop_inv w gh tx ty base t0 n s) :
    loop_inv w gh tx ty base t0 (n + (a + b)) (apply_run is_hints a b s) := by
  have := paint_loop_inv w gh tx ty base t0 hw hwu b _ _
    (skip_loop_inv w gh tx ty base t0 hw hwu is_hints a n s h)
  rw [Nat.add_assoc] at this
  exact this

theorem inc_set_cursor (f c : tga_fd_t) :
    tga_fd_inc (set_cursor f c) = set_cursor (tga_fd_inc f) c := by
  unfold tga_fd_inc set_cursor
  simp only
  split <;> rfl

theorem skip_loop_set_cursor (is_hints : Bool) (a : Nat) (c : tga_fd_t) :
    ∀ (f : tga_fd_t) (t : Tga), skip_loop is_hints a (set_cursor f c, t) =
      (set_cursor (skip_loop is_hints a (f, t)).1 c, (skip_loop is_hints a (f, t)).2) := by
  induction a with
  | zero => intro f t; rfl
  | succ a ih =>
    intro f t
    simp only [skip_loop, inc_set_cursor]
    exact ih _ _

theorem paint_loop_set_cursor (b : Nat) (c : tga_fd_t) :
    ∀ (f : tga_fd_t) (t : Tga), paint_loop b (set_cursor f c, t) =
      (set_cursor (paint_loop b (f, t)).1 c, (paint_loop b (f, t)).2) := by
  induction b with
  | zero => intro f t; rfl
  | succ b ih =>
    intro f t
    simp only [paint_loop, inc_set_cursor]
    exact ih _ _

theorem apply_run_set_cursor (is_hints : Bool) (a b : Nat) (c f : tga_fd_t) (t : Tga) :
    apply_run is_hints a b (set_cursor f c, t) =
      (set_cursor (apply_run is_hints a b (f, t)).1 c, (apply_run is_hints a b (f, t)).2) := by
  unfold apply_run
  rw [skip_loop_set_cursor, paint_loop_set_cursor]

theorem skip_loop_cursor (is_hints : Bool) (a : Nat) :
    ∀ (s : tga_fd_t × Tga), (skip_loop is_hints a s).1.decode_ptr = s.1.decode_ptr ∧
      (skip_loop is_hints a s).1.decode_bit_pos = s.1.decode_bit_pos := by
  induction a with
  | zero => intro s; exact ⟨rfl, rfl⟩
  | succ a ih =>
    intro s
    obtain ⟨f, t⟩ := s
    simp only [skip_loop]
    obtain ⟨h1, h2⟩ := ih (tga_fd_inc f, if is_hints = true then
      tga_set_pixel t ((f.target_x + f.x) % UINT) ((f.target_y + f.y) % UINT) 0x0e0 0x0e0 0x0e0
      else t)
    rw [h1, h2]
    unfold tga_fd_inc
    simp only
    split <;> exact ⟨rfl, rfl⟩

theorem paint_loop_cursor (b : Nat) :
    ∀ (s : tga_fd_t × Tga), (paint_loop b s).1.decode_ptr = s.1.decode_ptr ∧
      (paint_loop b s).1.decode_bit_pos = s.1.decode_bit_pos := by
  induction b with
  | zero => intro s; exact ⟨rfl, rfl⟩
  | succ b ih =>
    intro s
    obtain ⟨f, t⟩ := s
    simp only [paint_loop]
    obtain ⟨h1, h2⟩ := ih (tga_fd_inc f, tga_fd_draw_pixel f t)
    rw [h1, h2]
    unfold tga_fd_inc
    simp only
    split <;> exact ⟨rfl, rfl⟩

theorem apply_run_cursor (is_hints : Bool) (a b : Nat) (s : tga_fd_t × Tga) :
    (apply_run is_hints a b s).1.decode_ptr = s.1.decode_ptr ∧
    (apply_run is_hints a b s).1.decode_bit_pos = s.1.decode_bit_pos := by
  unfold apply_run
  obtain ⟨h1, h2⟩ := paint_loop_cursor b (skip_loop is_hints a s)
  obtain ⟨h3, h4⟩ := skip_loop_cursor is_hints a s
  exact ⟨h1.trans h3, h2.trans h4⟩

theorem set_cursor_set_cursor (f c c' : tga_fd_t) :
    set_cursor (set_cursor f c) c' = set_cursor f c' := rfl

theorem set_cursor_congr (f c c' : tga_fd_t) (hp : c.decode_ptr = c'.decode_ptr)
    (hb : c.decode_bit_pos = c'.decode_bit_pos) : set_cursor f c = set_cursor f c' := by
  unfold set_cursor; rw [hp, hb]

theorem set_cursor_self (f c : tga_fd_t) (hp : f.decode_ptr = c.decode_ptr)
    (hb : f.decode_bit_pos = c.decode_bit_pos) : set_cursor f c = f := by
  unfold set_cursor; rw [← hp, ← hb]

/-- Reading with the state `f` when the same read with a state `c` of the same
cursor succeeds. -/
theorem get_unsigned_bits_via (mem : List uint8_t) (f c c' : tga_fd_t) (cnt v : Nat)
    (hp : f.decode_ptr = c.decode_ptr) (hb : f.decode_bit_pos = c.decode_bit_pos)
    (h : tga_fd_get_unsigned_bits mem c cnt = .ok (v, c')) :
    tga_fd_get_unsigned_bits mem f cnt = .ok (v, set_cursor f c') := by
  rw [get_unsigned_bits_transfer mem f c cnt hp hb, h]; rfl

theorem repeat_loop_succ (mem : List uint8_t) (is_hints : Bool) (a b fuel : Nat)
    (s : tga_fd_t × Tga) :
    repeat_loop mem is_hints a b (fuel + 1) s =
      match tga_fd_get_unsigned_bits mem (apply_run is_hints a b s).1 1 with
      | .error e => .error e
      | .ok (c, f) =>
        if c ≠ 0 then repeat_loop mem is_hints a b fuel (f, (apply_run is_hints a b s).2)
        else .ok (f, (apply_run is_hints a b s).2) := by
  simp only [repeat_loop, apply_run, bind, Except.bind, pure, Except.pure]
  cases tga_fd_get_unsigned_bits mem (paint_loop b (skip_loop is_hints a s)).1 1 with
  | error e => rfl
  | ok r => rfl

/-- The `do ... while` loop on a pair followed by `k - 1` nonzero continuation
bits and a zero bit: the pair `a`, `b` is applied `k` times, no other read is made. -/
theorem repeat_loop_eq (mem : List uint8_t) (is_hints : Bool) (a b : Nat) :
    ∀ (k fuel : Nat) (c c' : tga_fd_t) (s : tga_fd_t × Tga),
      cont_bits mem k c = some c' →
      s.1.decode_ptr = c.decode_ptr → s.1.decode_bit_pos = c.decode_bit_pos → k ≤ fuel →
      repeat_loop mem is_hints a b fuel s =
        .ok (set_cursor ((apply_run is_hints a b)^[k] s).1 c',
             ((apply_run is_hints a b)^[k] s).2) := by
  intro k
  induction k with
  | zero => intro fuel c c' s h; simp [cont_bits] at h
  | succ k ih =>
    intro fuel c c' s h hp hb hk
    obtain ⟨fuel, rfl⟩ : ∃ m, fuel = m + 1 := ⟨fuel - 1, by omega⟩
    rw [repeat_loop_succ]
    simp only [cont_bits] at h
    cases hr : tga_fd_get_unsigned_bits mem c 1 with
    | error e => rw [hr] at h; simp at h
    | ok r =>
      obtain ⟨v, c1⟩ := r
      rw [hr] at h
      simp only at h
      obtain ⟨q1, q2⟩ := apply_run_cursor is_hints a b s
      rw [get_unsigned_bits_via mem _ c c1 1 v (q1.trans hp) (q2.trans hb) hr]
      simp only [Function.iterate_succ, Function.comp]
      by_cases hv : v ≠ 0
      · rw [if_pos hv] at h
        simp only [hv, if_true, ne_eq, not_false_eq_true]
        have := ih fuel c1 c' (set_cursor (apply_run is_hints a b s).1 c1,
          (apply_run is_hints a b s).2) h rfl rfl (by omega)
        rw [this]
        have comm : ∀ (j : Nat) (x : tga_fd_t × Tga),
            (apply_run is_hints a b)^[j] (set_cursor x.1 c1, x.2) =
              (set_cursor ((apply_run is_hints a b)^[j] x).1 c1,
                ((apply_run is_hints a b)^[j] x).2) := by
          intro j
          induction j with
          | zero => intro x; rfl
          | succ j ihj =>
            intro x
            simp only [Function.iterate_succ, Function.comp]
            rw [apply_run_set_cursor, ihj]
        rw [comm k (apply_run is_hints a b s)]
        rfl
      · rw [if_neg hv] at h
        simp only [hv, if_false]
        by_cases hk0 : k = 0
        · subst hk0
          simp only [if_true, Option.some.injEq] at h
          subst h
          rfl
        · simp [hk0] at h

theorem getElem?_of_lt (mem : List uint8_t) (p : Nat) (h : p < mem.length) :
    ∃ b, mem[p]? = some b := by
  cases hm : mem[p]? with
  | none => rw [List.getElem?_eq_none_iff] at hm; omega
  | some b => exact ⟨b, rfl⟩

theorem lt_two_eq_testBit (v : Nat) (h : v < 2) : v = (v.testBit 0).toNat := by
  interval_cases v <;> rfl

theorem mod_two_pow_one_eq_testBit (x : Nat) :
    x % 2 ^ 1 = ((x % 2 ^ 1).testBit 0).toNat :=
  lt_two_eq_testBit _ (Nat.mod_lt _ (by decide))

/-- A read of one bit returns the stream bit under the cursor. -/
theorem read_one_bit (mem : List uint8_t) (f : tga_fd_t) (hb : f.decode_bit_pos ≤ 7)
    (hlen : (bit_index f + 1) / 8 < mem.length) :
    tga_fd_get_unsigned_bits mem f 1 =
      .ok ((stream_bit mem (bit_index f)).toNat, advance_cursor f 1) := by
  have hp : f.decode_ptr < mem.length := by
    unfold bit_index at hlen; omega
  obtain ⟨cur, hcur⟩ := getElem?_of_lt mem f.decode_ptr hp
  by_cases hge : 8 ≤ f.decode_bit_pos + 1
  · have hp1 : f.decode_ptr + 1 < mem.length := by
      unfold bit_index at hlen; omega
    obtain ⟨next, hnext⟩ := getElem?_of_lt mem (f.decode_ptr + 1) hp1
    rw [get_unsigned_bits_cross mem f 1 cur next hcur hnext hb (by omega) hge]
    congr 2
    · rw [mod_two_pow_one_eq_testBit, formula_testBit _ _ _ 1 0 hb]
      have e := stream_bit_cur mem f.decode_ptr f.decode_bit_pos _ hcur (by omega)
      unfold bit_index
      rw [e]
      simp only [Nat.add_zero]
      have : f.decode_bit_pos < 8 := by omega
      simp [this]
    · unfold advance_cursor bit_index
      congr 1 <;> omega
  · have hlt : f.decode_bit_pos + 1 < 8 := by omega
    rw [get_unsigned_bits_within mem f 1 cur hcur hlt]
    congr 2
    · rw [shr_mod_eq_or_shl_mod _ cur.val _ 1 hlt,
        mod_two_pow_one_eq_testBit, formula_testBit _ _ _ 1 0 hb]
      have e := stream_bit_cur mem f.decode_ptr f.decode_bit_pos _ hcur (by omega)
      unfold bit_index
      rw [e]
      simp only [Nat.add_zero]
      have : f.decode_bit_pos < 8 := by omega
      simp [this]
    · unfold advance_cursor bit_index
      congr 1 <;> omega

theorem advance_cursor_bit_index (f : tga_fd_t) (n : Nat) :
    bit_index (advance_cursor f n) = bit_index f + n ∧ (advance_cursor f n).decode_bit_pos ≤ 7 := by
  unfold advance_cursor bit_index
  simp only
  omega

theorem advance_cursor_add (f : tga_fd_t) (n m : Nat) :
    advance_cursor (advance_cursor f n) m = advance_cursor f (n + m) := by
  have h := (advance_cursor_bit_index f n).1
  unfold advance_cursor at h ⊢
  simp only at h ⊢
  rw [h, Nat.add_assoc]

/-- `k - 1` one bits and a zero bit in the stream are the continuation bits of a
pair applied `k` times. -/
theorem cont_bits_of_stream (mem : List uint8_t) :
    ∀ (k : Nat) (c : tga_fd_t), 1 ≤ k → c.decode_bit_pos ≤ 7 →
      (bit_index c + k) / 8 < mem.length →
      (∀ j, j + 1 < k → stream_bit mem (bit_index c + j) = true) →
      stream_bit mem (bit_index c + (k - 1)) = false →
      cont_bits mem k c = some (advance_cursor c k) := by
  intro k
  induction k with
  | zero => intro c hk; omega
  | succ k ih =>
    intro c _ hb hlen hones hzero
    have hlen1 : (bit_index c + 1) / 8 < mem.length := by omega
    simp only [cont_bits, read_one_bit mem c hb hlen1]
    by_cases hk0 : k = 0
    · subst hk0
      simp only [Nat.add_sub_cancel, Nat.add_zero] at hzero
      simp [hzero]
    · have h1 := hones 0 (by omega)
      simp only [Nat.add_zero] at h1
      obtain ⟨hbi, hb'⟩ := advance_cursor_bit_index c 1
      have := ih (advance_cursor c 1) (by omega) hb'
        (by rw [hbi]; rw [Nat.add_assoc, Nat.add_comm 1 k]; exact hlen)
        (fun j hj => by
          rw [hbi, Nat.add_assoc, Nat.add_comm 1 j]; exact hones (j + 1) (by omega))
        (by
          rw [hbi, Nat.add_assoc]
          have e : 1 + (k - 1) = k + 1 - 1 := by omega
          rw [e]; exact hzero)
      simp only [h1, Bool.toNat_true, ne_eq, one_ne_zero, not_false_eq_true, if_true]
      rw [this, advance_cursor_add, Nat.add_comm 1 k]

/-- Claim C7 as stated fails: in the glyph of `c7_mem` the pair `skip = 0,
paint = 1` is followed by a continuation bit 1 (stream bit 33); the five bits
behind it would read as the fresh pair `skip = 2, paint = 0`, but
`tga_fd_decode` reads only one more bit (the continuation bit 0 at stream bit
34), ends with the cursor at stream bit 35, and has painted the second cell by
applying `paint = 1` again. -/
theorem C7_no_fresh_pair_after_nonzero_bit :
    tga_fd_get_unsigned_bits c7_mem (cursor 4 1) 1 = .ok (1, cursor 4 2) ∧
    tga_fd_get_unsigned_bits c7_mem (cursor 4 2) demo_font.bits_per_0 = .ok (2, cursor 4 4) ∧
    tga_fd_get_unsigned_bits c7_mem (cursor 4 4) demo_font.bits_per_1 = .ok (0, cursor 4 7) ∧
    tga_fd_decode demo_font c7_mem 2 ⟨1, 3, 0, 0, 0, 0, 0, 0, 0⟩ (white 3 3) 0 false
      = .ok (1, c7_final, c7_raster) ∧
    bit_index c7_final = 35 ∧ c7_final.inc_calls = 2 ∧
    get_pixel c7_raster 1 2 = some (0, 0, 0) := by
  decide

/-- Claim C7, amended: in the `do ... while` loop of `tga_fd_decode`, entered with
a pair `a`, `b` and the cursor at bit offset `0..7`, when the stream holds
`k - 1` one bits followed by a zero bit at the cursor (and the bytes read are
present), the same pair is applied `k` times: after every application one
continuation bit is read, a nonzero bit makes the loop apply `a`, `b` again
without any other read, the zero bit ends the loop; exactly `k` bits are consumed. -/
theorem C7_nonzero_continuation_repeats_pair (mem : List uint8_t) (is_hints : Bool)
    (a b k fuel : Nat) (s : tga_fd_t × Tga)
    (hk : 1 ≤ k) (hb : s.1.decode_bit_pos ≤ 7)
    (hlen : (bit_index s.1 + k) / 8 < mem.length)
    (hones : ∀ j, j + 1 < k → stream_bit mem (bit_index s.1 + j) = true)
    (hzero : stream_bit mem (bit_index s.1 + (k - 1)) = false) (hf : k ≤ fuel) :
    repeat_loop mem is_hints a b fuel s =
      .ok (set_cursor ((apply_run is_hints a b)^[k] s).1 (advance_cursor s.1 k),
           ((apply_run is_hints a b)^[k] s).2) ∧
    bit_index (advance_cursor s.1 k) = bit_index s.1 + k := by
  have hc := cont_bits_of_stream mem k s.1 hk hb hlen hones hzero
  exact ⟨repeat_loop_eq mem is_hints a b k fuel s.1 _ s hc rfl rfl hf,
    (advance_cursor_bit_index s.1 k).1⟩

/-- Witness of claim C7, amended: the pair of `c7_mem` is applied twice. -/
theorem C7_nonzero_continuation_repeats_pair_witness :
    1 ≤ 2 ∧ c7_start.1.decode_bit_pos ≤ 7 ∧ (bit_index c7_start.1 + 2) / 8 < c7_mem.length ∧
    (∀ j, j + 1 < 2 → stream_bit c7_mem (bit_index c7_start.1 + j) = true) ∧
    stream_bit c7_mem (bit_index c7_start.1 + (2 - 1)) = false ∧ 2 ≤ 2 ∧
    (repeat_loop c7_mem false 0 1 2 c7_start =
      .ok (set_cursor ((apply_run false 0 1)^[2] c7_start).1 (advance_cursor c7_start.1 2),
           ((apply_run false 0 1)^[2] c7_start).2) ∧
    bit_index (advance_cursor c7_start.1 2) = bit_index c7_start.1 + 2) :=
  have h1 : ∀ j, j + 1 < 2 → stream_bit c7_mem (bit_index c7_start.1 + j) = true := by
    intro j hj
    have : j = 0 := by omega
    subst this
    decide
  ⟨by decide, by decide, by decide, h1, by decide, by decide,
    C7_nonzero_continuation_repeats_pair c7_mem false 0 1 2 2 c7_start (by decide) (by decide)
      (by decide) h1 (by decide) (by decide)⟩

theorem loop_inv_set_cursor (w gh tx ty base : Nat) (t0 : Tga) (n : Nat) (f c : tga_fd_t)
    (t : Tga) (h : loop_inv w gh tx ty base t0 n (f, t)) :
    loop_inv w gh tx ty base t0 n (set_cursor f c, t) := h

/-- A successful read changes the cursor only. -/
theorem get_unsigned_bits_frame (mem : List uint8_t) (f f' : tga_fd_t) (cnt v : Nat)
    (h : tga_fd_get_unsigned_bits mem f cnt = .ok (v, f')) : f' = set_cursor f f' := by
  have := get_unsigned_bits_via mem f f f' cnt v rfl rfl h
  rw [h] at this
  simp only [Except.ok.injEq, Prod.mk.injEq, true_and] at this
  exact this

theorem loop_inv_read (w gh tx ty base : Nat) (t0 : Tga) (n : Nat) (mem : List uint8_t)
    (f f' : tga_fd_t) (t : Tga) (cnt v : Nat)
    (hr : tga_fd_get_unsigned_bits mem f cnt = .ok (v, f'))
    (h : loop_inv w gh tx ty base t0 n (f, t)) :
    loop_inv w gh tx ty base t0 n (f', t) := by
  rw [get_unsigned_bits_frame mem f f' cnt v hr]
  exact h

theorem apply_run_iterate_inv (w gh tx ty base : Nat) (t0 : Tga) (hw : 0 < w) (hwu : w < UINT)
    (is_hints : Bool) (a b : Nat) :
    ∀ (k n : Nat) (s : tga_fd_t × Tga), loop_inv w gh tx ty base t0 n s →
      loop_inv w gh tx ty base t0 (n + (a + b) * k) ((apply_run is_hints a b)^[k] s) := by
  intro k
  induction k with
  | zero => intro n s h; simpa using h
  | succ k ih =>
    intro n s h
    simp only [Function.iterate_succ, Function.comp]
    have h1 := apply_run_inv w gh tx ty base t0 hw hwu is_hints a b n s h
    have h2 := ih _ _ h1
    have e : n + (a + b) * (k + 1) = n + (a + b) + (a + b) * k := by
      rw [Nat.mul_add, Nat.mul_one]; omega
    rw [e]
    exact h2

/-- The `do ... while` loop keeps the loop invariant, whatever the stream holds. -/
theorem repeat_loop_inv (w gh tx ty base : Nat) (t0 : Tga) (hw : 0 < w) (hwu : w < UINT)
    (mem : List uint8_t) (is_hints : Bool) (a b : Nat) :
    ∀ (fuel n : Nat) (s s' : tga_fd_t × Tga), loop_inv w gh tx ty base t0 n s →
      repeat_loop mem is_hints a b fuel s = .ok s' →
      ∃ n', n ≤ n' ∧ loop_inv w gh tx ty base t0 n' s' := by
  intro fuel
  induction fuel with
  | zero => intro n s s' _ h; simp [repeat_loop] at h
  | succ fuel ih =>
    intro n s s' hinv h
    rw [repeat_loop_succ] at h
    have h1 := apply_run_inv w gh tx ty base t0 hw hwu is_hints a b n s hinv
    cases hr : tga_fd_get_unsigned_bits mem (apply_run is_hints a b s).1 1 with
    | error e => rw [hr] at h; simp at h
    | ok r =>
      obtain ⟨v, f1⟩ := r
      rw [hr] at h
      simp only at h
      have h2 := loop_inv_read w gh tx ty base t0 _ mem _ f1 (apply_run is_hints a b s).2 1 v hr h1
      split at h
      · obtain ⟨n', hn', hi'⟩ := ih _ _ _ h2 h
        exact ⟨n', by omega, hi'⟩
      · simp only [Except.ok.injEq] at h
        subst h
        exact ⟨_, by omega, h2⟩

theorem glyph_loop_succ (font : Font) (mem : List uint8_t) (is_hints : Bool) (fuel : Nat)
    (f : tga_fd_t) (t : Tga) :
    glyph_loop font mem is_hints (fuel + 1) (f, t) =
      match tga_fd_get_unsigned_bits mem f font.bits_per_0 with
      | .error e => .error e
      | .ok (a, f1) =>
        match tga_fd_get_unsigned_bits mem f1 font.bits_per_1 with
        | .error e => .error e
        | .ok (b, f2) =>
          match repeat_loop mem is_hints a b (fuel + 1) (f2, t) with
          | .error e => .error e
          | .ok s =>
            if s.1.y ≥ s.1.glyph_height then .ok s
            else glyph_loop font mem is_hints fuel s := by
  simp only [glyph_loop, bind, Except.bind, pure, Except.pure]
  cases tga_fd_get_unsigned_bits mem f font.bits_per_0 with
  | error e => rfl
  | ok r1 =>
    simp only
    cases tga_fd_get_unsigned_bits mem r1.2 font.bits_per_1 with
    | error e => rfl
    | ok r2 =>
      simp only
      cases repeat_loop mem is_hints r1.1 r2.1 (fuel + 1) (r2.2, t) with
      | error e => rfl
      | ok s => rfl

/-- The `for(;;)` loop keeps the loop invariant, whatever the stream holds. -/
theorem glyph_loop_inv (w gh tx ty base : Nat) (t0 : Tga) (hw : 0 < w) (hwu : w < UINT)
    (font : Font) (mem : List uint8_t) (is_hints : Bool) :
    ∀ (fuel n : Nat) (s s' : tga_fd_t × Tga), loop_inv w gh tx ty base t0 n s →
      glyph_loop font mem is_hints fuel s = .ok s' →
      ∃ n', n ≤ n' ∧ loop_inv w gh tx ty base t0 n' s' := by
  intro fuel
  induction fuel with
  | zero => intro n s s' _ h; simp [glyph_loop] at h
  | succ fuel ih =>
    intro n s s' hinv h
    obtain ⟨f, t⟩ := s
    rw [glyph_loop_succ] at h
    cases hr1 : tga_fd_get_unsigned_bits mem f font.bits_per_0 with
    | error e => rw [hr1] at h; simp at h
    | ok r1 =>
      obtain ⟨a, f1⟩ := r1
      rw [hr1] at h
      simp only at h
      have i1 := loop_inv_read w gh tx ty base t0 n mem f f1 t _ a hr1 hinv
      cases hr2 : tga_fd_get_unsigned_bits mem f1 font.bits_per_1 with
      | error e => rw [hr2] at h; simp at h
      | ok r2 =>
        obtain ⟨b, f2⟩ := r2
        rw [hr2] at h
        simp only at h
        have i2 := loop_inv_read w gh tx ty base t0 n mem f1 f2 t _ b hr2 i1
        cases hr3 : repeat_loop mem is_hints a b (fuel + 1) (f2, t) with
        | error e => rw [hr3] at h; simp at h
        | ok s1 =>
          rw [hr3] at h
          simp only at h
          obtain ⟨n1, hn1, i3⟩ := repeat_loop_inv w gh tx ty base t0 hw hwu mem is_hints a b
            _ n _ s1 i2 hr3
          split at h
          · simp only [Except.ok.injEq] at h
            subst h
            exact ⟨n1, hn1, i3⟩
          · obtain ⟨n', hn', i4⟩ := ih n1 s1 s' i3 h
            exact ⟨n', by omega, i4⟩

theorem and_mask_lt_uint (x cnt : Nat) :
    x &&& (((1 <<< cnt) % UINT + UINT - 1) % UINT) < UINT :=
  lt_of_le_of_lt Nat.and_le_right (Nat.mod_lt _ (by decide))

/-- The value a successful read returns fits the type `unsigned`. -/
theorem get_unsigned_bits_lt_uint (mem : List uint8_t) (f f' : tga_fd_t) (cnt v : Nat)
    (h : tga_fd_get_unsigned_bits mem f cnt = .ok (v, f')) : v < UINT := by
  unfold tga_fd_get_unsigned_bits at h
  simp only [bind, Except.bind, pure, Except.pure, throw, throwThe, MonadExceptOf.throw] at h
  repeat' split at h
  all_goals first
    | (simp only [Except.ok.injEq, Prod.mk.injEq] at h
       rw [← h.1]
       apply and_mask_lt_uint)
    | (simp at h)

theorem glyph_header_lt_uint (font : Font) (mem : List uint8_t) (g : Nat) (hd : GlyphHeader)
    (h : glyph_header font mem g = .ok hd) : hd.glyph_width < UINT ∧ hd.glyph_height < UINT := by
  obtain ⟨c1, c2, c3, c4, c5, h1, h2, _, _, _, _, _⟩ := glyph_header_ok font mem g hd h
  exact ⟨get_unsigned_bits_lt_uint mem _ _ _ _ h1, get_unsigned_bits_lt_uint mem _ _ _ _ h2⟩

theorem loop_inv_start (f : tga_fd_t) (hd : GlyphHeader) (t : Tga) :
    loop_inv hd.glyph_width hd.glyph_height (loop_start f hd).target_x (loop_start f hd).target_y
      f.inc_calls t 0 (loop_start f hd, t) := by
  refine ⟨rfl, rfl, rfl, rfl, ?_, ?_, rfl, rfl, rfl, rfl, ?_⟩
  · simp [loop_start]
  · simp [loop_start]
  · intro px py hne
    exact absurd rfl hne

/-- A terminating decode of a glyph of positive width ends in the loop invariant. -/
theorem decode_inv (font : Font) (mem : List uint8_t) (fuel : Nat) (f : tga_fd_t) (t : Tga)
    (g : Nat) (is_hints : Bool) (hd : GlyphHeader) (r : Nat) (f' : tga_fd_t) (t' : Tga)
    (hhd : glyph_header font mem g = .ok hd) (hw : 0 < hd.glyph_width)
    (h : tga_fd_decode font mem fuel f t g is_hints = .ok (r, f', t')) :
    ∃ n, loop_inv hd.glyph_width hd.glyph_height (loop_start f hd).target_x
      (loop_start f hd).target_y f.inc_calls t n (f', t') := by
  rw [decode_eq, hhd] at h
  simp only [gt_iff_lt, hw, if_true] at h
  cases hl : glyph_loop font mem is_hints fuel (loop_start f hd, t) with
  | error e => rw [hl] at h; simp [Except.map] at h
  | ok s =>
    rw [hl] at h
    simp only [Except.map, Except.ok.injEq, Prod.mk.injEq] at h
    obtain ⟨n, _, hi⟩ := glyph_loop_inv _ _ _ _ _ t hw (glyph_header_lt_uint font mem g hd hhd).1
      font mem is_hints fuel 0 _ s (loop_inv_start f hd t) hl
    refine ⟨n, ?_⟩
    rw [← h.2.1, ← h.2.2]
    exact hi

/-- Claim C8 as stated fails: the glyph of `c8_mem` has width 1 and height 1 and
the single run `paint = 3`; drawn with its box at `(1, 0)`, `tga_fd_decode`
paints the whole run: the pixels `(1, 1)` and `(1, 2)`, whose local_y is 1 and
2, not below `glyph_height = 1`, turn from white to black. -/
theorem C8_run_drawn_past_height :
    tga_fd_decode demo_font c8_mem 2 c8_state (white 3 3) 0 false
      = .ok (1, c8_final, c8_raster) ∧
    c8_final.glyph_width = 1 ∧ c8_final.glyph_height = 1 ∧
    c8_final.target_x = 1 ∧ c8_final.target_y = 0 ∧
    get_pixel (white 3 3) 1 1 = some (255, 255, 255) ∧
    get_pixel c8_raster 1 1 = some (0, 0, 0) ∧
    get_pixel (white 3 3) 1 2 = some (255, 255, 255) ∧
    get_pixel c8_raster 1 2 = some (0, 0, 0) := by
  decide

/-- Claim C8, amended: for a glyph of positive width on which `tga_fd_decode`
returns, having made `n` calls of `tga_fd_inc`, every pixel whose colour the call
changed is the pixel of one of the first `n` cells in row-major order: a cell
with local_x `i % glyph_width`, below `glyph_width`, and local_y `i / glyph_width`.
The height test is made only behind a zero continuation bit, so a run in
progress is drawn in full; the cells painted have local_y below `glyph_height`
when `n` is at most `glyph_width * glyph_height`. -/
theorem C8_painted_cells (font : Font) (mem : List uint8_t) (fuel : Nat) (f : tga_fd_t)
    (t : Tga) (g : Nat) (is_hints : Bool) (hd : GlyphHeader) (r : Nat) (f' : tga_fd_t)
    (t' : Tga)
    (hhd : glyph_header font mem g = .ok hd) (hw : 0 < hd.glyph_width)
    (h : tga_fd_decode font mem fuel f t g is_hints = .ok (r, f', t')) :
    ∃ n, f'.inc_calls = f.inc_calls + n ∧
      ∀ px py, get_pixel t' px py ≠ get_pixel t px py →
        ∃ i, i < n ∧
          cell_pixel hd.glyph_width (loop_start f hd).target_x (loop_start f hd).target_y i
            = (px, py) ∧
          i % hd.glyph_width < hd.glyph_width ∧
          (n ≤ hd.glyph_width * hd.glyph_height → i / hd.glyph_width < hd.glyph_height) := by
  obtain ⟨n, hi⟩ := decode_inv font mem fuel f t g is_hints hd r f' t' hhd hw h
  obtain ⟨_, _, _, _, _, _, hc, _, _, _, hfr⟩ := hi
  refine ⟨n, hc, ?_⟩
  intro px py hne
  obtain ⟨i, hin, hp⟩ := hfr px py hne
  refine ⟨i, hin, hp, Nat.mod_lt _ hw, ?_⟩
  intro hn
  rw [Nat.div_lt_iff_lt_mul hw, Nat.mul_comm]
  omega

/-- Witness of claim C8, amended: the glyph of `c8_mem`. -/
theorem C8_painted_cells_witness :
    glyph_header demo_font c8_mem 0 = .ok c8_header ∧
    0 < c8_header.glyph_width ∧
    tga_fd_decode demo_font c8_mem 2 c8_state (white 3 3) 0 false
      = .ok (1, c8_final, c8_raster) ∧
    ∃ n, c8_final.inc_calls = c8_state.inc_calls + n ∧
      ∀ px py, get_pixel c8_raster px py ≠ get_pixel (white 3 3) px py →
        ∃ i, i < n ∧
          cell_pixel c8_header.glyph_width
            (loop_start c8_state c8_header).target_x
            (loop_start c8_state c8_header).target_y i
            = (px, py) ∧
          i % c8_header.glyph_width
            < c8_header.glyph_width ∧
          (n ≤ c8_header.glyph_width
              * c8_header.glyph_height →
            i / c8_header.glyph_width
              < c8_header.glyph_height) :=
  ⟨by decide, by decide, by decide,
    C8_painted_cells demo_font c8_mem 2 c8_state (white 3 3) 0 false
      c8_header 1 c8_final c8_raster (by decide) (by decide) (by decide)⟩

theorem encodes_cons (font : Font) (mem : List uint8_t) (a b k : Nat)
    (G : List (Nat × Nat × Nat)) (c : tga_fd_t)
    (h : encodes font mem ((a, b, k) :: G) c = true) :
    ∃ c1 c2 c3, tga_fd_get_unsigned_bits mem c font.bits_per_0 = .ok (a, c1) ∧
      tga_fd_get_unsigned_bits mem c1 font.bits_per_1 = .ok (b, c2) ∧
      cont_bits mem k c2 = some c3 ∧ encodes font mem G c3 = true := by
  simp only [encodes] at h
  cases h1 : tga_fd_get_unsigned_bits mem c font.bits_per_0 with
  | error e => rw [h1] at h; simp at h
  | ok r1 =>
    obtain ⟨a', c1⟩ := r1
    rw [h1] at h
    simp only at h
    cases h2 : tga_fd_get_unsigned_bits mem c1 font.bits_per_1 with
    | error e => rw [h2] at h; simp at h
    | ok r2 =>
      obtain ⟨b', c2⟩ := r2
      rw [h2] at h
      simp only at h
      cases h3 : cont_bits mem k c2 with
      | none => rw [h3] at h; simp at h
      | some c3 =>
        rw [h3] at h
        simp only [Bool.and_eq_true, beq_iff_eq] at h
        obtain ⟨⟨ha, hb⟩, hG⟩ := h
        subst ha hb
        exact ⟨c1, c2, c3, rfl, h2, h3, hG⟩

theorem total_cells_cons (a b k : Nat) (G : List (Nat × Nat × Nat)) :
    total_cells ((a, b, k) :: G) = (a + b) * k + total_cells G := by
  simp [total_cells]

theorem fuel_need_cons (a b k : Nat) (G : List (Nat × Nat × Nat)) :
    fuel_need ((a, b, k) :: G) = k + 1 + fuel_need G := by
  simp [fuel_need]

/-- The `for(;;)` loop on a stream of groups that cover exactly the cells left
of the glyph box: it returns, standing at cell `w * gh`. -/
theorem glyph_loop_encodes (w gh tx ty base : Nat) (t0 : Tga) (hw : 0 < w) (hwu : w < UINT)
    (hgu : gh < UINT) (font : Font) (mem : List uint8_t) (is_hints : Bool) :
    ∀ (G : List (Nat × Nat × Nat)) (fuel n : Nat) (c : tga_fd_t) (s : tga_fd_t × Tga),
      G ≠ [] → encodes font mem G c = true →
      s.1.decode_ptr = c.decode_ptr → s.1.decode_bit_pos = c.decode_bit_pos →
      loop_inv w gh tx ty base t0 n s → n + total_cells G = w * gh → fuel_need G ≤ fuel →
      ∃ s', glyph_loop font mem is_hints fuel s = .ok s' ∧
        loop_inv w gh tx ty base t0 (w * gh) s' := by
  intro G
  induction G with
  | nil => intro fuel n c s h; exact absurd rfl h
  | cons g G ih =>
    intro fuel n c s _ henc hp hb hinv htot hfuel
    obtain ⟨a, b, k⟩ := g
    obtain ⟨f, t⟩ := s
    obtain ⟨c1, c2, c3, h1, h2, h3, hG⟩ := encodes_cons font mem a b k G c henc
    rw [total_cells_cons] at htot
    rw [fuel_need_cons] at hfuel
    obtain ⟨fuel, rfl⟩ : ∃ m, fuel = m + 1 := ⟨fuel - 1, by omega⟩
    rw [glyph_loop_succ]
    rw [get_unsigned_bits_via mem f c c1 _ a hp hb h1]
    simp only
    rw [get_unsigned_bits_via mem (set_cursor f c1) c1 c2 _ b rfl rfl h2]
    simp only
    rw [repeat_loop_eq mem is_hints a b k (fuel + 1) c2 c3 _ h3 rfl rfl (by omega)]
    simp only
    have i0 : loop_inv w gh tx ty base t0 n (set_cursor (set_cursor f c1) c2, t) := hinv
    have i1 := apply_run_iterate_inv w gh tx ty base t0 hw hwu is_hints a b k n _ i0
    have i2 : loop_inv w gh tx ty base t0 (n + (a + b) * k)
        (set_cursor ((apply_run is_hints a b)^[k] (set_cursor (set_cursor f c1) c2, t)).1 c3,
          ((apply_run is_hints a b)^[k] (set_cursor (set_cursor f c1) c2, t)).2) := i1
    obtain ⟨_, hgh, _, _, _, hy, _⟩ := i2
    simp only at hgh hy
    have hle : n + (a + b) * k ≤ w * gh := by omega
    have hdiv : (n + (a + b) * k) / w ≤ gh := by
      calc (n + (a + b) * k) / w ≤ (w * gh) / w := Nat.div_le_div_right hle
        _ = gh := Nat.mul_div_cancel_left _ hw
    have hy' : (set_cursor ((apply_run is_hints a b)^[k] (set_cursor (set_cursor f c1) c2, t)).1
        c3).y = (n + (a + b) * k) / w := by
      rw [hy]; apply Nat.mod_eq_of_lt; omega
    rw [hy', hgh]
    by_cases hstop : (n + (a + b) * k) / w ≥ gh
    · rw [if_pos hstop]
      have hge : w * gh ≤ n + (a + b) * k := by
        have := (Nat.le_div_iff_mul_le hw).mp hstop
        rw [Nat.mul_comm w gh]
        exact this
      have he : n + (a + b) * k = w * gh := by omega
      refine ⟨_, rfl, ?_⟩
      rw [← he]
      exact i1
    · rw [if_neg hstop]
      have hlt : n + (a + b) * k < w * gh := by
        have := (Nat.div_lt_iff_lt_mul hw).mp (Nat.lt_of_not_le hstop)
        rw [Nat.mul_comm w gh]
        exact this
      have hG' : G ≠ [] := by
        intro hnil
        subst hnil
        simp [total_cells] at htot
        omega
      exact ih fuel (n + (a + b) * k) c3 _ hG' hG rfl rfl i1 (by omega) (by omega)

/-- Claim C9: for a glyph of positive width whose run-length stream consists of the
groups `G` (at least one), the skip and paint counts of which, each counted once
per time it is applied, total exactly `glyph_width * glyph_height` cells:
`tga_fd_decode` returns for every sufficient loop budget, has then made exactly
`glyph_width * glyph_height` calls of `tga_fd_inc`, and stands at
`local_y = glyph_height`, `local_x = 0`. -/
theorem C9_exact_stream_terminates (font : Font) (mem : List uint8_t) (f : tga_fd_t) (t : Tga)
    (g : Nat) (is_hints : Bool) (hd : GlyphHeader) (G : List (Nat × Nat × Nat))
    (hhd : glyph_header font mem g = .ok hd) (hw : 0 < hd.glyph_width) (hG : G ≠ [])
    (henc : encodes font mem G (cursor hd.decode_ptr hd.decode_bit_pos) = true)
    (htot : total_cells G = hd.glyph_width * hd.glyph_height) :
    ∀ fuel, fuel_need G ≤ fuel →
      ∃ f' t', tga_fd_decode font mem fuel f t g is_hints = .ok (to_unsigned hd.d, f', t') ∧
        f'.inc_calls = f.inc_calls + hd.glyph_width * hd.glyph_height ∧
        f'.y = hd.glyph_height ∧ f'.glyph_height = hd.glyph_height ∧ f'.x = 0 := by
  intro fuel hfuel
  obtain ⟨hwu, hgu⟩ := glyph_header_lt_uint font mem g hd hhd
  obtain ⟨s', hs', hinv⟩ := glyph_loop_encodes hd.glyph_width hd.glyph_height
    (loop_start f hd).target_x (loop_start f hd).target_y f.inc_calls t hw hwu hgu font mem
    is_hints G fuel 0 (cursor hd.decode_ptr hd.decode_bit_pos) (loop_start f hd, t) hG henc
    rfl rfl (loop_inv_start f hd t) (by omega) hfuel
  obtain ⟨_, hgh, _, _, hx, hy, hc, _⟩ := hinv
  refine ⟨s'.1, s'.2, ?_, hc, ?_, hgh, ?_⟩
  · rw [decode_eq, hhd]
    simp only [gt_iff_lt, hw, if_true, hs', Except.map]
  · rw [hy, Nat.mul_div_cancel_left _ hw]
    exact Nat.mod_eq_of_lt hgu
  · rw [hx, Nat.mul_mod_right]

/-- Witness of claim C9: the glyph of `c9_mem`, one group applied twice. -/
theorem C9_exact_stream_terminates_witness :
    glyph_header demo_font c9_mem 0 = .ok c9_header ∧ 0 < c9_header.glyph_width ∧
    [((1 : Nat), (1 : Nat), (2 : Nat))] ≠ [] ∧
    encodes demo_font c9_mem [(1, 1, 2)]
      (cursor c9_header.decode_ptr c9_header.decode_bit_pos) = true ∧
    total_cells [(1, 1, 2)] = c9_header.glyph_width * c9_header.glyph_height ∧
    ∀ fuel, fuel_need [(1, 1, 2)] ≤ fuel →
      ∃ f' t', tga_fd_decode demo_font c9_mem fuel c8_state (white 3 3) 0 true
          = .ok (to_unsigned c9_header.d, f', t') ∧
        f'.inc_calls = c8_state.inc_calls + c9_header.glyph_width * c9_header.glyph_height ∧
        f'.y = c9_header.glyph_height ∧ f'.glyph_height = c9_header.glyph_height ∧ f'.x = 0 :=
  ⟨by decide, by decide, by decide, by decide, by decide,
    C9_exact_stream_terminates demo_font c9_mem c8_state (white 3 3) 0 true c9_header
      [(1, 1, 2)] (by decide) (by decide) (by decide) (by decide) (by decide)⟩

theorem apply_run_iterate_set_cursor (is_hints : Bool) (a b : Nat) (c : tga_fd_t) :
    ∀ (j : Nat) (f : tga_fd_t) (t : Tga),
      (apply_run is_hints a b)^[j] (set_cursor f c, t) =
        (set_cursor ((apply_run is_hints a b)^[j] (f, t)).1 c,
          ((apply_run is_hints a b)^[j] (f, t)).2) := by
  intro j
  induction j with
  | zero => intro f t; rfl
  | succ j ih =>
    intro f t
    simp only [Function.iterate_succ, Function.comp]
    rw [apply_run_set_cursor, ih]

/-- The paint loop, started at cell `n` on a raster of the size `tga_init` gives
it, turns the pixels of the cells `n .. n + b - 1` black and leaves every other
pixel of the raster as it was. -/
theorem paint_loop_pixels (w tx ty : Nat) (hw : 0 < w) (hwu : w < UINT) (b : Nat) :
    ∀ (n : Nat) (f : tga_fd_t) (t : Tga), well_formed t →
      f.glyph_width = w → f.target_x = tx → f.target_y = ty →
      f.x = n % w → f.y = (n / w) % UINT →
      ∀ px py, px < t.tga_width → py < t.tga_height →
        ((∃ i, n ≤ i ∧ i < n + b ∧ cell_pixel w tx ty i = (px, py)) →
          get_pixel (paint_loop b (f, t)).2 px py = some (0, 0, 0)) ∧
        ((¬ ∃ i, n ≤ i ∧ i < n + b ∧ cell_pixel w tx ty i = (px, py)) →
          get_pixel (paint_loop b (f, t)).2 px py = get_pixel t px py) := by
  induction b with
  | zero =>
    intro n f t _ _ _ _ _ _ px py _ _
    constructor
    · rintro ⟨i, h1, h2, _⟩; omega
    · intro _; rfl
  | succ b ih =>
    intro n f t hwf hgw htx hty hx hy px py hpx hpy
    simp only [paint_loop]
    have hinc := inc_at_cell f w n hw hwu hgw hx hy
    obtain ⟨dW, dH, _⟩ := set_pixel_dims t ((f.target_x + f.x) % UINT)
      ((f.target_y + f.y) % UINT) 0 0 0
    have hwf' : well_formed (tga_fd_draw_pixel f t) := set_pixel_well_formed t _ _ 0 0 0 hwf
    have ih' := ih (n + 1) (tga_fd_inc f) (tga_fd_draw_pixel f t) hwf'
      (by rw [hinc]; exact hgw) (by rw [hinc]; exact htx) (by rw [hinc]; exact hty)
      (by rw [hinc]) (by rw [hinc]) px py
      (by unfold tga_fd_draw_pixel; rw [dW]; exact hpx)
      (by unfold tga_fd_draw_pixel; rw [dH]; exact hpy)
    have hcell : cell_pixel w tx ty n =
        (((f.target_x + f.x) % UINT) % 65536, ((f.target_y + f.y) % UINT) % 65536) := by
      simp only [cell_pixel, htx, hty, hx, hy]
    by_cases hlater : ∃ i, n + 1 ≤ i ∧ i < n + 1 + b ∧ cell_pixel w tx ty i = (px, py)
    · constructor
      · intro _; exact ih'.1 hlater
      · intro hno
        obtain ⟨i, h1, h2, h3⟩ := hlater
        exact absurd ⟨i, by omega, by omega, h3⟩ hno
    · rw [ih'.2 hlater]
      by_cases hhere : cell_pixel w tx ty n = (px, py)
      · constructor
        · intro _
          rw [hcell] at hhere
          simp only [Prod.mk.injEq] at hhere
          unfold tga_fd_draw_pixel
          rw [← hhere.1, ← hhere.2]
          apply get_pixel_set_pixel_self t _ _ 0 0 0 hwf
          · rw [hhere.1]; exact hpx
          · rw [hhere.2]; exact hpy
        · intro hno
          exact absurd ⟨n, by omega, by omega, hhere⟩ hno
      · constructor
        · rintro ⟨i, h1, h2, h3⟩
          by_cases hi : i = n
          · subst hi; exact absurd h3 hhere
          · exact absurd ⟨i, by omega, by omega, h3⟩ hlater
        · intro _
          unfold tga_fd_draw_pixel
          apply get_pixel_set_pixel_ne
          rintro ⟨e1, e2⟩
          apply hhere
          rw [hcell, e1, e2]

/-- Without wraparound the cells of the `w` x `h` box at `(tx, ty)` are the
pixels `(tx + i, ty + j)`, `i < w`, `j < h`. -/
theorem cell_pixel_block (w h tx ty px py : Nat) (hw : 0 < w)
    (hx : tx + w ≤ 65536) (hy : ty + h ≤ 65536) :
    (∃ i, 0 ≤ i ∧ i < 0 + w * h ∧ cell_pixel w tx ty i = (px, py)) ↔
      (tx ≤ px ∧ px < tx + w ∧ ty ≤ py ∧ py < ty + h) := by
  constructor
  · rintro ⟨i, _, hi, hc⟩
    have h1 : i % w < w := Nat.mod_lt _ hw
    have h2 : i / w < h := by
      rw [Nat.div_lt_iff_lt_mul hw, Nat.mul_comm]; omega
    have e1 : (tx + i % w) % UINT = tx + i % w := Nat.mod_eq_of_lt (by rw [UINT_eq]; omega)
    have e2 : (tx + i % w) % 65536 = tx + i % w := Nat.mod_eq_of_lt (by omega)
    have e3 : (i / w) % UINT = i / w := Nat.mod_eq_of_lt (by rw [UINT_eq]; omega)
    have e4 : (ty + i / w) % UINT = ty + i / w := Nat.mod_eq_of_lt (by rw [UINT_eq]; omega)
    have e5 : (ty + i / w) % 65536 = ty + i / w := Nat.mod_eq_of_lt (by omega)
    simp only [cell_pixel, e1, e2, e3, e4, e5, Prod.mk.injEq] at hc
    omega
  · rintro ⟨h1, h2, h3, h4⟩
    refine ⟨(py - ty) * w + (px - tx), Nat.zero_le _, ?_, ?_⟩
    · have : (py - ty) + 1 ≤ h := by omega
      have := Nat.mul_le_mul_right w this
      rw [Nat.add_mul, Nat.one_mul, Nat.mul_comm h w] at this
      omega
    · have hlt : px - tx < w := by omega
      have e1 : ((py - ty) * w + (px - tx)) % w = px - tx := by
        rw [Nat.add_comm, Nat.add_mul_mod_self_right, Nat.mod_eq_of_lt hlt]
      have e2 : ((py - ty) * w + (px - tx)) / w = py - ty := by
        rw [Nat.add_comm, Nat.add_mul_div_right _ _ hw, Nat.div_eq_of_lt hlt, Nat.zero_add]
      have e3 : (tx + (px - tx)) % UINT = tx + (px - tx) :=
        Nat.mod_eq_of_lt (by rw [UINT_eq]; omega)
      have e4 : (tx + (px - tx)) % 65536 = tx + (px - tx) := Nat.mod_eq_of_lt (by omega)
      have e5 : (py - ty) % UINT = py - ty := Nat.mod_eq_of_lt (by rw [UINT_eq]; omega)
      have e6 : (ty + (py - ty)) % UINT = ty + (py - ty) :=
        Nat.mod_eq_of_lt (by rw [UINT_eq]; omega)
      have e7 : (ty + (py - ty)) % 65536 = ty + (py - ty) := Nat.mod_eq_of_lt (by omega)
      simp only [cell_pixel, e1, e2, e3, e4, e5, e6, e7, Prod.mk.injEq]
      omega

/-- The origin `tga_fd_decode` computes when no coordinate wraps around. -/
theorem loop_start_target (f : tga_fd_t) (hd : GlyphHeader)
    (hx0 : 0 ≤ (f.target_x : Int) + hd.x) (hx1 : (f.target_x : Int) + hd.x ≤ 65536)
    (hy0 : 0 ≤ (f.target_y : Int) - hd.glyph_height - hd.y)
    (hy1 : (f.target_y : Int) - hd.glyph_height - hd.y ≤ 65536) :
    ((loop_start f hd).target_x : Int) = (f.target_x : Int) + hd.x ∧
    ((loop_start f hd).target_y : Int) = (f.target_y : Int) - hd.glyph_height - hd.y := by
  simp only [loop_start]
  have h1 := to_unsigned_cast ((f.target_x : Int) + hd.x)
  have h2 := to_unsigned_cast ((f.target_y : Int) - (hd.glyph_height : Int))
  have h3 := to_unsigned_cast
    (((to_unsigned ((f.target_y : Int) - (hd.glyph_height : Int)) : Nat) : Int) - hd.y)
  constructor
  · omega
  · omega

/-- The `for(;;)` loop on a stream that is the single run `skip = 0, paint = b`
with continuation bit 0, `b` being the number of cells of the glyph box. -/
theorem glyph_loop_single_run (font : Font) (mem : List uint8_t) (is_hints : Bool) (fuel b : Nat)
    (f c : tga_fd_t) (t : Tga) (hw : 0 < f.glyph_width) (hwu : f.glyph_width < UINT)
    (hgu : f.glyph_height < UINT) (hx : f.x = 0) (hy : f.y = 0)
    (hb : b = f.glyph_width * f.glyph_height)
    (hp : f.decode_ptr = c.decode_ptr) (hbp : f.decode_bit_pos = c.decode_bit_pos)
    (henc : encodes font mem [(0, b, 1)] c = true) :
    ∃ c3, glyph_loop font mem is_hints (fuel + 1) (f, t) =
      .ok (set_cursor (paint_loop b (f, t)).1 c3, (paint_loop b (f, t)).2) := by
  obtain ⟨c1, c2, c3, h1, h2, h3, _⟩ := encodes_cons font mem 0 b 1 [] c henc
  refine ⟨c3, ?_⟩
  rw [glyph_loop_succ]
  rw [get_unsigned_bits_via mem f c c1 _ 0 hp hbp h1]
  simp only
  rw [get_unsigned_bits_via mem (set_cursor f c1) c1 c2 _ b rfl rfl h2]
  simp only
  rw [repeat_loop_eq mem is_hints 0 b 1 (fuel + 1) c2 c3 _ h3 rfl rfl (by omega)]
  simp only [Function.iterate_succ, Function.iterate_zero, Function.comp, id]
  have e : apply_run is_hints 0 b (set_cursor (set_cursor f c1) c2, t) =
      (set_cursor (paint_loop b (f, t)).1 c2, (paint_loop b (f, t)).2) := by
    rw [set_cursor_set_cursor, apply_run_set_cursor]
    rfl
  rw [e]
  simp only [set_cursor_set_cursor]
  have i0 : loop_inv f.glyph_width f.glyph_height f.target_x f.target_y f.inc_calls t 0 (f, t) := by
    refine ⟨rfl, rfl, rfl, rfl, ?_, ?_, rfl, rfl, rfl, rfl, ?_⟩
    · simp [hx]
    · simp [hy]
    · intro px py hne; exact absurd rfl hne
  have i1 := paint_loop_inv f.glyph_width f.glyph_height f.target_x f.target_y f.inc_calls t
    hw hwu b 0 (f, t) i0
  obtain ⟨_, hgh, _, _, _, hy', _⟩ := i1
  have hyv : (set_cursor (paint_loop b (f, t)).1 c3).y = f.glyph_height := by
    show (paint_loop b (f, t)).1.y = f.glyph_height
    rw [hy', Nat.zero_add, hb, Nat.mul_div_cancel_left _ hw]
    exact Nat.mod_eq_of_lt hgu
  have hgv : (set_cursor (paint_loop b (f, t)).1 c3).glyph_height = f.glyph_height := hgh
  rw [hyv, hgv]
  simp

/-- Claim C10, amended: end to end: for a glyph of width `w > 0` and height `h > 0` whose
run-length stream is the single run `skip = 0, paint = w * h` with continuation
bit 0, drawn with `is_hints` off on a raster of the size `tga_init` gives it,
at an origin for which `target_x = origin_x + x` and
`target_y = origin_y - h - y` and the box behind them stay within `0 .. 65536`:
`tga_fd_decode` returns, for every loop budget of at least 1, the advance
field converted to the function's return type `unsigned`, that is the advance
modulo `2^32` (the advance itself when it is not negative, the advance plus
`2^32` when it is negative), the pixels
`(target_x + i, target_y + j)`, `i < w`, `j < h`, of the raster are black
`(0, 0, 0)`, and every other pixel of the raster is as before. -/
theorem C10_single_run_block (font : Font) (mem : List uint8_t) (f : tga_fd_t) (t : Tga)
    (g : Nat) (hd : GlyphHeader)
    (hhd : glyph_header font mem g = .ok hd)
    (hw : 0 < hd.glyph_width) (hh : 0 < hd.glyph_height)
    (henc : encodes font mem [(0, hd.glyph_width * hd.glyph_height, 1)]
      (cursor hd.decode_ptr hd.decode_bit_pos) = true)
    (hwf : well_formed t)
    (hx0 : 0 ≤ (f.target_x : Int) + hd.x)
    (hx1 : (f.target_x : Int) + hd.x + hd.glyph_width ≤ 65536)
    (hy0 : 0 ≤ (f.target_y : Int) - hd.glyph_height - hd.y)
    (hy1 : (f.target_y : Int) - hd.glyph_height - hd.y + hd.glyph_height ≤ 65536) :
    ∀ fuel, 1 ≤ fuel →
      ∃ r f' t', tga_fd_decode font mem fuel f t g false = .ok (r, f', t') ∧
        (r : Int) = hd.d % 2 ^ 32 ∧
        (0 ≤ hd.d → (r : Int) = hd.d) ∧ (hd.d < 0 → (r : Int) = hd.d + 2 ^ 32) ∧
        t'.tga_width = t.tga_width ∧ t'.tga_height = t.tga_height ∧
        ∀ px py : Nat, px < t.tga_width → py < t.tga_height →
          (((f.target_x : Int) + hd.x ≤ px ∧ (px : Int) < f.target_x + hd.x + hd.glyph_width ∧
            (f.target_y : Int) - hd.glyph_height - hd.y ≤ py ∧
            (py : Int) < f.target_y - hd.glyph_height - hd.y + hd.glyph_height) →
              get_pixel t' px py = some (0, 0, 0)) ∧
          (¬ ((f.target_x : Int) + hd.x ≤ px ∧ (px : Int) < f.target_x + hd.x + hd.glyph_width ∧
            (f.target_y : Int) - hd.glyph_height - hd.y ≤ py ∧
            (py : Int) < f.target_y - hd.glyph_height - hd.y + hd.glyph_height) →
              get_pixel t' px py = get_pixel t px py) := by
  intro fuel hfuel
  obtain ⟨fuel, rfl⟩ : ∃ m, fuel = m + 1 := ⟨fuel - 1, by omega⟩
  obtain ⟨hwu, hgu⟩ := glyph_header_lt_uint font mem g hd hhd
  obtain ⟨c3, hloop⟩ := glyph_loop_single_run font mem false fuel
    (hd.glyph_width * hd.glyph_height) (loop_start f hd)
    (cursor hd.decode_ptr hd.decode_bit_pos) t hw hwu hgu rfl rfl rfl rfl rfl henc
  obtain ⟨htx, hty⟩ := loop_start_target f hd hx0 (by omega) hy0 (by omega)
  have i0 := loop_inv_start f hd t
  have i1 := paint_loop_inv _ _ _ _ _ t hw hwu (hd.glyph_width * hd.glyph_height) 0 _ i0
  obtain ⟨_, _, _, _, _, _, _, dW, dH, _, _⟩ := i1
  have hc := to_unsigned_cast hd.d
  obtain ⟨hlo, hhi⟩ := glyph_header_d_range font mem g hd hhd
  refine ⟨to_unsigned hd.d,
    set_cursor (paint_loop (hd.glyph_width * hd.glyph_height) (loop_start f hd, t)).1 c3,
    (paint_loop (hd.glyph_width * hd.glyph_height) (loop_start f hd, t)).2,
    ?_, ?_, ?_, ?_, dW, dH, ?_⟩
  · rw [decode_eq, hhd]
    simp only [gt_iff_lt, hw, if_true, hloop, Except.map]
  · rw [hc]; norm_num
  · intro h0; omega
  · intro h0; omega
  · intro px py hpx hpy
    have hpix := paint_loop_pixels hd.glyph_width (loop_start f hd).target_x
      (loop_start f hd).target_y hw hwu (hd.glyph_width * hd.glyph_height) 0
      (loop_start f hd) t hwf rfl rfl rfl (by simp [loop_start]) (by simp [loop_start])
      px py hpx hpy
    have hblock := cell_pixel_block hd.glyph_width hd.glyph_height
      (loop_start f hd).target_x (loop_start f hd).target_y px py hw (by omega) (by omega)
    have hiff : ((f.target_x : Int) + hd.x ≤ px ∧ (px : Int) < f.target_x + hd.x + hd.glyph_width ∧
        (f.target_y : Int) - hd.glyph_height - hd.y ≤ py ∧
        (py : Int) < f.target_y - hd.glyph_height - hd.y + hd.glyph_height) ↔
        ((loop_start f hd).target_x ≤ px ∧ px < (loop_start f hd).target_x + hd.glyph_width ∧
          (loop_start f hd).target_y ≤ py ∧ py < (loop_start f hd).target_y + hd.glyph_height) := by
      omega
    rw [hiff, ← hblock]
    exact hpix

/-- Witness of claim C10, amended: the 2 x 2 glyph of `c10_mem` drawn at origin `(1, 3)` on a
white raster of 4 x 4 pixels. -/
theorem C10_single_run_block_witness :
    glyph_header demo_font c10_mem 0 = .ok c10_header ∧
    0 < c10_header.glyph_width ∧ 0 < c10_header.glyph_height ∧
    encodes demo_font c10_mem [(0, c10_header.glyph_width * c10_header.glyph_height, 1)]
      (cursor c10_header.decode_ptr c10_header.decode_bit_pos) = true ∧
    well_formed (white 4 4) ∧
    0 ≤ (c10_state.target_x : Int) + c10_header.x ∧
    (c10_state.target_x : Int) + c10_header.x + c10_header.glyph_width ≤ 65536 ∧
    0 ≤ (c10_state.target_y : Int) - c10_header.glyph_height - c10_header.y ∧
    (c10_state.target_y : Int) - c10_header.glyph_height - c10_header.y
      + c10_header.glyph_height ≤ 65536 ∧
    ∀ fuel, 1 ≤ fuel →
      ∃ r f' t', tga_fd_decode demo_font c10_mem fuel c10_state (white 4 4) 0 false
          = .ok (r, f', t') ∧
        (r : Int) = c10_header.d % 2 ^ 32 ∧
        (0 ≤ c10_header.d → (r : Int) = c10_header.d) ∧
        (c10_header.d < 0 → (r : Int) = c10_header.d + 2 ^ 32) ∧
        t'.tga_width = (white 4 4).tga_width ∧ t'.tga_height = (white 4 4).tga_height ∧
        ∀ px py : Nat, px < (white 4 4).tga_width → py < (white 4 4).tga_height →
          (((c10_state.target_x : Int) + c10_header.x ≤ px ∧
            (px : Int) < c10_state.target_x + c10_header.x + c10_header.glyph_width ∧
            (c10_state.target_y : Int) - c10_header.glyph_height - c10_header.y ≤ py ∧
            (py : Int) < c10_state.target_y - c10_header.glyph_height - c10_header.y
              + c10_header.glyph_height) →
              get_pixel t' px py = some (0, 0, 0)) ∧
          (¬ ((c10_state.target_x : Int) + c10_header.x ≤ px ∧
            (px : Int) < c10_state.target_x + c10_header.x + c10_header.glyph_width ∧
            (c10_state.target_y : Int) - c10_header.glyph_height - c10_header.y ≤ py ∧
            (py : Int) < c10_state.target_y - c10_header.glyph_height - c10_header.y
              + c10_header.glyph_height) →
              get_pixel t' px py = get_pixel (white 4 4) px py) :=
  ⟨by decide, by decide, by decide, by decide, by decide, by decide, by decide, by decide,
    by decide,
    C10_single_run_block demo_font c10_mem c10_state (white 4 4) 0 c10_header
      (by decide) (by decide) (by decide) (by decide) (by decide) (by decide) (by decide)
      (by decide) (by decide)⟩

theorem table_ok_entry (font : Font) (mem : List uint8_t) (h : table_ok font mem = true)
    (k : Nat) (hk : k < font.glyph_cnt) :
    ∃ p e l, entry_start font mem k = some p ∧ mem[p]? = some e ∧ mem[p + 1]? = some l := by
  unfold table_ok at h
  rw [List.all_eq_true] at h
  have hk' := h k (List.mem_range.mpr hk)
  cases hs : entry_start font mem k with
  | none => rw [hs] at hk'; simp at hk'
  | some p =>
    rw [hs] at hk'
    simp only [Bool.and_eq_true, Option.isSome_iff_exists] at hk'
    obtain ⟨⟨e, he⟩, ⟨l, hl⟩⟩ := hk'
    exact ⟨p, e, l, rfl, he, hl⟩

theorem glyph_scan_succ (mem : List uint8_t) (encoding : uint8_t) (n p : Nat) (e l : uint8_t)
    (he : mem[p]? = some e) (hl : mem[p + 1]? = some l) :
    glyph_scan mem encoding (n + 1) p =
      if e = encoding then .ok (some p) else glyph_scan mem encoding n (p + l.val) := by
  simp only [glyph_scan, deref_of_getElem? he, deref_of_getElem? hl, bind, Except.bind, pure,
    Except.pure]
  by_cases h : e = encoding
  · simp [h]
  · have : ¬ (e.val = encoding.val) := fun hv => h (Fin.ext hv)
    simp [h, this]

/-- The scan from entry `k` on, with `n` entries left. -/
theorem glyph_scan_spec (font : Font) (mem : List uint8_t) (encoding : uint8_t)
    (hok : table_ok font mem = true) :
    ∀ (n k p : Nat), k + n = font.glyph_cnt → entry_start font mem k = some p →
      (∀ j q, k ≤ j → j < font.glyph_cnt → entry_start font mem j = some q →
        entry_code font mem j = some encoding →
        (∀ i, k ≤ i → i < j → entry_code font mem i ≠ some encoding) →
        glyph_scan mem encoding n p = .ok (some q)) ∧
      ((∀ j, k ≤ j → j < font.glyph_cnt → entry_code font mem j ≠ some encoding) →
        glyph_scan mem encoding n p = .ok none) := by
  intro n
  induction n with
  | zero =>
    intro k p hk hp
    constructor
    · intro j q h1 h2; omega
    · intro _; rfl
  | succ n ih =>
    intro k p hk hp
    obtain ⟨p', e, l, hp', he, hl⟩ := table_ok_entry font mem hok k (by omega)
    rw [hp] at hp'
    simp only [Option.some.injEq] at hp'
    subst hp'
    have hcode : entry_code font mem k = some e := by
      simp only [entry_code, hp, he]
    have hnext : entry_start font mem (k + 1) = some (p + l.val) := by
      simp only [entry_start, hp, hl]
    obtain ⟨ih1, ih2⟩ := ih (k + 1) (p + l.val) (by omega) hnext
    rw [glyph_scan_succ mem encoding n p e l he hl]
    constructor
    · intro j q h1 h2 hq hc hfirst
      by_cases hjk : j = k
      · subst hjk
        rw [hcode] at hc
        simp only [Option.some.injEq] at hc
        rw [hp] at hq
        simp only [Option.some.injEq] at hq
        rw [if_pos hc, hq]
      · have hne : e ≠ encoding := by
          intro heq
          apply hfirst k (Nat.le_refl k) (by omega)
          rw [hcode, heq]
        rw [if_neg hne]
        exact ih1 j q (by omega) h2 hq hc (fun i hi1 hi2 => hfirst i (by omega) hi2)
    · intro hnone
      have hne : e ≠ encoding := by
        intro heq
        apply hnone k (Nat.le_refl k) (by omega)
        rw [hcode, heq]
      rw [if_neg hne]
      exact ih2 (fun j hj1 hj2 => hnone j (by omega) hj2)

/-- Among the entries that carry the code there is a first one. -/
theorem first_match (font : Font) (mem : List uint8_t) (encoding : uint8_t)
    (h : ∃ j, j < font.glyph_cnt ∧ entry_code font mem j = some encoding) :
    ∃ j, j < font.glyph_cnt ∧ entry_code font mem j = some encoding ∧
      ∀ i, i < j → entry_code font mem i ≠ some encoding := by
  classical
  refine ⟨Nat.find h, (Nat.find_spec h).1, (Nat.find_spec h).2, ?_⟩
  intro i hi hc
  exact Nat.find_min h hi ⟨by have := (Nat.find_spec h).1; omega, hc⟩

/-- Claim C11: on a glyph table whose `glyph_cnt` entries lie in the blob,
`tga_get_glyph_data` returns; it visits the entries in physical order, each one
`record_length` octets behind the one in front of it, and returns the start of
the first of the `glyph_cnt` entries whose encoding octet is the code (the first
one also when the code occurs again further on); it returns the null pointer if
and only if none of the `glyph_cnt` entries has the code. -/
theorem C11_glyph_lookup (font : Font) (mem : List uint8_t) (encoding : uint8_t)
    (hok : table_ok font mem = true) :
    (∃ r, tga_get_glyph_data font mem encoding = .ok r) ∧
    (∀ j q, j < font.glyph_cnt → entry_start font mem j = some q →
      entry_code font mem j = some encoding →
      (∀ i, i < j → entry_code font mem i ≠ some encoding) →
      tga_get_glyph_data font mem encoding = .ok (some q)) ∧
    (∀ q, tga_get_glyph_data font mem encoding = .ok (some q) →
      ∃ j, j < font.glyph_cnt ∧ entry_start font mem j = some q ∧
        entry_code font mem j = some encoding ∧
        ∀ i, i < j → entry_code font mem i ≠ some encoding) ∧
    (tga_get_glyph_data font mem encoding = .ok none ↔
      ∀ j, j < font.glyph_cnt → entry_code font mem j ≠ some encoding) := by
  obtain ⟨s1, s2⟩ := glyph_scan_spec font mem encoding hok font.glyph_cnt 0 font.tga_font
    (by omega) rfl
  have hfound : ∀ j q, j < font.glyph_cnt → entry_start font mem j = some q →
      entry_code font mem j = some encoding →
      (∀ i, i < j → entry_code font mem i ≠ some encoding) →
      tga_get_glyph_data font mem encoding = .ok (some q) := by
    intro j q hj hq hc hfirst
    exact s1 j q (Nat.zero_le j) hj hq hc (fun i _ hi => hfirst i hi)
  have hnone : (∀ j, j < font.glyph_cnt → entry_code font mem j ≠ some encoding) →
      tga_get_glyph_data font mem encoding = .ok none := by
    intro h
    exact s2 (fun j _ hj => h j hj)
  have hcases : (∃ j, j < font.glyph_cnt ∧ entry_code font mem j = some encoding) ∨
      (∀ j, j < font.glyph_cnt → entry_code font mem j ≠ some encoding) := by
    by_cases h : ∃ j, j < font.glyph_cnt ∧ entry_code font mem j = some encoding
    · exact Or.inl h
    · right
      intro j hj hc
      exact h ⟨j, hj, hc⟩
  have hstart : ∀ j, j < font.glyph_cnt → ∃ q, entry_start font mem j = some q := by
    intro j hj
    obtain ⟨p, _, _, hp, _, _⟩ := table_ok_entry font mem hok j hj
    exact ⟨p, hp⟩
  refine ⟨?_, hfound, ?_, ?_⟩
  · rcases hcases with h | h
    · obtain ⟨j, hj, hc, hfirst⟩ := first_match font mem encoding h
      obtain ⟨q, hq⟩ := hstart j hj
      exact ⟨some q, hfound j q hj hq hc hfirst⟩
    · exact ⟨none, hnone h⟩
  · intro q hres
    rcases hcases with h | h
    · obtain ⟨j, hj, hc, hfirst⟩ := first_match font mem encoding h
      obtain ⟨q', hq'⟩ := hstart j hj
      have := hfound j q' hj hq' hc hfirst
      rw [hres] at this
      simp only [Except.ok.injEq, Option.some.injEq] at this
      subst this
      exact ⟨j, hj, hq', hc, hfirst⟩
    · rw [hnone h] at hres
      simp at hres
  · constructor
    · intro hres j hj hc
      obtain ⟨j', hj', hc', hfirst⟩ := first_match font mem encoding ⟨j, hj, hc⟩
      obtain ⟨q, hq⟩ := hstart j' hj'
      have := hfound j' q hj' hq hc' hfirst
      rw [hres] at this
      simp at this
    · exact hnone

/-- Witness of claim C11: the table of `c11_mem`; the code 65 occurs in the first
and in the third entry. -/
theorem C11_glyph_lookup_witness :
    table_ok c11_font c11_mem = true ∧
    tga_get_glyph_data c11_font c11_mem 65 = .ok (some 0) ∧
    tga_get_glyph_data c11_font c11_mem 66 = .ok (some 3) ∧
    tga_get_glyph_data c11_font c11_mem 67 = .ok none ∧
    ((∃ r, tga_get_glyph_data c11_font c11_mem 65 = .ok r) ∧
    (∀ j q, j < c11_font.glyph_cnt → entry_start c11_font c11_mem j = some q →
      entry_code c11_font c11_mem j = some 65 →
      (∀ i, i < j → entry_code c11_font c11_mem i ≠ some 65) →
      tga_get_glyph_data c11_font c11_mem 65 = .ok (some q)) ∧
    (∀ q, tga_get_glyph_data c11_font c11_mem 65 = .ok (some q) →
      ∃ j, j < c11_font.glyph_cnt ∧ entry_start c11_font c11_mem j = some q ∧
        entry_code c11_font c11_mem j = some 65 ∧
        ∀ i, i < j → entry_code c11_font c11_mem i ≠ some 65) ∧
    (tga_get_glyph_data c11_font c11_mem 65 = .ok none ↔
      ∀ j, j < c11_font.glyph_cnt → entry_code c11_font c11_mem j ≠ some 65)) :=
  ⟨by decide, by decide, by decide, by decide,
    C11_glyph_lookup c11_font c11_mem 65 (by decide)⟩

/-- Claim C12: when the lookup of the code returns the null pointer,
`tga_draw_glyph` returns the advance 0 and the raster as it was, whatever the
font, the position, the code and `is_hints`; the call ends without a fault. -/
theorem C12_glyph_not_found (font : Font) (mem : List uint8_t) (fuel : Nat) (uninit : tga_fd_t)
    (t : Tga) (x y : Nat) (encoding : uint8_t) (is_hints : Bool)
    (h : tga_get_glyph_data font mem encoding = .ok none) :
    tga_draw_glyph font mem fuel uninit t x y encoding is_hints = .ok (0, t) := by
  simp only [tga_draw_glyph, h, bind, Except.bind, pure, Except.pure]

/-- Witness of claim C12: the code 67 is not in the table of `c11_mem`. -/
theorem C12_glyph_not_found_witness :
    tga_get_glyph_data c11_font c11_mem 67 = .ok none ∧
    tga_draw_glyph c11_font c11_mem 0 c5_state (white 2 2) 1 1 67 true = .ok (0, white 2 2) :=
  ⟨by decide, C12_glyph_not_found c11_font c11_mem 0 c5_state (white 2 2) 1 1 67 true
    (by decide)⟩

theorem draw_string_loop_cons (font : Font) (mem : List uint8_t) (fuel : Nat)
    (uninit : tga_fd_t) (x y : Nat) (is_hints : Bool) (c : uint8_t) (s : List uint8_t)
    (dx : Nat) (t : Tga) :
    draw_string_loop font mem fuel uninit x y is_hints (c :: s) dx t =
      match tga_draw_glyph font mem fuel uninit t ((x + dx) % UINT) y c is_hints with
      | .error e => .error e
      | .ok (r, t') => draw_string_loop font mem fuel uninit x y is_hints s ((dx + r) % UINT) t' := by
  simp only [draw_string_loop, bind, Except.bind]
  cases tga_draw_glyph font mem fuel uninit t ((x + dx) % UINT) y c is_hints with
  | error e => rfl
  | ok r => rfl

theorem add_mod_uint (x acc : Nat) : (x + acc % UINT) % UINT = (x + acc) % UINT := by
  rw [Nat.add_mod, Nat.mod_mod, ← Nat.add_mod]

/-- The loop of `tga_draw_string`, entered with `dx` the sum `acc` of the earlier
advances reduced modulo `2^32`. -/
theorem draw_string_loop_iff (font : Font) (mem : List uint8_t) (fuel : Nat)
    (uninit : tga_fd_t) (x y : Nat) (is_hints : Bool) :
    ∀ (s : List uint8_t) (acc : Nat) (t : Tga) (total : Nat) (t' : Tga),
      draw_string_loop font mem fuel uninit x y is_hints s (acc % UINT) t = .ok (total, t') ↔
      ∃ calls : List (uint8_t × Nat × Tga), calls.map (fun c => c.1) = s ∧
        draw_calls font mem fuel uninit x y is_hints acc t calls ∧
        total = (acc + (calls.map (fun c => c.2.1)).sum) % UINT ∧ t' = last_raster t calls := by
  intro s
  induction s with
  | nil =>
    intro acc t total t'
    simp only [draw_string_loop, pure, Except.pure, Except.ok.injEq, Prod.mk.injEq]
    constructor
    · rintro ⟨h1, h2⟩
      exact ⟨[], rfl, trivial, by simp [← h1], by simp [last_raster, ← h2]⟩
    · rintro ⟨calls, hm, _, ht, hl⟩
      have : calls = [] := by simpa using hm
      subst this
      simp only [List.map_nil, List.sum_nil, Nat.add_zero, last_raster] at ht hl
      exact ⟨ht.symm, hl.symm⟩
  | cons c s ih =>
    intro acc t total t'
    rw [draw_string_loop_cons, add_mod_uint]
    constructor
    · intro h
      cases hg : tga_draw_glyph font mem fuel uninit t ((x + acc) % UINT) y c is_hints with
      | error e => rw [hg] at h; simp at h
      | ok r1 =>
        obtain ⟨r, t1⟩ := r1
        rw [hg] at h
        simp only at h
        have e : (acc % UINT + r) % UINT = (acc + r) % UINT := by
          rw [Nat.add_comm, add_mod_uint, Nat.add_comm]
        rw [e] at h
        obtain ⟨calls, hm, hc, ht, hl⟩ := (ih (acc + r) t1 total t').mp h
        refine ⟨(c, r, t1) :: calls, ?_, ⟨hg, hc⟩, ?_, ?_⟩
        · simp [hm]
        · simp only [List.map_cons, List.sum_cons]
          rw [ht, Nat.add_assoc]
        · simp only [last_raster]; exact hl
    · rintro ⟨calls, hm, hc, ht, hl⟩
      cases calls with
      | nil => simp at hm
      | cons hd rest =>
        obtain ⟨c', r, t1⟩ := hd
        simp only [List.map_cons, List.cons.injEq] at hm
        obtain ⟨hc', hm'⟩ := hm
        subst hc'
        obtain ⟨hg, hrest⟩ := hc
        rw [hg]
        simp only
        have e : (acc % UINT + r) % UINT = (acc + r) % UINT := by
          rw [Nat.add_comm, add_mod_uint, Nat.add_comm]
        rw [e]
        apply (ih (acc + r) t1 total t').mpr
        refine ⟨rest, hm', hrest, ?_, ?_⟩
        · simp only [List.map_cons, List.sum_cons] at ht
          rw [ht, Nat.add_assoc]
        · simp only [last_raster] at hl; exact hl

/-- Claim C13: `tga_draw_string (x, y, text, hints)` returns `total` and leaves
the raster `t'` exactly when `tga_draw_glyph` is called for the characters
`c_1 .. c_n` of the text in order, the k-th call at the horizontal position
`x + (sum of the advances returned for c_1 .. c_(k-1))` and the same `y`, on
the raster the call in front of it has left, `total` is the sum of the `n`
returned advances and `t'` the raster behind the last call, positions and sum
taken in the function's `unsigned` arithmetic (modulo `2^32`); for the empty
text it returns 0 and the raster as it was. -/
theorem C13_draw_string_calls (font : Font) (mem : List uint8_t) (fuel : Nat)
    (uninit : tga_fd_t) (t : Tga) (x y : Nat) (s : List uint8_t) (is_hints : Bool) :
    (∀ (total : Nat) (t' : Tga),
      tga_draw_string font mem fuel uninit t x y s is_hints = .ok (total, t') ↔
      ∃ calls : List (uint8_t × Nat × Tga), calls.map (fun c => c.1) = s ∧
        draw_calls font mem fuel uninit x y is_hints 0 t calls ∧
        total = ((calls.map (fun c => c.2.1)).sum) % UINT ∧ t' = last_raster t calls) ∧
    tga_draw_string font mem fuel uninit t x y [] is_hints = .ok (0, t) := by
  constructor
  · intro total t'
    have h := draw_string_loop_iff font mem fuel uninit x y is_hints s 0 t total t'
    simp only [Nat.zero_mod, Nat.zero_add] at h
    exact h
  · rfl

/-- `tga_set_pixel` changes the buffer by the stores of `set_pixel_stores` and nothing else. -/
theorem set_pixel_eq_stores (t : Tga) (x y : Nat) (r g b : uint8_t) :
    tga_set_pixel t x y r g b =
      { t with tga_data :=
          (set_pixel_stores t x y r g b).foldl (fun d s => d.set s.1 s.2) t.tga_data } := by
  unfold tga_set_pixel set_pixel_stores
  simp only
  split
  · rfl
  · split
    · rfl
    · rfl

/-- Claim C14: for a raster of `width` x `height` and any colour,
`tga_set_pixel (x, y, r, g, b)` with `x >= width` or `y >= height` leaves the
raster as it was and makes no store to the buffer; so it is at the coordinates
`(width, 0)` and `(0, height)`. -/
theorem C14_set_pixel_clips (t : Tga) (x y : Nat) (r g b : uint8_t)
    (hW : t.tga_width < 65536) (hH : t.tga_height < 65536)
    (hx : x < 65536) (hy : y < 65536) (h : x ≥ t.tga_width ∨ y ≥ t.tga_height) :
    (tga_set_pixel t x y r g b = t ∧ set_pixel_stores t x y r g b = []) ∧
    (tga_set_pixel t t.tga_width 0 r g b = t ∧ set_pixel_stores t t.tga_width 0 r g b = []) ∧
    (tga_set_pixel t 0 t.tga_height r g b = t ∧ set_pixel_stores t 0 t.tga_height r g b = []) := by
  have key : ∀ x y : Nat, x < 65536 → y < 65536 → (x ≥ t.tga_width ∨ y ≥ t.tga_height) →
      tga_set_pixel t x y r g b = t ∧ set_pixel_stores t x y r g b = [] := by
    intro x y hx hy h
    have ex : x % 65536 = x := Nat.mod_eq_of_lt hx
    have ey : y % 65536 = y := Nat.mod_eq_of_lt hy
    unfold tga_set_pixel set_pixel_stores
    simp only [ex, ey]
    by_cases h1 : y ≥ t.tga_height
    · simp [h1]
    · have h2 : x ≥ t.tga_width := by
        rcases h with h | h
        · exact h
        · exact absurd h h1
      simp [h1, h2]
  exact ⟨key x y hx hy h, key t.tga_width 0 hW (by decide) (Or.inl (Nat.le_refl _)),
    key 0 t.tga_height (by decide) hH (Or.inr (Nat.le_refl _))⟩

/-- Witness of claim C14: the coordinate `(2, 1)` on a raster of 2 x 2 pixels. -/
theorem C14_set_pixel_clips_witness :
    (white 2 2).tga_width < 65536 ∧ (white 2 2).tga_height < 65536 ∧
    2 < 65536 ∧ 1 < 65536 ∧ (2 ≥ (white 2 2).tga_width ∨ 1 ≥ (white 2 2).tga_height) ∧
    ((tga_set_pixel (white 2 2) 2 1 0 0 0 = white 2 2 ∧
        set_pixel_stores (white 2 2) 2 1 0 0 0 = []) ∧
    (tga_set_pixel (white 2 2) (white 2 2).tga_width 0 0 0 0 = white 2 2 ∧
        set_pixel_stores (white 2 2) (white 2 2).tga_width 0 0 0 0 = []) ∧
    (tga_set_pixel (white 2 2) 0 (white 2 2).tga_height 0 0 0 = white 2 2 ∧
        set_pixel_stores (white 2 2) 0 (white 2 2).tga_height 0 0 0 = [])) :=
  ⟨by decide, by decide, by decide, by decide, by decide,
    C14_set_pixel_clips (white 2 2) 2 1 0 0 0 (by decide) (by decide) (by decide) (by decide)
      (by decide)⟩

/-- The stores of `tga_set_pixel` at a coordinate inside the raster. -/
theorem set_pixel_stores_inside (t : Tga) (x y : Nat) (r g b : uint8_t)
    (hx : x < t.tga_width) (hy : y < t.tga_height)
    (hW : t.tga_width < 65536) (hH : t.tga_height < 65536) :
    set_pixel_stores t x y r g b =
      [(((t.tga_height - 1 - y) * t.tga_width + x) * 3, b),
       (((t.tga_height - 1 - y) * t.tga_width + x) * 3 + 1, g),
       (((t.tga_height - 1 - y) * t.tga_width + x) * 3 + 2, r)] := by
  have ex : x % 65536 = x := Nat.mod_eq_of_lt (by omega)
  have ey : y % 65536 = y := Nat.mod_eq_of_lt (by omega)
  have eo : (t.tga_height - y - 1) * t.tga_width * 3 + x * 3 =
      ((t.tga_height - 1 - y) * t.tga_width + x) * 3 := by
    have : t.tga_height - y - 1 = t.tga_height - 1 - y := by omega
    rw [this, Nat.add_mul]
  unfold set_pixel_stores
  simp only [ex, ey]
  rw [if_neg (by omega), if_neg (by omega), eo]

/-- Claim C15 as stated fails: on a raster of 2 x 1 pixels `tga_set_pixel` at
`(width-1, height-1) = (1, 0)` stores its colour at the buffer offsets 3, 4, 5;
the octets at the offsets 0, 1, 2 stay as they were. -/
theorem C15_last_column_not_offset_zero :
    (white 2 1).tga_width - 1 = 1 ∧ (white 2 1).tga_height - 1 = 0 ∧
    set_pixel_stores (white 2 1) 1 0 1 2 3 = [(3, 3), (4, 2), (5, 1)] ∧
    (tga_set_pixel (white 2 1) 1 0 1 2 3).tga_data = [255, 255, 255, 3, 2, 1] := by
  decide

/-- Claim C15, amended: on a raster with `width >= 1` and `height >= 1`,
`tga_set_pixel` at `(width-1, height-1)` stores its colour triple starting at
the buffer offset `3 * (width - 1)`, the last pixel of output row 0; this is the
offset 0 only when `width = 1`; the coordinate that is stored starting at the
offset 0 is `(0, height-1)`. -/
theorem C15_top_row_offsets (t : Tga) (r g b : uint8_t)
    (hw : 1 ≤ t.tga_width) (hh : 1 ≤ t.tga_height)
    (hW : t.tga_width < 65536) (hH : t.tga_height < 65536) :
    set_pixel_stores t (t.tga_width - 1) (t.tga_height - 1) r g b =
      [(3 * (t.tga_width - 1), b), (3 * (t.tga_width - 1) + 1, g),
       (3 * (t.tga_width - 1) + 2, r)] ∧
    3 * (t.tga_width - 1) < 3 * t.tga_width ∧
    (3 * (t.tga_width - 1) = 0 ↔ t.tga_width = 1) ∧
    set_pixel_stores t 0 (t.tga_height - 1) r g b = [(0, b), (1, g), (2, r)] := by
  have h1 := set_pixel_stores_inside t (t.tga_width - 1) (t.tga_height - 1) r g b
    (by omega) (by omega) hW hH
  have h2 := set_pixel_stores_inside t 0 (t.tga_height - 1) r g b (by omega) (by omega) hW hH
  have e0 : t.tga_height - 1 - (t.tga_height - 1) = 0 := by omega
  rw [e0, Nat.zero_mul, Nat.zero_add] at h1 h2
  refine ⟨?_, by omega, by omega, ?_⟩
  · rw [h1, Nat.mul_comm]
  · rw [h2]

/-- Witness of claim C15, amended: a raster of 2 x 1 pixels. -/
theorem C15_top_row_offsets_witness :
    1 ≤ (white 2 1).tga_width ∧ 1 ≤ (white 2 1).tga_height ∧
    (white 2 1).tga_width < 65536 ∧ (white 2 1).tga_height < 65536 ∧
    (set_pixel_stores (white 2 1) ((white 2 1).tga_width - 1) ((white 2 1).tga_height - 1) 1 2 3 =
      [(3 * ((white 2 1).tga_width - 1), 3), (3 * ((white 2 1).tga_width - 1) + 1, 2),
       (3 * ((white 2 1).tga_width - 1) + 2, 1)] ∧
    3 * ((white 2 1).tga_width - 1) < 3 * (white 2 1).tga_width ∧
    (3 * ((white 2 1).tga_width - 1) = 0 ↔ (white 2 1).tga_width = 1) ∧
    set_pixel_stores (white 2 1) 0 ((white 2 1).tga_height - 1) 1 2 3 = [(0, 3), (1, 2), (2, 1)]) :=
  ⟨by decide, by decide, by decide, by decide,
    C15_top_row_offsets (white 2 1) 1 2 3 (by decide) (by decide) (by decide) (by decide)⟩

/-- Claim C16: for an in-bounds coordinate (`x < width`, `y < height`) of a
raster whose buffer has `width * height * 3` octets, `tga_set_pixel` stores
`b`, `g`, `r` at the buffer offsets `o`, `o + 1`, `o + 2` with
`o = ((height - 1 - y) * width + x) * 3`; the three offsets lie inside the
buffer; every other octet of the buffer, its length and the raster size are
unchanged; `y = height - 1` lands in output row 0 (`o < 3 * width`). -/
theorem C16_set_pixel_layout (t : Tga) (x y : Nat) (r g b : uint8_t)
    (hwf : well_formed t) (hx : x < t.tga_width) (hy : y < t.tga_height)
    (hW : t.tga_width < 65536) (hH : t.tga_height < 65536) :
    set_pixel_stores t x y r g b =
      [(((t.tga_height - 1 - y) * t.tga_width + x) * 3, b),
       (((t.tga_height - 1 - y) * t.tga_width + x) * 3 + 1, g),
       (((t.tga_height - 1 - y) * t.tga_width + x) * 3 + 2, r)] ∧
    ((t.tga_height - 1 - y) * t.tga_width + x) * 3 + 2 < t.tga_width * t.tga_height * 3 ∧
    (tga_set_pixel t x y r g b).tga_data[((t.tga_height - 1 - y) * t.tga_width + x) * 3]?
      = some b ∧
    (tga_set_pixel t x y r g b).tga_data[((t.tga_height - 1 - y) * t.tga_width + x) * 3 + 1]?
      = some g ∧
    (tga_set_pixel t x y r g b).tga_data[((t.tga_height - 1 - y) * t.tga_width + x) * 3 + 2]?
      = some r ∧
    (∀ i, i ≠ ((t.tga_height - 1 - y) * t.tga_width + x) * 3 →
      i ≠ ((t.tga_height - 1 - y) * t.tga_width + x) * 3 + 1 →
      i ≠ ((t.tga_height - 1 - y) * t.tga_width + x) * 3 + 2 →
      (tga_set_pixel t x y r g b).tga_data[i]? = t.tga_data[i]?) ∧
    (tga_set_pixel t x y r g b).tga_data.length = t.tga_data.length ∧
    (tga_set_pixel t x y r g b).tga_width = t.tga_width ∧
    (tga_set_pixel t x y r g b).tga_height = t.tga_height ∧
    (y = t.tga_height - 1 → ((t.tga_height - 1 - y) * t.tga_width + x) * 3 < 3 * t.tga_width) := by
  have hst := set_pixel_stores_inside t x y r g b hx hy hW hH
  have hlt := pixel_offset_lt t x y hwf hx hy
  have eo : pixel_offset t x y = ((t.tga_height - 1 - y) * t.tga_width + x) * 3 := by
    unfold pixel_offset
    have : t.tga_height - y - 1 = t.tga_height - 1 - y := by omega
    rw [this, Nat.add_mul]
  rw [eo] at hlt
  have hlen : t.tga_data.length = t.tga_width * t.tga_height * 3 := hwf
  have hdata : (tga_set_pixel t x y r g b).tga_data =
      ((t.tga_data.set (((t.tga_height - 1 - y) * t.tga_width + x) * 3) b).set
        (((t.tga_height - 1 - y) * t.tga_width + x) * 3 + 1) g).set
        (((t.tga_height - 1 - y) * t.tga_width + x) * 3 + 2) r := by
    rw [set_pixel_eq_stores, hst]
    rfl
  obtain ⟨dW, dH, dL⟩ := set_pixel_dims t x y r g b
  refine ⟨hst, by omega, ?_, ?_, ?_, ?_, dL, dW, dH, ?_⟩
  · rw [hdata, List.getElem?_set_ne (by omega), List.getElem?_set_ne (by omega),
      List.getElem?_set_self (by omega)]
  · rw [hdata, List.getElem?_set_ne (by omega), List.getElem?_set_self (by simp; omega)]
  · rw [hdata, List.getElem?_set_self (by simp; omega)]
  · intro i h1 h2 h3
    rw [hdata, List.getElem?_set_ne (by omega), List.getElem?_set_ne (by omega),
      List.getElem?_set_ne (by omega)]
  · intro hy'
    have e0 : t.tga_height - 1 - y = 0 := by omega
    rw [e0, Nat.zero_mul, Nat.zero_add]
    omega

/-- Witness of claim C16: the pixel `(1, 0)` of a white raster of 2 x 2 pixels. -/
theorem C16_set_pixel_layout_witness :
    well_formed (white 2 2) ∧ 1 < (white 2 2).tga_width ∧ 0 < (white 2 2).tga_height ∧
    (white 2 2).tga_width < 65536 ∧ (white 2 2).tga_height < 65536 ∧
    (tga_set_pixel (white 2 2) 1 0 1 2 3).tga_data
      = [255, 255, 255, 255, 255, 255, 255, 255, 255, 3, 2, 1] ∧
    (set_pixel_stores (white 2 2) 1 0 1 2 3 =
      [((((white 2 2).tga_height - 1 - 0) * (white 2 2).tga_width + 1) * 3, 3),
       ((((white 2 2).tga_height - 1 - 0) * (white 2 2).tga_width + 1) * 3 + 1, 2),
       ((((white 2 2).tga_height - 1 - 0) * (white 2 2).tga_width + 1) * 3 + 2, 1)] ∧
    (((white 2 2).tga_height - 1 - 0) * (white 2 2).tga_width + 1) * 3 + 2 < (white 2 2).tga_width * (white 2 2).tga_height * 3 ∧
    (tga_set_pixel (white 2 2) 1 0 1 2 3).tga_data[(((white 2 2).tga_height - 1 - 0) * (white 2 2).tga_width + 1) * 3]?
      = some 3 ∧
    (tga_set_pixel (white 2 2) 1 0 1 2 3).tga_data[(((white 2 2).tga_height - 1 - 0) * (white 2 2).tga_width + 1) * 3 + 1]?
      = some 2 ∧
    (tga_set_pixel (white 2 2) 1 0 1 2 3).tga_data[(((white 2 2).tga_height - 1 - 0) * (white 2 2).tga_width + 1) * 3 + 2]?
      = some 1 ∧
    (∀ i, i ≠ (((white 2 2).tga_height - 1 - 0) * (white 2 2).tga_width + 1) * 3 →
      i ≠ (((white 2 2).tga_height - 1 - 0) * (white 2 2).tga_width + 1) * 3 + 1 →
      i ≠ (((white 2 2).tga_height - 1 - 0) * (white 2 2).tga_width + 1) * 3 + 2 →
      (tga_set_pixel (white 2 2) 1 0 1 2 3).tga_data[i]? = (white 2 2).tga_data[i]?) ∧
    (tga_set_pixel (white 2 2) 1 0 1 2 3).tga_data.length = (white 2 2).tga_data.length ∧
    (tga_set_pixel (white 2 2) 1 0 1 2 3).tga_width = (white 2 2).tga_width ∧
    (tga_set_pixel (white 2 2) 1 0 1 2 3).tga_height = (white 2 2).tga_height ∧
    (0 = (white 2 2).tga_height - 1 → (((white 2 2).tga_height - 1 - 0) * (white 2 2).tga_width + 1) * 3 < 3 * (white 2 2).tga_width)) :=
  ⟨by decide, by decide, by decide, by decide, by decide, by decide,
    C16_set_pixel_layout (white 2 2) 1 0 1 2 3 (by decide) (by decide) (by decide) (by decide)
      (by decide)⟩

theorem write_word_eq (fp : List uint8_t) (word : Nat) (h : word < 65536) :
    tga_write_word fp word = fp ++ [to_uint8 (word % 256), to_uint8 (word / 256)] := by
  have e1 : word % 65536 = word := Nat.mod_eq_of_lt h
  have e2 : word &&& 255 = word % 256 := Nat.and_pow_two_sub_one_eq_mod word 8
  have e3 : word >>> 8 = word / 256 := by rw [Nat.shiftRight_eq_div_pow]
  simp only [tga_write_word, tga_write_byte, e1, e2, e3, List.append_assoc, List.singleton_append]

/-- Claim C17: for a raster of `width` x `height` pixels as `tga_init` leaves
it (sizes of type `uint16_t`, a buffer of `width*height*3` octets, a number the
`int` size expression can hold), the octets `tga_save` writes to the file it
opened are the 18 octets of the header
`0, 0, 2, 0, 0, 0, 0, 0, 0, 0, 0, 0, width low, width high, height low, height high, 24, 0`,
then the `width*height*3` octets of the raster in buffer order, then 8 zero
octets, then the 18 octets `TRUEVISION-XFILE.` with the zero octet behind it;
`44 + 3*width*height` octets in all. -/
theorem C17_tga_save_bytes (t : Tga)
    (hW : t.tga_width < 65536) (hH : t.tga_height < 65536) (hwf : well_formed t)
    (hsize : t.tga_width * t.tga_height * 3 < 2 ^ 31) :
    tga_save true t = .ok (some
      ([0, 0, 2, 0, 0, 0, 0, 0, 0, 0, 0, 0,
        to_uint8 (t.tga_width % 256), to_uint8 (t.tga_width / 256),
        to_uint8 (t.tga_height % 256), to_uint8 (t.tga_height / 256), 24, 0]
        ++ t.tga_data ++ [0, 0, 0, 0, 0, 0, 0, 0] ++ tga_signature)) ∧
    ([0, 0, 2, 0, 0, 0, 0, 0, 0, 0, 0, 0,
        to_uint8 (t.tga_width % 256), to_uint8 (t.tga_width / 256),
        to_uint8 (t.tga_height % 256), to_uint8 (t.tga_height / 256), 24, 0]
        ++ t.tga_data ++ [0, 0, 0, 0, 0, 0, 0, 0] ++ tga_signature).length
      = 44 + 3 * t.tga_width * t.tga_height ∧
    (to_uint8 (t.tga_width % 256)).val + 256 * (to_uint8 (t.tga_width / 256)).val = t.tga_width ∧
    (to_uint8 (t.tga_height % 256)).val + 256 * (to_uint8 (t.tga_height / 256)).val
      = t.tga_height := by
  have hlen : t.tga_data.length = t.tga_width * t.tga_height * 3 := hwf
  refine ⟨?_, ?_, ?_, ?_⟩
  · have h1 : ¬ (2 ^ 31 ≤ t.tga_width * t.tga_height * 3) := by omega
    have h2 : ¬ (t.tga_data.length < t.tga_width * t.tga_height * 3) := by omega
    have h3 : t.tga_data.take (t.tga_width * t.tga_height * 3) = t.tga_data := by
      rw [← hlen]; exact List.take_length _
    simp only [tga_save, if_true, write_word_eq _ _ hW, write_word_eq _ _ hH,
      write_word_eq _ 0 (by decide), tga_write_byte, h1, h2, h3, bind, Except.bind, pure,
      Except.pure, if_false, List.nil_append, List.append_assoc, List.cons_append,
      List.singleton_append]
    rfl
  · simp only [List.length_append, List.length_cons, List.length_nil, tga_signature, hlen]
    ring_nf
  · simp only [to_uint8]
    omega
  · simp only [to_uint8]
    omega

/-- Witness of claim C17: a white raster of 1 x 1 pixel. -/
theorem C17_tga_save_bytes_witness :
    (white 1 1).tga_width < 65536 ∧ (white 1 1).tga_height < 65536 ∧ well_formed (white 1 1) ∧
    (white 1 1).tga_width * (white 1 1).tga_height * 3 < 2 ^ 31 ∧
    tga_save true (white 1 1) = .ok (some
      [0, 0, 2, 0, 0, 0, 0, 0, 0, 0, 0, 0, 1, 0, 1, 0, 24, 0, 255, 255, 255,
       0, 0, 0, 0, 0, 0, 0, 0,
       84, 82, 85, 69, 86, 73, 83, 73, 79, 78, 45, 88, 70, 73, 76, 69, 46, 0]) ∧
    (tga_save true (white 1 1) = .ok (some
      ([0, 0, 2, 0, 0, 0, 0, 0, 0, 0, 0, 0,
        to_uint8 ((white 1 1).tga_width % 256), to_uint8 ((white 1 1).tga_width / 256),
        to_uint8 ((white 1 1).tga_height % 256), to_uint8 ((white 1 1).tga_height / 256), 24, 0]
        ++ (white 1 1).tga_data ++ [0, 0, 0, 0, 0, 0, 0, 0] ++ tga_signature)) ∧
    ([0, 0, 2, 0, 0, 0, 0, 0, 0, 0, 0, 0,
        to_uint8 ((white 1 1).tga_width % 256), to_uint8 ((white 1 1).tga_width / 256),
        to_uint8 ((white 1 1).tga_height % 256), to_uint8 ((white 1 1).tga_height / 256), 24, 0]
        ++ (white 1 1).tga_data ++ [0, 0, 0, 0, 0, 0, 0, 0] ++ tga_signature).length
      = 44 + 3 * (white 1 1).tga_width * (white 1 1).tga_height ∧
    (to_uint8 ((white 1 1).tga_width % 256)).val
      + 256 * (to_uint8 ((white 1 1).tga_width / 256)).val = (white 1 1).tga_width ∧
    (to_uint8 ((white 1 1).tga_height % 256)).val
      + 256 * (to_uint8 ((white 1 1).tga_height / 256)).val = (white 1 1).tga_height) :=
  ⟨by decide, by decide, by decide, by decide, by decide,
    C17_tga_save_bytes (white 1 1) (by decide) (by decide) (by decide) (by decide)⟩

theorem skip_loop_fst (is_hints : Bool) (a : Nat) :
    ∀ (s : tga_fd_t × Tga), (skip_loop is_hints a s).1 = tga_fd_inc^[a] s.1 := by
  induction a with
  | zero => intro s; rfl
  | succ a ih =>
    intro s
    obtain ⟨f, t⟩ := s
    simp only [skip_loop, Function.iterate_succ, Function.comp]
    rw [ih]

theorem paint_loop_fst (b : Nat) :
    ∀ (s : tga_fd_t × Tga), (paint_loop b s).1 = tga_fd_inc^[b] s.1 := by
  induction b with
  | zero => intro s; rfl
  | succ b ih =>
    intro s
    obtain ⟨f, t⟩ := s
    simp only [paint_loop, Function.iterate_succ, Function.comp]
    rw [ih]

theorem apply_run_fst (is_hints : Bool) (a b : Nat) (s : tga_fd_t × Tga) :
    (apply_run is_hints a b s).1 = tga_fd_inc^[a + b] s.1 := by
  unfold apply_run
  rw [paint_loop_fst, skip_loop_fst, Nat.add_comm a b, Function.iterate_add_apply]

theorem inc_iterate_set_cursor (c : tga_fd_t) (n : Nat) :
    ∀ f : tga_fd_t, tga_fd_inc^[n] (set_cursor f c) = set_cursor (tga_fd_inc^[n] f) c := by
  induction n with
  | zero => intro f; rfl
  | succ n ih =>
    intro f
    simp only [Function.iterate_succ, Function.comp]
    rw [inc_set_cursor, ih]

theorem inc_iterate_calls (n : Nat) :
    ∀ f : tga_fd_t, (tga_fd_inc^[n] f).inc_calls = f.inc_calls + n := by
  induction n with
  | zero => intro f; rfl
  | succ n ih =>
    intro f
    simp only [Function.iterate_succ, Function.comp]
    rw [ih]
    have : (tga_fd_inc f).inc_calls = f.inc_calls + 1 := by
      unfold tga_fd_inc
      simp only
      split <;> rfl
    omega

theorem get_unsigned_bits_frame_ex (mem : List uint8_t) (f f' : tga_fd_t) (cnt v : Nat)
    (h : tga_fd_get_unsigned_bits mem f cnt = .ok (v, f')) : ∃ c, f' = set_cursor f c :=
  ⟨f', get_unsigned_bits_frame mem f f' cnt v h⟩

/-- The `do ... while` loop changes the decoder state by calls of `tga_fd_inc`
and by moving the read cursor, in no other way. -/
theorem repeat_loop_fst (mem : List uint8_t) (is_hints : Bool) (a b : Nat) :
    ∀ (fuel : Nat) (s s' : tga_fd_t × Tga), repeat_loop mem is_hints a b fuel s = .ok s' →
      ∃ n c, s'.1 = set_cursor (tga_fd_inc^[n] s.1) c := by
  intro fuel
  induction fuel with
  | zero => intro s s' h; simp [repeat_loop] at h
  | succ fuel ih =>
    intro s s' h
    rw [repeat_loop_succ] at h
    cases hr : tga_fd_get_unsigned_bits mem (apply_run is_hints a b s).1 1 with
    | error e => rw [hr] at h; simp at h
    | ok r =>
      obtain ⟨v, f1⟩ := r
      rw [hr] at h
      simp only at h
      obtain ⟨c1, hc1⟩ := get_unsigned_bits_frame_ex mem _ f1 1 v hr
      rw [apply_run_fst] at hc1
      split at h
      · obtain ⟨n, c, hn⟩ := ih _ _ h
        refine ⟨n + (a + b), c, ?_⟩
        rw [hn]
        simp only
        rw [hc1, inc_iterate_set_cursor, set_cursor_set_cursor, ← Function.iterate_add_apply]
      · simp only [Except.ok.injEq] at h
        subst h
        exact ⟨a + b, c1, hc1⟩

/-- The `for(;;)` loop changes the decoder state by calls of `tga_fd_inc` and by
moving the read cursor, in no other way. -/
theorem glyph_loop_fst (font : Font) (mem : List uint8_t) (is_hints : Bool) :
    ∀ (fuel : Nat) (s s' : tga_fd_t × Tga), glyph_loop font mem is_hints fuel s = .ok s' →
      ∃ n c, s'.1 = set_cursor (tga_fd_inc^[n] s.1) c := by
  intro fuel
  induction fuel with
  | zero => intro s s' h; simp [glyph_loop] at h
  | succ fuel ih =>
    intro s s' h
    obtain ⟨f, t⟩ := s
    rw [glyph_loop_succ] at h
    cases hr1 : tga_fd_get_unsigned_bits mem f font.bits_per_0 with
    | error e => rw [hr1] at h; simp at h
    | ok r1 =>
      obtain ⟨a, f1⟩ := r1
      rw [hr1] at h
      simp only at h
      obtain ⟨c1, e1⟩ := get_unsigned_bits_frame_ex mem f f1 _ a hr1
      cases hr2 : tga_fd_get_unsigned_bits mem f1 font.bits_per_1 with
      | error e => rw [hr2] at h; simp at h
      | ok r2 =>
        obtain ⟨b, f2⟩ := r2
        rw [hr2] at h
        simp only at h
        obtain ⟨c2, e2⟩ := get_unsigned_bits_frame_ex mem f1 f2 _ b hr2
        cases hr3 : repeat_loop mem is_hints a b (fuel + 1) (f2, t) with
        | error e => rw [hr3] at h; simp at h
        | ok s1 =>
          rw [hr3] at h
          simp only at h
          obtain ⟨n1, c3, hn1⟩ := repeat_loop_fst mem is_hints a b _ _ s1 hr3
          have hs1 : s1.1 = set_cursor (tga_fd_inc^[n1] f) c3 := by
            rw [hn1]
            simp only
            rw [e2, e1, set_cursor_set_cursor, inc_iterate_set_cursor, set_cursor_set_cursor]
          split at h
          · simp only [Except.ok.injEq] at h
            subst h
            exact ⟨n1, c3, hs1⟩
          · obtain ⟨n, c, hn⟩ := ih s1 s' h
            refine ⟨n + n1, c, ?_⟩
            rw [hn, hs1, inc_iterate_set_cursor, set_cursor_set_cursor,
              ← Function.iterate_add_apply]

/-- One call of `tga_fd_inc` with `local_x` below the width. -/
theorem inc_step (f : tga_fd_t) (hwu : f.glyph_width < UINT) (hx : f.x < f.glyph_width) :
    (tga_fd_inc f).glyph_width = f.glyph_width ∧
    (tga_fd_inc f).x < f.glyph_width ∧
    (((tga_fd_inc f).x = f.x + 1 ∧ (tga_fd_inc f).y = f.y) ∨
     ((tga_fd_inc f).x = 0 ∧ (tga_fd_inc f).y = (f.y + 1) % UINT ∧
        (f.y + 1 < UINT → (tga_fd_inc f).y = f.y + 1))) := by
  have hxu : (f.x + 1) % UINT = f.x + 1 := Nat.mod_eq_of_lt (by omega)
  unfold tga_fd_inc
  simp only [hxu]
  by_cases hwrap : f.x + 1 = f.glyph_width
  · rw [if_pos hwrap]
    refine ⟨rfl, by simp only; omega, Or.inr ⟨rfl, rfl, ?_⟩⟩
    intro hy
    exact Nat.mod_eq_of_lt hy
  · rw [if_neg hwrap]
    exact ⟨rfl, by simp only; omega, Or.inl ⟨rfl, rfl⟩⟩

/-- From the local cursor `(0, 0)` on, `local_x` stays below the width through
any number of calls of `tga_fd_inc`. -/
theorem inc_iterate_lt (f : tga_fd_t) (hwu : f.glyph_width < UINT) (hx : f.x < f.glyph_width) :
    ∀ k, (tga_fd_inc^[k] f).glyph_width = f.glyph_width ∧
      (tga_fd_inc^[k] f).x < f.glyph_width := by
  intro k
  induction k with
  | zero => exact ⟨rfl, hx⟩
  | succ k ih =>
    rw [Function.iterate_succ_apply']
    obtain ⟨h1, h2⟩ := ih
    obtain ⟨g1, g2, _⟩ := inc_step (tga_fd_inc^[k] f) (by rw [h1]; exact hwu) (by rw [h1]; exact h2)
    exact ⟨g1.trans h1, by rw [← h1]; exact g2⟩

/-- Claim C18: the run-length loop of `tga_fd_decode` is entered, for a glyph of
positive width, with the local cursor `(0, 0)`; from there on, whatever the
number `k` of calls of `tga_fd_inc` made so far, `local_x < glyph_width` holds
before the next call and after it, and the call either increments `local_x` and
leaves `local_y` as it is, or sets `local_x` to 0 and increments `local_y` by 1
(an `unsigned` increment: by exactly 1 unless `local_y` is `2^32 - 1`).  The
loop changes `local_x` and `local_y` in no other way: a decode that returns has
brought the decoder state from the entry state by calls of `tga_fd_inc` and
moves of the read cursor only, the two `for` loops are iterated `tga_fd_inc` on
the decoder state, and a read leaves `local_x` and `local_y` as they are. -/
theorem C18_local_cursor (font : Font) (mem : List uint8_t) (f : tga_fd_t) (t : Tga)
    (g : Nat) (is_hints : Bool) (hd : GlyphHeader)
    (hhd : glyph_header font mem g = .ok hd) (hw : 0 < hd.glyph_width) :
    (loop_start f hd).x = 0 ∧ (loop_start f hd).y = 0 ∧
    (∀ k, (tga_fd_inc^[k] (loop_start f hd)).x < hd.glyph_width ∧
      (tga_fd_inc (tga_fd_inc^[k] (loop_start f hd))).x < hd.glyph_width ∧
      (((tga_fd_inc (tga_fd_inc^[k] (loop_start f hd))).x
            = (tga_fd_inc^[k] (loop_start f hd)).x + 1 ∧
          (tga_fd_inc (tga_fd_inc^[k] (loop_start f hd))).y
            = (tga_fd_inc^[k] (loop_start f hd)).y) ∨
       ((tga_fd_inc (tga_fd_inc^[k] (loop_start f hd))).x = 0 ∧
          (tga_fd_inc (tga_fd_inc^[k] (loop_start f hd))).y
            = ((tga_fd_inc^[k] (loop_start f hd)).y + 1) % UINT ∧
          ((tga_fd_inc^[k] (loop_start f hd)).y + 1 < UINT →
            (tga_fd_inc (tga_fd_inc^[k] (loop_start f hd))).y
              = (tga_fd_inc^[k] (loop_start f hd)).y + 1)))) ∧
    (∀ (fuel r : Nat) (f' : tga_fd_t) (t' : Tga),
      tga_fd_decode font mem fuel f t g is_hints = .ok (r, f', t') →
      ∃ n c, f' = set_cursor (tga_fd_inc^[n] (loop_start f hd)) c ∧
        f'.inc_calls = f.inc_calls + n) ∧
    (∀ (h : Bool) (a : Nat) (s : tga_fd_t × Tga), (skip_loop h a s).1 = tga_fd_inc^[a] s.1) ∧
    (∀ (b : Nat) (s : tga_fd_t × Tga), (paint_loop b s).1 = tga_fd_inc^[b] s.1) ∧
    (∀ (f1 f2 : tga_fd_t) (cnt v : Nat), tga_fd_get_unsigned_bits mem f1 cnt = .ok (v, f2) →
      f2.x = f1.x ∧ f2.y = f1.y) := by
  obtain ⟨hwu, _⟩ := glyph_header_lt_uint font mem g hd hhd
  have hL : (loop_start f hd).glyph_width = hd.glyph_width := rfl
  have hx0 : (loop_start f hd).x = 0 := rfl
  have hlt := inc_iterate_lt (loop_start f hd) (by rw [hL]; exact hwu) (by rw [hL, hx0]; exact hw)
  refine ⟨rfl, rfl, ?_, ?_, skip_loop_fst, paint_loop_fst, ?_⟩
  · intro k
    obtain ⟨h1, h2⟩ := hlt k
    rw [hL] at h1 h2
    obtain ⟨_, g2, g3⟩ := inc_step (tga_fd_inc^[k] (loop_start f hd)) (by rw [h1]; exact hwu)
      (by rw [h1]; exact h2)
    rw [h1] at g2
    exact ⟨h2, g2, g3⟩
  · intro fuel r f' t' h
    rw [decode_eq, hhd] at h
    simp only [gt_iff_lt, hw, if_true] at h
    cases hl : glyph_loop font mem is_hints fuel (loop_start f hd, t) with
    | error e => rw [hl] at h; simp [Except.map] at h
    | ok s =>
      rw [hl] at h
      simp only [Except.map, Except.ok.injEq, Prod.mk.injEq] at h
      obtain ⟨n, c, hn⟩ := glyph_loop_fst font mem is_hints fuel _ s hl
      refine ⟨n, c, ?_, ?_⟩
      · rw [← h.2.1]; exact hn
      · rw [← h.2.1, hn]
        show (tga_fd_inc^[n] (loop_start f hd)).inc_calls = f.inc_calls + n
        rw [inc_iterate_calls]
        rfl
  · intro f1 f2 cnt v hr
    obtain ⟨c, hc⟩ := get_unsigned_bits_frame_ex mem f1 f2 cnt v hr
    rw [hc]
    exact ⟨rfl, rfl⟩

/-- Witness of claim C18: the 2 x 2 glyph of `c10_mem`. -/
theorem C18_local_cursor_witness :
    glyph_header demo_font c10_mem 0 = .ok c10_header ∧ 0 < c10_header.glyph_width ∧
    (loop_start c10_state c10_header).x = 0 ∧ (loop_start c10_state c10_header).y = 0 ∧
    (∀ k, (tga_fd_inc^[k] (loop_start c10_state c10_header)).x < c10_header.glyph_width ∧
      (tga_fd_inc (tga_fd_inc^[k] (loop_start c10_state c10_header))).x < c10_header.glyph_width ∧
      (((tga_fd_inc (tga_fd_inc^[k] (loop_start c10_state c10_header))).x
            = (tga_fd_inc^[k] (loop_start c10_state c10_header)).x + 1 ∧
          (tga_fd_inc (tga_fd_inc^[k] (loop_start c10_state c10_header))).y
            = (tga_fd_inc^[k] (loop_start c10_state c10_header)).y) ∨
       ((tga_fd_inc (tga_fd_inc^[k] (loop_start c10_state c10_header))).x = 0 ∧
          (tga_fd_inc (tga_fd_inc^[k] (loop_start c10_state c10_header))).y
            = ((tga_fd_inc^[k] (loop_start c10_state c10_header)).y + 1) % UINT ∧
          ((tga_fd_inc^[k] (loop_start c10_state c10_header)).y + 1 < UINT →
            (tga_fd_inc (tga_fd_inc^[k] (loop_start c10_state c10_header))).y
              = (tga_fd_inc^[k] (loop_start c10_state c10_header)).y + 1)))) ∧
    (∀ (fuel r : Nat) (f' : tga_fd_t) (t' : Tga),
      tga_fd_decode demo_font c10_mem fuel c10_state (white 4 4) 0 false = .ok (r, f', t') →
      ∃ n c, f' = set_cursor (tga_fd_inc^[n] (loop_start c10_state c10_header)) c ∧
        f'.inc_calls = c10_state.inc_calls + n) ∧
    (∀ (h : Bool) (a : Nat) (s : tga_fd_t × Tga), (skip_loop h a s).1 = tga_fd_inc^[a] s.1) ∧
    (∀ (b : Nat) (s : tga_fd_t × Tga), (paint_loop b s).1 = tga_fd_inc^[b] s.1) ∧
    (∀ (f1 f2 : tga_fd_t) (cnt v : Nat), tga_fd_get_unsigned_bits c10_mem f1 cnt = .ok (v, f2) →
      f2.x = f1.x ∧ f2.y = f1.y) :=
  ⟨by decide, by decide,
    C18_local_cursor demo_font c10_mem c10_state (white 4 4) 0 false c10_header
      (by decide) (by decide)⟩

/-- Claim C20 as stated fails: the glyph of `c10_mem`, drawn at the origin
`(65537, 3)` on a raster of 4 x 4 pixels, has the target `X = 65537`, not below
the width 4, for its cell `(0, 0)`; the write is no no-op: narrowed to the
16-bit parameter of `tga_set_pixel` the coordinate is 1, and the pixels
`(1, 1)` to `(2, 2)` of the raster turn black. -/
theorem C20_narrowing_brings_cell_inside :
    tga_fd_decode demo_font c10_mem 1 c20_state (white 4 4) 0 false
      = .ok (3, c20_final, c20_raster) ∧
    (c20_final.target_x + 0) % UINT = 65537 ∧ 65537 ≥ (white 4 4).tga_width ∧
    (c20_final.target_y + 0) % UINT = 1 ∧
    get_pixel (white 4 4) 1 1 = some (255, 255, 255) ∧
    get_pixel c20_raster 1 1 = some (0, 0, 0) ∧
    tga_fd_draw_pixel { c20_final with x := 0, y := 0 } (white 4 4) ≠ white 4 4 := by
  decide

/-- Claim C20, amended: the pixel write of `tga_fd_draw_pixel` (and the write of
the same coordinates with any other colour, as the skip loop makes it for
`is_hints`) changes the raster at most at the pixel
`(X mod 2^16, Y mod 2^16)`, with `X = target_x + local_x` and
`Y = target_y + local_y` in the decoder's `unsigned` arithmetic, and is a no-op
whenever `X mod 2^16 >= width` or `Y mod 2^16 >= height`; for `X` and `Y` below
`2^16` that is: whenever `X >= width` or `Y >= height`. -/
theorem C20_write_coordinates (f : tga_fd_t) (t : Tga) (r g b : uint8_t) :
    tga_fd_draw_pixel f t =
      tga_set_pixel t ((f.target_x + f.x) % UINT) ((f.target_y + f.y) % UINT) 0 0 0 ∧
    (∀ px py, ¬ (px = ((f.target_x + f.x) % UINT) % 65536 ∧
                 py = ((f.target_y + f.y) % UINT) % 65536) →
      get_pixel (tga_set_pixel t ((f.target_x + f.x) % UINT) ((f.target_y + f.y) % UINT) r g b)
        px py = get_pixel t px py) ∧
    ((((f.target_x + f.x) % UINT) % 65536 ≥ t.tga_width ∨
      ((f.target_y + f.y) % UINT) % 65536 ≥ t.tga_height) →
      tga_set_pixel t ((f.target_x + f.x) % UINT) ((f.target_y + f.y) % UINT) r g b = t) ∧
    ((f.target_x + f.x) % UINT < 65536 → (f.target_y + f.y) % UINT < 65536 →
      ((f.target_x + f.x) % UINT ≥ t.tga_width ∨ (f.target_y + f.y) % UINT ≥ t.tga_height) →
      tga_set_pixel t ((f.target_x + f.x) % UINT) ((f.target_y + f.y) % UINT) r g b = t) := by
  have hclip : ∀ X Y : Nat, (X % 65536 ≥ t.tga_width ∨ Y % 65536 ≥ t.tga_height) →
      tga_set_pixel t X Y r g b = t := by
    intro X Y h
    unfold tga_set_pixel
    simp only
    by_cases h1 : Y % 65536 ≥ t.tga_height
    · simp [h1]
    · have h2 : X % 65536 ≥ t.tga_width := by
        rcases h with h | h
        · exact h
        · exact absurd h h1
      simp [h1, h2]
  refine ⟨rfl, ?_, hclip _ _, ?_⟩
  · intro px py hne
    exact get_pixel_set_pixel_ne t _ _ r g b px py hne
  · intro hX hY h
    apply hclip
    rw [Nat.mod_eq_of_lt hX, Nat.mod_eq_of_lt hY]
    exact h

/-- With a bit offset of at most 7 and at most 8 bits asked for, a read either
succeeds, moving the cursor by `cnt` bits to a position inside the blob, or fails
on a byte behind the blob's end. -/
theorem get_unsigned_bits_total (mem : List uint8_t) (f : tga_fd_t) (cnt : Nat)
    (hb : f.decode_bit_pos ≤ 7) (hc : cnt ≤ 8) :
    (∃ v f', tga_fd_get_unsigned_bits mem f cnt = .ok (v, f') ∧
      bit_index f' = bit_index f + cnt ∧ f'.decode_bit_pos ≤ 7 ∧
      bit_index f' < 8 * mem.length) ∨
    (∃ i, mem.length ≤ i ∧ tga_fd_get_unsigned_bits mem f cnt = .error (.out_of_bounds i)) := by
  cases hcur : mem[f.decode_ptr]? with
  | none =>
    right
    exact ⟨f.decode_ptr, List.getElem?_eq_none_iff.mp hcur,
      get_unsigned_bits_absent mem f cnt hcur⟩
  | some cur =>
    have hp : f.decode_ptr < mem.length := by
      by_contra hn
      rw [List.getElem?_eq_none_iff.mpr (Nat.le_of_not_lt hn)] at hcur
      cases hcur
    by_cases hlt : f.decode_bit_pos + cnt < 8
    · left
      refine ⟨_, _, get_unsigned_bits_within mem f cnt cur hcur hlt, ?_, ?_, ?_⟩
      · simp only [bit_index]; omega
      · simp only; omega
      · simp only [bit_index]; omega
    · have hge : 8 ≤ f.decode_bit_pos + cnt := Nat.le_of_not_lt hlt
      cases hnext : mem[f.decode_ptr + 1]? with
      | none =>
        right
        exact ⟨f.decode_ptr + 1, List.getElem?_eq_none_iff.mp hnext,
          get_unsigned_bits_cross_fault mem f cnt cur hcur hnext hb hc hge⟩
      | some next =>
        have hp1 : f.decode_ptr + 1 < mem.length := by
          by_contra hn
          rw [List.getElem?_eq_none_iff.mpr (Nat.le_of_not_lt hn)] at hnext
          cases hnext
        left
        refine ⟨_, _, get_unsigned_bits_cross mem f cnt cur next hcur hnext hb hc hge, ?_, ?_, ?_⟩
        · simp only [bit_index]; omega
        · simp only; omega
        · simp only [bit_index]; omega

/-- The signed read succeeds or fails as the unsigned read does. -/
theorem get_signed_bits_total (mem : List uint8_t) (f : tga_fd_t) (cnt : Nat)
    (hb : f.decode_bit_pos ≤ 7) (hc : cnt ≤ 8) :
    (∃ d f', tga_fd_get_signed_bits mem f cnt = .ok (d, f') ∧
      bit_index f' = bit_index f + cnt ∧ f'.decode_bit_pos ≤ 7 ∧
      bit_index f' < 8 * mem.length) ∨
    (∃ i, mem.length ≤ i ∧ tga_fd_get_signed_bits mem f cnt = .error (.out_of_bounds i)) := by
  rcases get_unsigned_bits_total mem f cnt hb hc with ⟨v, f', h, h1, h2, h3⟩ | ⟨i, hi, h⟩
  · left
    exact ⟨_, f', get_signed_bits_of_unsigned mem f f' cnt v (by omega) h, h1, h2, h3⟩
  · right
    refine ⟨i, hi, ?_⟩
    simp only [tga_fd_get_signed_bits, bind, Except.bind, h]

/-- One unfolding of the counted `do ... while` loop. -/
theorem repeat_loop_counted_succ (mem : List uint8_t) (is_hints : Bool) (a b fuel : Nat)
    (s : tga_fd_t × Tga) :
    repeat_loop_counted mem is_hints a b (fuel + 1) s =
      match tga_fd_get_unsigned_bits mem (apply_run is_hints a b s).1 1 with
      | .error e => (.error e, 1)
      | .ok (c, f) =>
        if c ≠ 0 then
          ((repeat_loop_counted mem is_hints a b fuel (f, (apply_run is_hints a b s).2)).1,
           (repeat_loop_counted mem is_hints a b fuel (f, (apply_run is_hints a b s).2)).2 + 1)
        else (.ok (f, (apply_run is_hints a b s).2), 1) := by
  simp only [repeat_loop_counted, apply_run]

/-- The counted `do ... while` loop has the outcome of `repeat_loop`. -/
theorem repeat_loop_counted_fst (mem : List uint8_t) (is_hints : Bool) (a b : Nat) :
    ∀ (fuel : Nat) (s : tga_fd_t × Tga),
      (repeat_loop_counted mem is_hints a b fuel s).1 = repeat_loop mem is_hints a b fuel s := by
  intro fuel
  induction fuel with
  | zero => intro s; rfl
  | succ fuel ih =>
    intro s
    rw [repeat_loop_counted_succ, repeat_loop_succ]
    cases tga_fd_get_unsigned_bits mem (apply_run is_hints a b s).1 1 with
    | error e => rfl
    | ok r =>
      obtain ⟨c, f⟩ := r
      by_cases hc : c ≠ 0
      · simp only [if_pos hc]
        exact ih _
      · simp only [if_neg hc]

/-- One unfolding of the counted `for(;;)` loop. -/
theorem glyph_loop_counted_succ (font : Font) (mem : List uint8_t) (is_hints : Bool) (fuel : Nat)
    (f : tga_fd_t) (t : Tga) :
    glyph_loop_counted font mem is_hints (fuel + 1) (f, t) =
      match tga_fd_get_unsigned_bits mem f font.bits_per_0 with
      | .error e => (.error e, 0)
      | .ok (a, f1) =>
        match tga_fd_get_unsigned_bits mem f1 font.bits_per_1 with
        | .error e => (.error e, 0)
        | .ok (b, f2) =>
          match (repeat_loop_counted mem is_hints a b (fuel + 1) (f2, t)).1 with
          | .error e => (.error e, (repeat_loop_counted mem is_hints a b (fuel + 1) (f2, t)).2)
          | .ok s =>
            if s.1.y ≥ s.1.glyph_height then
              (.ok s, (repeat_loop_counted mem is_hints a b (fuel + 1) (f2, t)).2)
            else
              ((glyph_loop_counted font mem is_hints fuel s).1,
               (repeat_loop_counted mem is_hints a b (fuel + 1) (f2, t)).2 +
                 (glyph_loop_counted font mem is_hints fuel s).2) := by
  rw [glyph_loop_counted]
  cases tga_fd_get_unsigned_bits mem f font.bits_per_0 with
  | error e => rfl
  | ok r1 =>
    obtain ⟨a, f1⟩ := r1
    simp only
    cases tga_fd_get_unsigned_bits mem f1 font.bits_per_1 with
    | error e => rfl
    | ok r2 =>
      obtain ⟨b, f2⟩ := r2
      simp only
      cases hr : repeat_loop_counted mem is_hints a b (fuel + 1) (f2, t) with
      | mk r n =>
        cases r with
        | error e => rfl
        | ok s => rfl

/-- The counted `for(;;)` loop has the outcome of `glyph_loop`. -/
theorem glyph_loop_counted_fst (font : Font) (mem : List uint8_t) (is_hints : Bool) :
    ∀ (fuel : Nat) (s : tga_fd_t × Tga),
      (glyph_loop_counted font mem is_hints fuel s).1 = glyph_loop font mem is_hints fuel s := by
  intro fuel
  induction fuel with
  | zero => intro s; rfl
  | succ fuel ih =>
    intro s
    obtain ⟨f, t⟩ := s
    rw [glyph_loop_counted_succ, glyph_loop_succ]
    cases tga_fd_get_unsigned_bits mem f font.bits_per_0 with
    | error e => rfl
    | ok r1 =>
      obtain ⟨a, f1⟩ := r1
      simp only
      cases tga_fd_get_unsigned_bits mem f1 font.bits_per_1 with
      | error e => rfl
      | ok r2 =>
        obtain ⟨b, f2⟩ := r2
        simp only
        rw [repeat_loop_counted_fst]
        cases repeat_loop mem is_hints a b (fuel + 1) (f2, t) with
        | error e => rfl
        | ok s =>
          simp only
          by_cases hy : s.1.y ≥ s.1.glyph_height
          · simp only [if_pos hy]
          · simp only [if_neg hy]
            exact ih _

/-- Passes of the counted `do ... while` loop: at most one per unit of fuel and
per bit left in the blob, fuel for the bits left is enough, and the loop fails
only on a read behind the blob's end. -/
theorem repeat_loop_counted_bound (mem : List uint8_t) (is_hints : Bool) (a b : Nat) :
    ∀ (fuel : Nat) (s : tga_fd_t × Tga),
      s.1.decode_bit_pos ≤ 7 → bit_index s.1 < 8 * mem.length →
      (repeat_loop_counted mem is_hints a b fuel s).2 ≤ 8 * mem.length - bit_index s.1 ∧
      (8 * mem.length ≤ bit_index s.1 + fuel →
        (repeat_loop_counted mem is_hints a b fuel s).1 ≠ .error .fuel) ∧
      (∀ e, (repeat_loop_counted mem is_hints a b fuel s).1 = .error e →
        e = .fuel ∨ ∃ i, mem.length ≤ i ∧ e = .out_of_bounds i) ∧
      (∀ s', (repeat_loop_counted mem is_hints a b fuel s).1 = .ok s' →
        s'.1.decode_bit_pos ≤ 7 ∧ bit_index s'.1 < 8 * mem.length) := by
  intro fuel
  induction fuel with
  | zero =>
    intro s hb hi
    refine ⟨Nat.zero_le _, ?_, ?_, ?_⟩
    · intro h; omega
    · intro e he; left
      simp only [repeat_loop_counted] at he
      cases he; rfl
    · intro s' hs'
      simp only [repeat_loop_counted] at hs'
      cases hs'
  | succ fuel ih =>
    intro s hb hi
    rw [repeat_loop_counted_succ]
    have hcur := apply_run_cursor is_hints a b s
    have hb1 : (apply_run is_hints a b s).1.decode_bit_pos ≤ 7 := by rw [hcur.2]; exact hb
    have hi1 : bit_index (apply_run is_hints a b s).1 = bit_index s.1 := by
      simp only [bit_index, hcur.1, hcur.2]
    rcases get_unsigned_bits_total mem (apply_run is_hints a b s).1 1 hb1 (by omega) with
      ⟨c, f1, h, h1, h2, h3⟩ | ⟨i, hlen, h⟩
    · rw [h]
      simp only
      rw [hi1] at h1
      by_cases hc : c ≠ 0
      · simp only [if_pos hc]
        obtain ⟨k1, k2, k3, k4⟩ := ih (f1, (apply_run is_hints a b s).2) h2 h3
        simp only at k1 k2
        refine ⟨by omega, ?_, k3, k4⟩
        intro hf
        exact k2 (by omega)
      · simp only [if_neg hc]
        refine ⟨by omega, ?_, ?_, ?_⟩
        · intro _ hh; cases hh
        · intro e he; cases he
        · intro s' hs'
          simp only [Except.ok.injEq] at hs'
          subst hs'
          exact ⟨h2, h3⟩
    · rw [h]
      simp only
      refine ⟨by omega, ?_, ?_, ?_⟩
      · intro _ hh; cases hh
      · intro e he
        simp only [Except.error.injEq] at he
        right; exact ⟨i, hlen, he.symm⟩
      · intro s' hs'; cases hs'

/-- A returning `do ... while` loop has begun at least one pass and has
consumed one bit, the continuation bit, per pass. -/
theorem repeat_loop_counted_ok (mem : List uint8_t) (is_hints : Bool) (a b : Nat) :
    ∀ (fuel : Nat) (s s' : tga_fd_t × Tga),
      s.1.decode_bit_pos ≤ 7 →
      (repeat_loop_counted mem is_hints a b fuel s).1 = .ok s' →
      s'.1.decode_bit_pos ≤ 7 ∧ 1 ≤ (repeat_loop_counted mem is_hints a b fuel s).2 ∧
      bit_index s'.1 = bit_index s.1 + (repeat_loop_counted mem is_hints a b fuel s).2 := by
  intro fuel
  induction fuel with
  | zero =>
    intro s s' _ hs'
    simp only [repeat_loop_counted] at hs'
    cases hs'
  | succ fuel ih =>
    intro s s' hb
    rw [repeat_loop_counted_succ]
    have hcur := apply_run_cursor is_hints a b s
    have hb1 : (apply_run is_hints a b s).1.decode_bit_pos ≤ 7 := by rw [hcur.2]; exact hb
    have hi1 : bit_index (apply_run is_hints a b s).1 = bit_index s.1 := by
      simp only [bit_index, hcur.1, hcur.2]
    cases h : tga_fd_get_unsigned_bits mem (apply_run is_hints a b s).1 1 with
    | error e => intro hs'; cases hs'
    | ok r =>
      obtain ⟨c, f1⟩ := r
      obtain ⟨h1, h2⟩ := get_unsigned_bits_advance mem _ f1 1 c hb1 (by omega) h
      rw [hi1] at h1
      simp only
      by_cases hc : c ≠ 0
      · simp only [if_pos hc]
        intro hs'
        obtain ⟨k1, k2, k3⟩ := ih (f1, (apply_run is_hints a b s).2) s' h2 hs'
        simp only at k3
        exact ⟨k1, by omega, by omega⟩
      · simp only [if_neg hc]
        intro hs'
        simp only [Except.ok.injEq] at hs'
        subst hs'
        exact ⟨h2, by omega, by simp only; omega⟩

/-- Passes of the counted `for(;;)` loop: at most one per bit left in the blob;
fuel for the bits left is enough; the loop fails only on a read behind the
blob's end; it returns only with `y >= glyph_height`. -/
theorem glyph_loop_counted_bound (font : Font) (mem : List uint8_t) (is_hints : Bool)
    (h0 : font.bits_per_0 ≤ 8) (h1 : font.bits_per_1 ≤ 8) :
    ∀ (fuel : Nat) (s : tga_fd_t × Tga),
      s.1.decode_bit_pos ≤ 7 →
      (glyph_loop_counted font mem is_hints fuel s).2 ≤ 8 * mem.length - bit_index s.1 ∧
      (1 ≤ fuel → 8 * mem.length ≤ bit_index s.1 + fuel →
        (glyph_loop_counted font mem is_hints fuel s).1 ≠ .error .fuel) ∧
      (∀ e, (glyph_loop_counted font mem is_hints fuel s).1 = .error e →
        e = .fuel ∨ ∃ i, mem.length ≤ i ∧ e = .out_of_bounds i) ∧
      (∀ s', (glyph_loop_counted font mem is_hints fuel s).1 = .ok s' →
        s'.1.glyph_height ≤ s'.1.y) := by
  intro fuel
  induction fuel with
  | zero =>
    intro s hb
    refine ⟨Nat.zero_le _, ?_, ?_, ?_⟩
    · intro h; omega
    · intro e he; left
      simp only [glyph_loop_counted] at he
      cases he; rfl
    · intro s' hs'
      simp only [glyph_loop_counted] at hs'
      cases hs'
  | succ fuel ih =>
    intro s hb
    obtain ⟨f, t⟩ := s
    simp only at hb
    rw [glyph_loop_counted_succ]
    rcases get_unsigned_bits_total mem f font.bits_per_0 hb h0 with
      ⟨a, f1, ha, ha1, ha2, ha3⟩ | ⟨i, hlen, ha⟩
    · rw [ha]
      simp only
      rcases get_unsigned_bits_total mem f1 font.bits_per_1 ha2 h1 with
        ⟨b, f2, hb', hb1, hb2, hb3⟩ | ⟨i, hlen, hb'⟩
      · rw [hb']
        simp only
        obtain ⟨r1, r2, r3, r4⟩ :=
          repeat_loop_counted_bound mem is_hints a b (fuel + 1) (f2, t) hb2 hb3
        simp only at r1 r2
        cases hr : (repeat_loop_counted mem is_hints a b (fuel + 1) (f2, t)).1 with
        | error e =>
          simp only
          refine ⟨by omega, ?_, ?_, ?_⟩
          · intro _ hf hh
            simp only [Except.error.injEq] at hh
            subst hh
            exact r2 (by omega) hr
          · intro e' he'
            simp only [Except.error.injEq] at he'
            subst he'
            exact r3 e hr
          · intro s' hs'; cases hs'
        | ok s1 =>
          obtain ⟨q1, q2, q3⟩ :=
            repeat_loop_counted_ok mem is_hints a b (fuel + 1) (f2, t) s1 hb2 hr
          obtain ⟨q4, q5⟩ := r4 s1 hr
          simp only at q3
          simp only
          by_cases hy : s1.1.y ≥ s1.1.glyph_height
          · simp only [if_pos hy]
            refine ⟨by omega, ?_, ?_, ?_⟩
            · intro _ _ hh; cases hh
            · intro e he; cases he
            · intro s' hs'
              simp only [Except.ok.injEq] at hs'
              subst hs'
              exact hy
          · simp only [if_neg hy]
            obtain ⟨k1, k2, k3, k4⟩ := ih s1 q1
            refine ⟨by omega, ?_, k3, k4⟩
            intro _ hf
            exact k2 (by omega) (by omega)
      · rw [hb']
        simp only
        refine ⟨Nat.zero_le _, ?_, ?_, ?_⟩
        · intro _ _ hh; cases hh
        · intro e he
          simp only [Except.error.injEq] at he
          right; exact ⟨i, hlen, he.symm⟩
        · intro s' hs'; cases hs'
    · rw [ha]
      simp only
      refine ⟨Nat.zero_le _, ?_, ?_, ?_⟩
      · intro _ _ hh; cases hh
      · intro e he
        simp only [Except.error.injEq] at he
        right; exact ⟨i, hlen, he.symm⟩
      · intro s' hs'; cases hs'

/-- More fuel does not change the outcome of a `do ... while` loop that did not
run out of fuel. -/
theorem repeat_loop_fuel_mono (mem : List uint8_t) (is_hints : Bool) (a b : Nat) :
    ∀ (fuel : Nat) (s : tga_fd_t × Tga),
      repeat_loop mem is_hints a b fuel s ≠ .error .fuel →
      ∀ k, repeat_loop mem is_hints a b (fuel + k) s = repeat_loop mem is_hints a b fuel s := by
  intro fuel
  induction fuel with
  | zero => intro s h; exact absurd rfl h
  | succ fuel ih =>
    intro s h k
    have e : fuel + 1 + k = (fuel + k) + 1 := by omega
    rw [e, repeat_loop_succ, repeat_loop_succ]
    rw [repeat_loop_succ] at h
    cases hr : tga_fd_get_unsigned_bits mem (apply_run is_hints a b s).1 1 with
    | error e => rfl
    | ok r =>
      obtain ⟨c, f1⟩ := r
      rw [hr] at h
      simp only at h
      simp only
      by_cases hc : c ≠ 0
      · simp only [if_pos hc] at h
        simp only [if_pos hc]
        exact ih _ h k
      · simp only [if_neg hc]

/-- More fuel does not change the outcome of a `for(;;)` loop that did not run
out of fuel. -/
theorem glyph_loop_fuel_mono (font : Font) (mem : List uint8_t) (is_hints : Bool) :
    ∀ (fuel : Nat) (s : tga_fd_t × Tga),
      glyph_loop font mem is_hints fuel s ≠ .error .fuel →
      ∀ k, glyph_loop font mem is_hints (fuel + k) s = glyph_loop font mem is_hints fuel s := by
  intro fuel
  induction fuel with
  | zero => intro s h; exact absurd rfl h
  | succ fuel ih =>
    intro s h k
    obtain ⟨f, t⟩ := s
    have e : fuel + 1 + k = (fuel + k) + 1 := by omega
    rw [e, glyph_loop_succ, glyph_loop_succ]
    rw [glyph_loop_succ] at h
    cases ha : tga_fd_get_unsigned_bits mem f font.bits_per_0 with
    | error e => rfl
    | ok r1 =>
      obtain ⟨a, f1⟩ := r1
      rw [ha] at h
      simp only at h
      simp only
      cases hb : tga_fd_get_unsigned_bits mem f1 font.bits_per_1 with
      | error e => rfl
      | ok r2 =>
        obtain ⟨b, f2⟩ := r2
        rw [hb] at h
        simp only at h
        simp only
        have hne : repeat_loop mem is_hints a b (fuel + 1) (f2, t) ≠ .error .fuel := by
          intro hh
          rw [hh] at h
          exact h rfl
        have e2 : fuel + k + 1 = (fuel + 1) + k := by omega
        rw [e2, repeat_loop_fuel_mono mem is_hints a b (fuel + 1) (f2, t) hne k]
        cases hr : repeat_loop mem is_hints a b (fuel + 1) (f2, t) with
        | error e => rfl
        | ok s1 =>
          rw [hr] at h
          simp only at h
          simp only
          by_cases hy : s1.1.y ≥ s1.1.glyph_height
          · simp only [if_pos hy]
          · simp only [if_neg hy] at h
            simp only [if_neg hy]
            exact ih _ h k

/-- With field widths of at most 8 bits the geometry fields are read, ending
inside the blob, or a read fails behind the blob's end. -/
theorem glyph_header_total (font : Font) (mem : List uint8_t) (g : Nat)
    (hw : field_widths_le_8 font) :
    (∃ hd, glyph_header font mem g = .ok hd ∧ hd.decode_bit_pos ≤ 7 ∧
      8 * hd.decode_ptr + hd.decode_bit_pos < 8 * mem.length) ∨
    (∃ i, mem.length ≤ i ∧ glyph_header font mem g = .error (.out_of_bounds i)) := by
  obtain ⟨_, _, w1, w2, w3, w4, w5⟩ := hw
  have hb0 : (cursor (g + 2) 0).decode_bit_pos ≤ 7 := by simp [cursor]
  rcases get_unsigned_bits_total mem (cursor (g + 2) 0) font.bits_per_char_width hb0 w1 with
    ⟨w, c1, e1, _, b1, _⟩ | ⟨i, hi, e1⟩
  · rcases get_unsigned_bits_total mem c1 font.bits_per_char_height b1 w2 with
      ⟨h, c2, e2, _, b2, _⟩ | ⟨i, hi, e2⟩
    · rcases get_signed_bits_total mem c2 font.bits_per_char_x b2 w3 with
        ⟨x, c3, e3, _, b3, _⟩ | ⟨i, hi, e3⟩
      · rcases get_signed_bits_total mem c3 font.bits_per_char_y b3 w4 with
          ⟨y, c4, e4, _, b4, _⟩ | ⟨i, hi, e4⟩
        · rcases get_signed_bits_total mem c4 font.bits_per_delta_x b4 w5 with
            ⟨d, c5, e5, _, b5, i5⟩ | ⟨i, hi, e5⟩
          · left
            exact ⟨_, glyph_header_of_reads font mem g w h x y d c1 c2 c3 c4 c5 e1 e2 e3 e4 e5,
              b5, i5⟩
          · right
            refine ⟨i, hi, ?_⟩
            simp only [glyph_header, bind, Except.bind, e1, e2, e3, e4, e5]
        · right
          refine ⟨i, hi, ?_⟩
          simp only [glyph_header, bind, Except.bind, e1, e2, e3, e4]
      · right
        refine ⟨i, hi, ?_⟩
        simp only [glyph_header, bind, Except.bind, e1, e2, e3]
    · right
      refine ⟨i, hi, ?_⟩
      simp only [glyph_header, bind, Except.bind, e1, e2]
  · right
    refine ⟨i, hi, ?_⟩
    simp only [glyph_header, bind, Except.bind, e1]

/-- With fuel for the bits of the blob `tga_fd_decode` gives the outcome it
gives with fuel `8 * mem.length`: it returns, with `y >= glyph_height` when the
glyph has a positive width, or a read fails behind the blob's end. -/
theorem decode_outcome (font : Font) (mem : List uint8_t) (f : tga_fd_t) (t : Tga)
    (g : Nat) (is_hints : Bool) (hw : field_widths_le_8 font)
    (fuel : Nat) (hf : 8 * mem.length ≤ fuel) :
    tga_fd_decode font mem fuel f t g is_hints =
      tga_fd_decode font mem (8 * mem.length) f t g is_hints ∧
    ((∃ r f' t', tga_fd_decode font mem fuel f t g is_hints = .ok (r, f', t') ∧
        (0 < f'.glyph_width → f'.glyph_height ≤ f'.y)) ∨
     (∃ i, mem.length ≤ i ∧
        tga_fd_decode font mem fuel f t g is_hints = .error (.out_of_bounds i))) := by
  rw [decode_eq, decode_eq]
  rcases glyph_header_total font mem g hw with ⟨hd, hh, hbp, hidx⟩ | ⟨i, hi, hh⟩
  · rw [hh]
    simp only
    by_cases hwid : hd.glyph_width > 0
    · simp only [if_pos hwid]
      have hb : (loop_start f hd, t).1.decode_bit_pos ≤ 7 := hbp
      have hi : bit_index (loop_start f hd, t).1 = 8 * hd.decode_ptr + hd.decode_bit_pos := rfl
      obtain ⟨_, k2, k3, k4⟩ :=
        glyph_loop_counted_bound font mem is_hints hw.1 hw.2.1 (8 * mem.length)
          (loop_start f hd, t) hb
      rw [glyph_loop_counted_fst] at k2 k3 k4
      have hne := k2 (by omega) (by omega)
      obtain ⟨k, hk⟩ : ∃ k, fuel = 8 * mem.length + k := ⟨fuel - 8 * mem.length, by omega⟩
      have hmono := glyph_loop_fuel_mono font mem is_hints (8 * mem.length) (loop_start f hd, t)
        hne k
      rw [hk, hmono]
      refine ⟨rfl, ?_⟩
      cases hr : glyph_loop font mem is_hints (8 * mem.length) (loop_start f hd, t) with
      | error e =>
        right
        rcases k3 e hr with he | ⟨i, hi, he⟩
        · rw [he] at hr; exact absurd hr hne
        · exact ⟨i, hi, by rw [he]; rfl⟩
      | ok s' =>
        left
        exact ⟨_, s'.1, s'.2, rfl, fun _ => k4 s' hr⟩
    · simp only [if_neg hwid]
      refine ⟨trivial, Or.inl ⟨_, _, _, rfl, ?_⟩⟩
      intro h0
      exact absurd h0 hwid
  · rw [hh]
    exact ⟨rfl, Or.inr ⟨i, hi, rfl⟩⟩

/-- The passes of the inner loop that a decode begins are at most the bits of
the blob behind the glyph's geometry fields. -/
theorem decode_passes_le (font : Font) (mem : List uint8_t) (f : tga_fd_t) (t : Tga)
    (g : Nat) (is_hints : Bool) (hw : field_widths_le_8 font) (fuel : Nat) :
    decode_passes font mem fuel f t g is_hints ≤
      8 * mem.length - (8 * (g + 2) + (font.bits_per_char_width + font.bits_per_char_height +
        font.bits_per_char_x + font.bits_per_char_y + font.bits_per_delta_x)) := by
  unfold decode_passes
  cases hh : glyph_header font mem g with
  | error e => exact Nat.zero_le _
  | ok hd =>
    simp only
    by_cases hwid : hd.glyph_width > 0
    · simp only [if_pos hwid]
      obtain ⟨he, hbp⟩ := glyph_header_end font mem g hd hw hh
      have hb : (loop_start f hd, t).1.decode_bit_pos ≤ 7 := hbp
      have hi : bit_index (loop_start f hd, t).1 = 8 * hd.decode_ptr + hd.decode_bit_pos := rfl
      obtain ⟨k1, _⟩ :=
        glyph_loop_counted_bound font mem is_hints hw.1 hw.2.1 fuel (loop_start f hd, t) hb
      rw [hi, he] at k1
      exact k1
    · simp only [if_neg hwid]
      exact Nat.zero_le _

/-- With run-length fields of no bits and continuation bits that are all
nonzero the decode of `c19_mem` ends with the read that fails behind the blob's
end, in the twelfth pass: as many passes as there are bits behind the geometry
fields, `8 * 5 - (8 * 2 + 12)`. -/
theorem decode_zero_counts_ends :
    tga_fd_decode c19_font c19_mem 40 c10_state (white 4 4) 0 false
      = .error (.out_of_bounds 5) ∧
    decode_passes c19_font c19_mem 40 c10_state (white 4 4) 0 false = 12 := by
  decide

/-- Claim C19: with all field widths at most 8 and bounds-checked reads,
`tga_fd_decode` terminates on every blob: fuel `8 * mem.length` (one unit per bit
of the blob) is never exhausted and more fuel gives the same outcome; the outcome
is a return, with `y >= glyph_height` when the loop was entered, or a read that
failed behind the blob's end.  The passes of the inner skip/paint loop that are
begun are at most the bits of the blob behind the geometry fields (the counted
loops have the outcome of the decoder's loops); a returning `do ... while` loop
has made at least one pass and consumed exactly one bit, the continuation bit,
per pass; and a pass makes `a + b < 2^9` calls of `tga_fd_inc` for the counts
`a`, `b` read.  Field widths of no bits and counts that are all zero are
included. -/
theorem C19_decode_bounded (font : Font) (mem : List uint8_t) (f : tga_fd_t) (t : Tga)
    (g : Nat) (is_hints : Bool) (hw : field_widths_le_8 font) :
    (∀ fuel, 8 * mem.length ≤ fuel →
      tga_fd_decode font mem fuel f t g is_hints ≠ .error .fuel ∧
      tga_fd_decode font mem fuel f t g is_hints =
        tga_fd_decode font mem (8 * mem.length) f t g is_hints) ∧
    ((∃ r f' t', tga_fd_decode font mem (8 * mem.length) f t g is_hints = .ok (r, f', t') ∧
        (0 < f'.glyph_width → f'.glyph_height ≤ f'.y)) ∨
     (∃ i, mem.length ≤ i ∧
        tga_fd_decode font mem (8 * mem.length) f t g is_hints =
          .error (.out_of_bounds i))) ∧
    (∀ fuel, decode_passes font mem fuel f t g is_hints ≤
      8 * mem.length - (8 * (g + 2) +
        (font.bits_per_char_width + font.bits_per_char_height +
         font.bits_per_char_x + font.bits_per_char_y + font.bits_per_delta_x))) ∧
    (∀ fuel s, (glyph_loop_counted font mem is_hints fuel s).1 =
      glyph_loop font mem is_hints fuel s) ∧
    (∀ a b fuel s, (repeat_loop_counted mem is_hints a b fuel s).1 =
      repeat_loop mem is_hints a b fuel s) ∧
    (∀ a b fuel s s', s.1.decode_bit_pos ≤ 7 →
      (repeat_loop_counted mem is_hints a b fuel s).1 = .ok s' →
      1 ≤ (repeat_loop_counted mem is_hints a b fuel s).2 ∧
      bit_index s'.1 = bit_index s.1 + (repeat_loop_counted mem is_hints a b fuel s).2) ∧
    (∀ f1 a f2 b f3,
      tga_fd_get_unsigned_bits mem f1 font.bits_per_0 = .ok (a, f2) →
      tga_fd_get_unsigned_bits mem f2 font.bits_per_1 = .ok (b, f3) →
      a + b < 2 ^ 9 ∧
      ∀ s, (apply_run is_hints a b s).1 = tga_fd_inc^[a + b] s.1 ∧
        (apply_run is_hints a b s).1.inc_calls = s.1.inc_calls + (a + b)) := by
  refine ⟨?_, ?_, ?_, ?_, ?_, ?_, ?_⟩
  · intro fuel hf
    obtain ⟨h1, h2⟩ := decode_outcome font mem f t g is_hints hw fuel hf
    refine ⟨?_, h1⟩
    intro he
    rcases h2 with ⟨r, f', t', hr, _⟩ | ⟨i, _, hr⟩
    · rw [hr] at he; cases he
    · rw [hr] at he; cases he
  · exact (decode_outcome font mem f t g is_hints hw (8 * mem.length) (Nat.le_refl _)).2
  · exact decode_passes_le font mem f t g is_hints hw
  · exact glyph_loop_counted_fst font mem is_hints
  · exact repeat_loop_counted_fst mem is_hints
  · intro a b fuel s s' hb hs'
    obtain ⟨_, k2, k3⟩ := repeat_loop_counted_ok mem is_hints a b fuel s s' hb hs'
    exact ⟨k2, k3⟩
  · intro f1 a f2 b f3 ha hb
    have la := get_unsigned_bits_lt mem f1 f2 font.bits_per_0 a ha
    have lb := get_unsigned_bits_lt mem f2 f3 font.bits_per_1 b hb
    have pa : 2 ^ font.bits_per_0 ≤ 2 ^ 8 := Nat.pow_le_pow_right (by decide) hw.1
    have pb : 2 ^ font.bits_per_1 ≤ 2 ^ 8 := Nat.pow_le_pow_right (by decide) hw.2.1
    refine ⟨by omega, ?_⟩
    intro s
    refine ⟨apply_run_fst is_hints a b s, ?_⟩
    rw [apply_run_fst, inc_iterate_calls]

/-- Claim C19 at the font `c19_font`, whose run-length fields have no bits, and
the blob `c19_mem`. -/
theorem C19_decode_bounded_witness :
    field_widths_le_8 c19_font ∧
  ((∀ fuel, 8 * c19_mem.length ≤ fuel →
        tga_fd_decode c19_font c19_mem fuel c10_state (white 4 4) 0 false ≠ .error .fuel ∧
        tga_fd_decode c19_font c19_mem fuel c10_state (white 4 4) 0 false =
          tga_fd_decode c19_font c19_mem (8 * c19_mem.length) c10_state (white 4 4) 0 false) ∧
      ((∃ r f' t', tga_fd_decode c19_font c19_mem (8 * c19_mem.length) c10_state (white 4 4) 0 false = .ok (r, f', t') ∧
          (0 < f'.glyph_width → f'.glyph_height ≤ f'.y)) ∨
       (∃ i, c19_mem.length ≤ i ∧
          tga_fd_decode c19_font c19_mem (8 * c19_mem.length) c10_state (white 4 4) 0 false =
            .error (.out_of_bounds i))) ∧
      (∀ fuel, decode_passes c19_font c19_mem fuel c10_state (white 4 4) 0 false ≤
        8 * c19_mem.length - (8 * (0 + 2) +
          (c19_font.bits_per_char_width + c19_font.bits_per_char_height +
           c19_font.bits_per_char_x + c19_font.bits_per_char_y + c19_font.bits_per_delta_x))) ∧
      (∀ fuel s, (glyph_loop_counted c19_font c19_mem false fuel s).1 =
        glyph_loop c19_font c19_mem false fuel s) ∧
      (∀ a b fuel s, (repeat_loop_counted c19_mem false a b fuel s).1 =
        repeat_loop c19_mem false a b fuel s) ∧
      (∀ a b fuel s s', s.1.decode_bit_pos ≤ 7 →
        (repeat_loop_counted c19_mem false a b fuel s).1 = .ok s' →
        1 ≤ (repeat_loop_counted c19_mem false a b fuel s).2 ∧
        bit_index s'.1 = bit_index s.1 + (repeat_loop_counted c19_mem false a b fuel s).2) ∧
      (∀ f1 a f2 b f3,
        tga_fd_get_unsigned_bits c19_mem f1 c19_font.bits_per_0 = .ok (a, f2) →
        tga_fd_get_unsigned_bits c19_mem f2 c19_font.bits_per_1 = .ok (b, f3) →
        a + b < 2 ^ 9 ∧
        ∀ s, (apply_run false a b s).1 = tga_fd_inc^[a + b] s.1 ∧
          (apply_run false a b s).1.inc_calls = s.1.inc_calls + (a + b))) :=
  ⟨by decide, C19_decode_bounded c19_font c19_mem c10_state (white 4 4) 0 false (by decide)⟩

/-- A raster that `tga_init` has set up is the white raster of 16-bit
dimensions whose `3 * width * height` bytes are counted by an `int`: the rasters
that `tga_save` is given. -/
theorem tga_init_raster (malloc_ok : Bool) (w h r : Nat) (t : Tga)
    (hinit : tga_init malloc_ok w h = .ok (r, t)) :
    t.tga_width < 65536 ∧ t.tga_height < 65536 ∧ well_formed t ∧
    t.tga_width * t.tga_height * 3 < 2 ^ 31 ∧
    (malloc_ok = true → r = 1 ∧ t = white (w % 65536) (h % 65536)) := by
  unfold tga_init at hinit
  simp only at hinit
  cases malloc_ok with
  | false =>
    simp only [Bool.not_false, if_true, Except.ok.injEq, Prod.mk.injEq] at hinit
    obtain ⟨_, ht⟩ := hinit
    subst ht
    refine ⟨by decide, by decide, rfl, by decide, ?_⟩
    intro hh; cases hh
  | true =>
    simp only [Bool.not_true, Bool.false_eq_true, if_false] at hinit
    by_cases hov : 2 ^ 31 ≤ w % 65536 * (h % 65536) * 3
    · rw [if_pos hov] at hinit; cases hinit
    · rw [if_neg hov] at hinit
      simp only [Except.ok.injEq, Prod.mk.injEq] at hinit
      obtain ⟨hr, ht⟩ := hinit
      subst ht
      refine ⟨Nat.mod_lt _ (by decide), Nat.mod_lt _ (by decide), ?_, Nat.lt_of_not_le hov, ?_⟩
      · simp only [well_formed, List.length_replicate]
      · intro _
        exact ⟨hr.symm, rfl⟩

/-- A failing read fails on a byte behind the blob's end that holds one of the
bits asked for or the bit right behind them. -/
theorem get_unsigned_bits_fault_bound (mem : List uint8_t) (f : tga_fd_t) (cnt : Nat)
    (e : Fault) (hb : f.decode_bit_pos ≤ 7) (hc : cnt ≤ 8)
    (h : tga_fd_get_unsigned_bits mem f cnt = .error e) :
    ∃ i, e = .out_of_bounds i ∧ mem.length ≤ i ∧ 8 * i ≤ bit_index f + cnt := by
  cases hcur : mem[f.decode_ptr]? with
  | none =>
    rw [get_unsigned_bits_absent mem f cnt hcur] at h
    simp only [Except.error.injEq] at h
    refine ⟨f.decode_ptr, h.symm, List.getElem?_eq_none_iff.mp hcur, ?_⟩
    simp only [bit_index]; omega
  | some cur =>
    by_cases hlt : f.decode_bit_pos + cnt < 8
    · rw [get_unsigned_bits_within mem f cnt cur hcur hlt] at h
      cases h
    · have hge : 8 ≤ f.decode_bit_pos + cnt := Nat.le_of_not_lt hlt
      cases hnext : mem[f.decode_ptr + 1]? with
      | none =>
        rw [get_unsigned_bits_cross_fault mem f cnt cur hcur hnext hb hc hge] at h
        simp only [Except.error.injEq] at h
        refine ⟨f.decode_ptr + 1, h.symm, List.getElem?_eq_none_iff.mp hnext, ?_⟩
        simp only [bit_index]; omega
      | some next =>
        rw [get_unsigned_bits_cross mem f cnt cur next hcur hnext hb hc hge] at h
        cases h

/-- A failing signed read fails as the unsigned read does. -/
theorem get_signed_bits_fault_bound (mem : List uint8_t) (f : tga_fd_t) (cnt : Nat)
    (e : Fault) (hb : f.decode_bit_pos ≤ 7) (hc : cnt ≤ 8)
    (h : tga_fd_get_signed_bits mem f cnt = .error e) :
    ∃ i, e = .out_of_bounds i ∧ mem.length ≤ i ∧ 8 * i ≤ bit_index f + cnt := by
  cases hr : tga_fd_get_unsigned_bits mem f cnt with
  | error e' =>
    have he : e' = e := by
      simp only [tga_fd_get_signed_bits, bind, Except.bind, hr, Except.error.injEq] at h
      exact h
    rw [he] at hr
    exact get_unsigned_bits_fault_bound mem f cnt e hb hc hr
  | ok r =>
    obtain ⟨v, f'⟩ := r
    rw [get_signed_bits_of_unsigned mem f f' cnt v (by omega) hr] at h
    cases h

/-- A successful read returns the same on every blob that holds the bytes it
loads and agrees on the bits read. -/
theorem get_unsigned_bits_congr_ok (mem mem' : List uint8_t) (f f' : tga_fd_t) (cnt v : Nat)
    (hb : f.decode_bit_pos ≤ 7) (hc : cnt ≤ 8)
    (h : tga_fd_get_unsigned_bits mem f cnt = .ok (v, f'))
    (hlen : bit_index f + cnt < 8 * mem'.length)
    (hbits : ∀ k, bit_index f ≤ k → k < bit_index f + cnt → stream_bit mem' k = stream_bit mem k) :
    tga_fd_get_unsigned_bits mem' f cnt = .ok (v, f') := by
  rw [← h]
  obtain ⟨cur, hcur, hcase⟩ := get_unsigned_bits_ok_cases mem f f' cnt v hb hc h
  simp only [bit_index] at hlen
  obtain ⟨cur', hcur'⟩ := getElem?_of_lt mem' f.decode_ptr (by omega)
  by_cases hge : 8 ≤ f.decode_bit_pos + cnt
  · rcases hcase with ⟨hlt, _⟩ | ⟨_, ⟨next, hnext⟩, _⟩
    · omega
    · obtain ⟨next', hnext'⟩ := getElem?_of_lt mem' (f.decode_ptr + 1) (by omega)
      rw [get_unsigned_bits_cross mem f cnt cur next hcur hnext hb hc hge,
        get_unsigned_bits_cross mem' f cnt cur' next' hcur' hnext' hb hc hge]
      congr 2
      apply formula_congr _ _ _ _ _ _ hb
      intro i hi
      have hk := hbits (bit_index f + i) (by omega) (by omega)
      simp only [bit_index, Nat.add_assoc] at hk
      by_cases h8 : f.decode_bit_pos + i < 8
      · rw [stream_bit_cur mem _ _ cur hcur h8, stream_bit_cur mem' _ _ cur' hcur' h8] at hk
        simp only [h8, if_true, hk]
      · rw [stream_bit_next mem _ _ next hnext (by omega) (by omega),
          stream_bit_next mem' _ _ next' hnext' (by omega) (by omega)] at hk
        simp only [h8, if_false, hk]
  · have hlt : f.decode_bit_pos + cnt < 8 := by omega
    rw [get_unsigned_bits_within mem f cnt cur hcur hlt,
      get_unsigned_bits_within mem' f cnt cur' hcur' hlt]
    congr 2
    rw [shr_mod_eq_or_shl_mod cur.val cur.val _ cnt hlt,
      shr_mod_eq_or_shl_mod cur'.val cur'.val _ cnt hlt]
    apply formula_congr _ _ _ _ _ _ hb
    intro i hi
    have hk := hbits (bit_index f + i) (by omega) (by omega)
    simp only [bit_index, Nat.add_assoc] at hk
    have h8 : f.decode_bit_pos + i < 8 := by omega
    rw [stream_bit_cur mem _ _ cur hcur h8, stream_bit_cur mem' _ _ cur' hcur' h8] at hk
    simp only [h8, if_true, hk]

/-- A successful signed read returns the same on every blob that holds the
bytes it loads and agrees on the bits read. -/
theorem get_signed_bits_congr_ok (mem mem' : List uint8_t) (f f' : tga_fd_t) (cnt : Nat)
    (d : Int) (hb : f.decode_bit_pos ≤ 7) (hc : cnt ≤ 8)
    (h : tga_fd_get_signed_bits mem f cnt = .ok (d, f'))
    (hlen : bit_index f + cnt < 8 * mem'.length)
    (hbits : ∀ k, bit_index f ≤ k → k < bit_index f + cnt → stream_bit mem' k = stream_bit mem k) :
    tga_fd_get_signed_bits mem' f cnt = .ok (d, f') := by
  obtain ⟨v, hv, hc31, hd⟩ := get_signed_bits_ok mem f f' cnt d h
  rw [get_signed_bits_of_unsigned mem' f f' cnt v hc31
    (get_unsigned_bits_congr_ok mem mem' f f' cnt v hb hc hv hlen hbits), hd]

/-- With field widths of at most 8 bits a failing read of the geometry fields
fails on a byte behind the blob's end, not behind the byte that holds the bit
right behind the advance field. -/
theorem glyph_header_fault_bound (font : Font) (mem : List uint8_t) (g : Nat) (e : Fault)
    (hw : field_widths_le_8 font) (h : glyph_header font mem g = .error e) :
    ∃ i, e = .out_of_bounds i ∧ mem.length ≤ i ∧
      8 * i ≤ 8 * (g + 2) + (font.bits_per_char_width + font.bits_per_char_height +
        font.bits_per_char_x + font.bits_per_char_y + font.bits_per_delta_x) := by
  obtain ⟨_, _, w1, w2, w3, w4, w5⟩ := hw
  have hb0 : (cursor (g + 2) 0).decode_bit_pos ≤ 7 := by simp [cursor]
  have h0 : bit_index (cursor (g + 2) 0) = 8 * (g + 2) := by simp [bit_index, cursor]
  simp only [glyph_header, bind, Except.bind, pure, Except.pure] at h
  cases e1 : tga_fd_get_unsigned_bits mem (cursor (g + 2) 0) font.bits_per_char_width with
  | error e' =>
    rw [e1] at h; simp only [Except.error.injEq] at h; subst h
    obtain ⟨i, hi, hl, hbd⟩ := get_unsigned_bits_fault_bound mem _ _ _ hb0 w1 e1
    exact ⟨i, hi, hl, by omega⟩
  | ok r1 =>
    obtain ⟨w, c1⟩ := r1
    rw [e1] at h; simp only at h
    obtain ⟨a1, b1⟩ := get_unsigned_bits_advance mem _ _ _ _ hb0 w1 e1
    cases e2 : tga_fd_get_unsigned_bits mem c1 font.bits_per_char_height with
    | error e' =>
      rw [e2] at h; simp only [Except.error.injEq] at h; subst h
      obtain ⟨i, hi, hl, hbd⟩ := get_unsigned_bits_fault_bound mem _ _ _ b1 w2 e2
      exact ⟨i, hi, hl, by omega⟩
    | ok r2 =>
      obtain ⟨hh, c2⟩ := r2
      rw [e2] at h; simp only at h
      obtain ⟨a2, b2⟩ := get_unsigned_bits_advance mem _ _ _ _ b1 w2 e2
      cases e3 : tga_fd_get_signed_bits mem c2 font.bits_per_char_x with
      | error e' =>
        rw [e3] at h; simp only [Except.error.injEq] at h; subst h
        obtain ⟨i, hi, hl, hbd⟩ := get_signed_bits_fault_bound mem _ _ _ b2 w3 e3
        exact ⟨i, hi, hl, by omega⟩
      | ok r3 =>
        obtain ⟨x, c3⟩ := r3
        rw [e3] at h; simp only at h
        obtain ⟨a3, b3⟩ := get_signed_bits_advance mem _ _ _ _ b2 w3 e3
        cases e4 : tga_fd_get_signed_bits mem c3 font.bits_per_char_y with
        | error e' =>
          rw [e4] at h; simp only [Except.error.injEq] at h; subst h
          obtain ⟨i, hi, hl, hbd⟩ := get_signed_bits_fault_bound mem _ _ _ b3 w4 e4
          exact ⟨i, hi, hl, by omega⟩
        | ok r4 =>
          obtain ⟨y, c4⟩ := r4
          rw [e4] at h; simp only at h
          obtain ⟨a4, b4⟩ := get_signed_bits_advance mem _ _ _ _ b3 w4 e4
          cases e5 : tga_fd_get_signed_bits mem c4 font.bits_per_delta_x with
          | error e' =>
            rw [e5] at h; simp only [Except.error.injEq] at h; subst h
            obtain ⟨i, hi, hl, hbd⟩ := get_signed_bits_fault_bound mem _ _ _ b4 w5 e5
            exact ⟨i, hi, hl, by omega⟩
          | ok r5 =>
            rw [e5] at h; cases h

/-- The geometry fields are the same on every blob that holds the byte of the
bit right behind the advance field and agrees on the bits before it. -/
theorem glyph_header_congr_ok (font : Font) (mem mem' : List uint8_t) (g : Nat)
    (hd : GlyphHeader) (hw : field_widths_le_8 font)
    (h : glyph_header font mem g = .ok hd)
    (hlen : 8 * hd.decode_ptr + hd.decode_bit_pos < 8 * mem'.length)
    (hbits : ∀ k, k < 8 * hd.decode_ptr + hd.decode_bit_pos →
      stream_bit mem' k = stream_bit mem k) :
    glyph_header font mem' g = .ok hd := by
  obtain ⟨_, _, hw1, hw2, hw3, hw4, hw5⟩ := hw
  obtain ⟨c1, c2, c3, c4, c5, h1, h2, h3, h4, h5, hp, hb⟩ := glyph_header_ok font mem g hd h
  have hb0 : (cursor (g + 2) 0).decode_bit_pos ≤ 7 := by simp [cursor]
  obtain ⟨a1, b1⟩ := get_unsigned_bits_advance mem _ _ _ _ hb0 hw1 h1
  obtain ⟨a2, b2⟩ := get_unsigned_bits_advance mem _ _ _ _ b1 hw2 h2
  obtain ⟨a3, b3⟩ := get_signed_bits_advance mem _ _ _ _ b2 hw3 h3
  obtain ⟨a4, b4⟩ := get_signed_bits_advance mem _ _ _ _ b3 hw4 h4
  obtain ⟨a5, b5⟩ := get_signed_bits_advance mem _ _ _ _ b4 hw5 h5
  have hend : 8 * hd.decode_ptr + hd.decode_bit_pos = bit_index c5 := by
    rw [hp, hb]; rfl
  rw [hend] at hbits hlen
  have e1 := get_unsigned_bits_congr_ok mem mem' _ _ _ _ hb0 hw1 h1 (by omega)
    (fun k _ hk => hbits k (by omega))
  have e2 := get_unsigned_bits_congr_ok mem mem' c1 _ _ _ b1 hw2 h2 (by omega)
    (fun k _ hk => hbits k (by omega))
  have e3 := get_signed_bits_congr_ok mem mem' c2 _ _ _ b2 hw3 h3 (by omega)
    (fun k _ hk => hbits k (by omega))
  have e4 := get_signed_bits_congr_ok mem mem' c3 _ _ _ b3 hw4 h4 (by omega)
    (fun k _ hk => hbits k (by omega))
  have e5 := get_signed_bits_congr_ok mem mem' c4 _ _ _ b4 hw5 h5 (by omega)
    (fun k _ hk => hbits k (by omega))
  have := glyph_header_of_reads font mem' g _ _ _ _ _ _ _ _ _ _ e1 e2 e3 e4 e5
  rw [this]
  congr 1
  cases hd
  simp only at hp hb
  simp [hp, hb]

/-- Claim C5 as stated fails on a glyph of width 0 whose advance field, holding
`5 - 128 = -123`, ends on a byte boundary.  The value returned is 4294967173,
not the declared advance.  And the byte behind the advance field is read: on
`c5b_mem`, which ends with the advance field (the five fields take the 16 bits
behind the two entry bytes), the decode fails on the byte with index 4, while it
returns on `c5b_long`, the same blob followed by one byte. -/
theorem C5_byte_behind_advance_is_read :
    glyph_header c5b_font c5b_long 0 = .ok c5b_header ∧
    c5b_header.glyph_width = 0 ∧ c5b_header.d = -123 ∧
    tga_fd_decode c5b_font c5b_long 0 c5_state (white 2 2) 0 false
      = .ok (4294967173, after_header c5_state c5b_header, white 2 2) ∧
    ((4294967173 : Nat) : Int) ≠ c5b_header.d ∧
    c5b_long = c5b_mem ++ [0xFF] ∧
    8 * (0 + 2) + (c5b_font.bits_per_char_width + c5b_font.bits_per_char_height +
      c5b_font.bits_per_char_x + c5b_font.bits_per_char_y + c5b_font.bits_per_delta_x)
      = 8 * c5b_mem.length ∧
    tga_fd_decode c5b_font c5b_mem 0 c5_state (white 2 2) 0 false
      = .error (.out_of_bounds 4) := by
  decide

/-- Claim C5, amended: for a glyph whose decoded `glyph_width` is 0,
`tga_fd_decode` returns, for any fuel, the advance field converted to the
function's return type `unsigned`, that is the advance modulo `2^32` (the advance
itself when it is not negative, the advance plus `2^32` when it is negative), and
leaves the raster as it was; `target_x` and `target_y` are unchanged and the read
cursor stays right behind the advance field.  With all field widths at most 8:
the last byte loaded is the one that holds the bit right behind the advance
field, byte `g + 2 + S / 8` for the sum `S` of the five field widths, and it lies
inside the blob; on every blob that holds this byte and agrees on the bits
before the end of the advance field, whatever the run-length region holds, the
outcome is the same; on a blob that ends before this byte the decode fails on a
read behind the blob's end, at this byte or before it. -/
theorem C5_zero_width_glyph (font : Font) (mem : List uint8_t) (fuel : Nat) (f : tga_fd_t)
    (t : Tga) (g : Nat) (is_hints : Bool) (hd : GlyphHeader)
    (h : glyph_header font mem g = .ok hd) (hw : hd.glyph_width = 0) :
    ∃ r f', tga_fd_decode font mem fuel f t g is_hints = .ok (r, f', t) ∧
      (r : Int) = hd.d % 2 ^ 32 ∧
      (0 ≤ hd.d → (r : Int) = hd.d) ∧ (hd.d < 0 → (r : Int) = hd.d + 2 ^ 32) ∧
      f'.target_x = f.target_x ∧ f'.target_y = f.target_y ∧
      f'.decode_ptr = hd.decode_ptr ∧ f'.decode_bit_pos = hd.decode_bit_pos ∧
      (field_widths_le_8 font →
        bit_index f' = 8 * (g + 2) + (font.bits_per_char_width +
          font.bits_per_char_height + font.bits_per_char_x +
          font.bits_per_char_y + font.bits_per_delta_x) ∧
        g + 2 + (font.bits_per_char_width + font.bits_per_char_height +
          font.bits_per_char_x + font.bits_per_char_y +
          font.bits_per_delta_x) / 8 < mem.length ∧
        (∀ mem' : List uint8_t,
          g + 2 + (font.bits_per_char_width + font.bits_per_char_height +
            font.bits_per_char_x + font.bits_per_char_y +
            font.bits_per_delta_x) / 8 < mem'.length →
          (∀ k, k < bit_index f' → stream_bit mem' k = stream_bit mem k) →
          tga_fd_decode font mem' fuel f t g is_hints = .ok (r, f', t)) ∧
        (∀ mem' : List uint8_t,
          mem'.length ≤ g + 2 + (font.bits_per_char_width +
            font.bits_per_char_height + font.bits_per_char_x +
            font.bits_per_char_y + font.bits_per_delta_x) / 8 →
          ∃ i, mem'.length ≤ i ∧
            i ≤ g + 2 + (font.bits_per_char_width + font.bits_per_char_height +
              font.bits_per_char_x + font.bits_per_char_y +
              font.bits_per_delta_x) / 8 ∧
            tga_fd_decode font mem' fuel f t g is_hints = .error (.out_of_bounds i))) := by
  have hc := to_unsigned_cast hd.d
  obtain ⟨hlo, hhi⟩ := glyph_header_d_range font mem g hd h
  refine ⟨to_unsigned hd.d, after_header f hd,
    decode_zero_width font mem fuel f t g is_hints hd h hw, ?_, ?_, ?_, rfl, rfl, rfl, rfl, ?_⟩
  · rw [hc]; norm_num
  · intro h0; omega
  · intro h0; omega
  intro hfw
  have hend := glyph_header_end font mem g hd hfw h
  have hidx : bit_index (after_header f hd) = 8 * hd.decode_ptr + hd.decode_bit_pos := rfl
  refine ⟨by rw [hidx]; exact hend.1, ?_, ?_, ?_⟩
  · rcases glyph_header_total font mem g hfw with ⟨hd', hh', _, hlt⟩ | ⟨i, _, hh'⟩
    · rw [h] at hh'
      simp only [Except.ok.injEq] at hh'
      subst hh'
      have := hend.1
      omega
    · rw [h] at hh'; cases hh'
  · intro mem' hlen hbits
    rw [hidx] at hbits
    have h' := glyph_header_congr_ok font mem mem' g hd hfw h
      (by have := hend.1; omega) hbits
    exact decode_zero_width font mem' fuel f t g is_hints hd h' hw
  · intro mem' hlen
    rcases glyph_header_total font mem' g hfw with ⟨hd', hh', _, hlt⟩ | ⟨i, hi, hh'⟩
    · have := (glyph_header_end font mem' g hd' hfw hh').1
      omega
    · obtain ⟨i', he, _, hbd⟩ := glyph_header_fault_bound font mem' g _ hfw hh'
      simp only [Fault.out_of_bounds.injEq] at he
      subst he
      refine ⟨i, hi, by omega, ?_⟩
      rw [decode_eq, hh']

/-- Witness of claim C5, amended: the zero-width glyph of `c5b_long`, whose
advance field ends on a byte boundary. -/
theorem C5_zero_width_glyph_witness :
    glyph_header c5b_font c5b_long 0 = .ok c5b_header ∧ c5b_header.glyph_width = 0 ∧
  (∃ r f', tga_fd_decode c5b_font c5b_long 0 c5_state (white 2 2) 0 true = .ok (r, f', (white 2 2)) ∧
        (r : Int) = c5b_header.d % 2 ^ 32 ∧
        (0 ≤ c5b_header.d → (r : Int) = c5b_header.d) ∧ (c5b_header.d < 0 → (r : Int) = c5b_header.d + 2 ^ 32) ∧
        f'.target_x = c5_state.target_x ∧ f'.target_y = c5_state.target_y ∧
        f'.decode_ptr = c5b_header.decode_ptr ∧ f'.decode_bit_pos = c5b_header.decode_bit_pos ∧
        (field_widths_le_8 c5b_font →
          bit_index f' = 8 * (0 + 2) + (c5b_font.bits_per_char_width +
            c5b_font.bits_per_char_height + c5b_font.bits_per_char_x +
            c5b_font.bits_per_char_y + c5b_font.bits_per_delta_x) ∧
          0 + 2 + (c5b_font.bits_per_char_width + c5b_font.bits_per_char_height +
            c5b_font.bits_per_char_x + c5b_font.bits_per_char_y +
            c5b_font.bits_per_delta_x) / 8 < c5b_long.length ∧
          (∀ mem' : List uint8_t,
            0 + 2 + (c5b_font.bits_per_char_width + c5b_font.bits_per_char_height +
              c5b_font.bits_per_char_x + c5b_font.bits_per_char_y +
              c5b_font.bits_per_delta_x) / 8 < mem'.length →
            (∀ k, k < bit_index f' → stream_bit mem' k = stream_bit c5b_long k) →
            tga_fd_decode c5b_font mem' 0 c5_state (white 2 2) 0 true = .ok (r, f', (white 2 2))) ∧
          (∀ mem' : List uint8_t,
            mem'.length ≤ 0 + 2 + (c5b_font.bits_per_char_width +
              c5b_font.bits_per_char_height + c5b_font.bits_per_char_x +
              c5b_font.bits_per_char_y + c5b_font.bits_per_delta_x) / 8 →
            ∃ i, mem'.length ≤ i ∧
              i ≤ 0 + 2 + (c5b_font.bits_per_char_width + c5b_font.bits_per_char_height +
                c5b_font.bits_per_char_x + c5b_font.bits_per_char_y +
                c5b_font.bits_per_delta_x) / 8 ∧
              tga_fd_decode c5b_font mem' 0 c5_state (white 2 2) 0 true = .error (.out_of_bounds i)))) :=
  ⟨by decide, by decide,
    C5_zero_width_glyph c5b_font c5b_long 0 c5_state (white 2 2) 0 true c5b_header
      (by decide) (by decide)⟩

/-- Claim C10 as stated fails: the 2 x 2 glyph of `c10b_mem`, a single run
`skip = 0, paint = 4` with continuation bit 0, drawn at origin `(1, 3)` on a white
raster of 4 x 4 pixels with `is_hints` off, declares the advance -8; the value
`tga_fd_decode` returns is 4294967288, not the declared advance. -/
theorem C10_negative_advance_not_unmodified :
    glyph_header demo_font c10b_mem 0 = .ok c10b_header ∧
    0 < c10b_header.glyph_width ∧ 0 < c10b_header.glyph_height ∧
    encodes demo_font c10b_mem [(0, c10b_header.glyph_width * c10b_header.glyph_height, 1)]
      (cursor c10b_header.decode_ptr c10b_header.decode_bit_pos) = true ∧
    well_formed (white 4 4) ∧
    0 ≤ (c10_state.target_x : Int) + c10b_header.x ∧
    (c10_state.target_x : Int) + c10b_header.x + c10b_header.glyph_width ≤ 65536 ∧
    0 ≤ (c10_state.target_y : Int) - c10b_header.glyph_height - c10b_header.y ∧
    (c10_state.target_y : Int) - c10b_header.glyph_height - c10b_header.y
      + c10b_header.glyph_height ≤ 65536 ∧
    c10b_header.d = -8 ∧
    (tga_fd_decode demo_font c10b_mem 1 c10_state (white 4 4) 0 false).map (fun r => r.1)
      = .ok 4294967288 ∧
    ((4294967288 : Nat) : Int) ≠ c10b_header.d := by
  decide

end BdfTga
